import Mathlib

/-!
# go-brainfxxk: the translator, the peephole optimizer and the two interpreters

A shallow embedding of `src/optimized3/main.go` (`parseFromReader`,
`optimizedLoop`, `translateProgram`, `runOptInterpreter`) and of
`src/simple/main.go` (`runSimpleInterpreter`).

Conventions of the embedding.

* A Go `byte` is a `Nat` below 256; every byte operation carries its `% 256`.
* A Go `int` (op arguments, the data pointer, the program counter of the
  bytecode loop) is an `Int`; program sizes are far below `2^63`, so no `int`
  operation of the source overflows.
* `memory := make([]byte, MEMORY_SIZE)` is a map `Int → Nat` that is only ever
  accessed at an index `i` with `0 ≤ i < MEMORY_SIZE`; an access outside this
  range is the Go run-time panic "index out of range" (`Outcome.panic`).
* `os.Stdin` is the list of bytes still to be read; a read from the empty list
  is the error `io.EOF` that the interpreters return.
* The `io.Reader` given to `parseFromReader` is the list of the results of its
  `Read` calls (`ReadResult`), one byte or a failure each, ended by `io.EOF`.
* `fmt.Printf("%c", b)` appends the character `b` to the list of printed
  characters (`VM.output`); the bytes that reach standard output are the UTF-8
  encoding of that list (`stdoutBytes`), one byte for a character below 128
  and two bytes for the others.
* The interpreter loops may run forever, so they take a step budget and
  return `none` when it is used up.
-/

namespace Brainfxxk

/-! ## Constants and data model -/

/-- The constant `MEMORY_SIZE`. -/
def MEMORY_SIZE : Int := 30000

/-- The byte `'>'`. -/
abbrev cRight : Nat := 62
/-- The byte `'<'`. -/
abbrev cLeft : Nat := 60
/-- The byte `'+'`. -/
abbrev cPlus : Nat := 43
/-- The byte `'-'`. -/
abbrev cMinus : Nat := 45
/-- The byte `'.'`. -/
abbrev cDot : Nat := 46
/-- The byte `','`. -/
abbrev cComma : Nat := 44
/-- The byte `'['`. -/
abbrev cOpen : Nat := 91
/-- The byte `']'`. -/
abbrev cClose : Nat := 93

/-- The type `opKind` with its twelve constants, in the order of the `iota` block. -/
inductive OpKind where
  | INVALID_OP
  | INC_PTR
  | DEC_PTR
  | INC_DATA
  | DEC_DATA
  | READ_STDIN
  | WRITE_STDOUT
  | JUMP_IF_DATA_ZERO
  | JUMP_IF_DATA_NOT_ZERO
  | LOOP_SET_TO_ZERO
  | LOOP_MOVE_PTR
  | LOOP_MOVE_DATA
  deriving DecidableEq, Repr

/-- The struct `op`. -/
structure Op where
  opKind : OpKind
  argument : Int
  deriving DecidableEq, Repr

/-- The errors the Go functions return (the values built by `fmt.Errorf`, and
the read error of standard input). -/
inductive Err where
  /-- `unmatched closing ']' at pc=%d` of `translateProgram`. -/
  | unmatchedClosing (pc : Nat)
  /-- `INVALID_OP encountered on pc=%d` of `runOptInterpreter`. -/
  | invalidOp (pc : Int)
  /-- The error of `os.Stdin.Read` at the end of the input. -/
  | readEOF
  /-- `unmatched '[' at pc=%d` of `runSimpleInterpreter`. -/
  | simpleUnmatchedOpen (pc : Nat)
  /-- `unmatched ']' at pc=%d` of `runSimpleInterpreter`. -/
  | simpleUnmatchedClose (pc : Nat)
  /-- `bad char '%c' instruction at pc=%d` of `runSimpleInterpreter`. -/
  | badChar (c : Nat) (pc : Nat)
  /-- The error, other than `io.EOF`, that `reader.Read` returned to
  `parseFromReader`. -/
  | readFailed
  deriving DecidableEq, Repr

/-- How a run of an interpreter ends: `return nil`, `return err`, or a Go
run-time panic (index out of range). -/
inductive Outcome where
  | ok
  | error (e : Err)
  | panic
  deriving DecidableEq, Repr

/-! ## The peephole optimizer and the translator -/

/-- The function `optimizedLoop`. `ops[start]` is the pending
`JUMP_IF_DATA_ZERO`; the indexed reads are inside the slice because of the
length tests before them. `len(ops)-start` is compared with 2 and 5 only, so
truncated subtraction decides the same. -/
def optimizedLoop (ops : List Op) (start : Nat) : List Op :=
  if ops.length - start = 2 then
    match ops[start + 1]? with
    | some repeatedOp =>
      if repeatedOp.opKind = .INC_DATA ∨ repeatedOp.opKind = .DEC_DATA then
        [⟨.LOOP_SET_TO_ZERO, 0⟩]
      else if repeatedOp.opKind = .INC_PTR ∨ repeatedOp.opKind = .DEC_PTR then
        if repeatedOp.opKind = .INC_PTR then
          [⟨.LOOP_MOVE_PTR, repeatedOp.argument⟩]
        else
          [⟨.LOOP_MOVE_PTR, -repeatedOp.argument⟩]
      else []
    | none => []
  else if ops.length - start = 5 then
    match ops[start + 1]?, ops[start + 2]?, ops[start + 3]?, ops[start + 4]? with
    | some o1, some o2, some o3, some o4 =>
      if o1.opKind = .DEC_DATA ∧ o3.opKind = .INC_DATA ∧
          o1.argument = 1 ∧ o3.argument = 1 then
        if o2.opKind = .INC_PTR ∧ o4.opKind = .DEC_PTR ∧
            o2.argument = o4.argument then
          [⟨.LOOP_MOVE_DATA, o2.argument⟩]
        else if o2.opKind = .DEC_PTR ∧ o4.opKind = .INC_PTR ∧
            o2.argument = o4.argument then
          [⟨.LOOP_MOVE_DATA, -o2.argument⟩]
        else []
      else []
    | _, _, _, _ => []
  else []

/-- The `switch char` of `translateProgram` that picks the kind of a folded op. -/
def kindOfChar (c : Nat) : OpKind :=
  if c = cRight then .INC_PTR
  else if c = cLeft then .DEC_PTR
  else if c = cPlus then .INC_DATA
  else if c = cMinus then .DEC_DATA
  else if c = cComma then .READ_STDIN
  else if c = cDot then .WRITE_STDOUT
  else .INVALID_OP

/-- The assignment `ops[i].argument = a`; at its only use `i` is the index of
the pending `JUMP_IF_DATA_ZERO`, inside the slice. -/
def setArgument (ops : List Op) (i : Nat) (a : Int) : List Op :=
  match ops[i]? with
  | some o => ops.set i { o with argument := a }
  | none => ops

/-- The loop `for pc < programSize` of `translateProgram`, as a function of the
instructions from `pc` on, of `pc`, of `optProgram.instructions` and of
`openBracketStack` (the top of the stack is the head of the list). It returns
the final instructions together with the final bracket stack. -/
def translateLoop (rest : List Nat) (pc : Nat) (ops : List Op) (stack : List Nat) :
    Except Err (List Op × List Nat) :=
  match rest with
  | [] => .ok (ops, stack)
  | char :: cs =>
    if char = cOpen then
      translateLoop cs (pc + 1) (ops ++ [⟨.JUMP_IF_DATA_ZERO, 0⟩]) (ops.length :: stack)
    else if char = cClose then
      match stack with
      | [] => .error (.unmatchedClosing pc)
      | openBracketOffset :: stack' =>
        let optimizedOps := optimizedLoop ops openBracketOffset
        if optimizedOps.length = 0 then
          translateLoop cs (pc + 1)
            (setArgument ops openBracketOffset ops.length ++
              [⟨.JUMP_IF_DATA_NOT_ZERO, openBracketOffset⟩]) stack'
        else
          translateLoop cs (pc + 1) (ops.take openBracketOffset ++ optimizedOps) stack'
    else
      let repeatNum := (cs.takeWhile (fun x => decide (x = char))).length + 1
      translateLoop (cs.dropWhile (fun x => decide (x = char))) (pc + repeatNum)
        (ops ++ [⟨kindOfChar char, repeatNum⟩]) stack
termination_by rest.length
decreasing_by
  all_goals simp_wf
  all_goals first
    | omega
    | exact Nat.lt_succ_of_le (List.dropWhile_sublist _).length_le

/-- The function `translateProgram`: the loop from `pc = 0` with no
instruction and an empty bracket stack; the bracket stack is dropped at the
end. -/
def translateProgram (p : List Nat) : Except Err (List Op) :=
  match translateLoop p 0 [] [] with
  | .ok (ops, _) => .ok ops
  | .error e => .error e

/-! ## The bytecode interpreter -/

/-- The variables of an interpreter run: `pc`, `dataPtr`, `memory`, the bytes
of standard input not yet read and the characters printed so far. -/
@[ext]
structure VM where
  pc : Int
  dataPtr : Int
  memory : Int → Nat
  input : List Nat
  output : List Nat

/-- The state at the start of `runOptInterpreter` and `runSimpleInterpreter`:
zeroed memory, `pc = 0`, `dataPtr = 0`, nothing written. -/
def VM.init (input : List Nat) : VM :=
  { pc := 0, dataPtr := 0, memory := fun _ => 0, input := input, output := [] }

/-- Whether `memory[i]` is inside the slice; otherwise the access panics. -/
def inBounds (i : Int) : Prop := 0 ≤ i ∧ i < MEMORY_SIZE

instance (i : Int) : Decidable (inBounds i) := by
  unfold inBounds; infer_instance

/-- The conversion `byte(op.argument)`: the low eight bits of the `int`. -/
def byteOf (a : Int) : Nat := (a % 256).toNat

/-- The result of one pass through the body of an interpreter loop: go on
with the next state, or leave the function with an outcome. -/
inductive Step where
  | next (s : VM)
  | halt (o : Outcome) (s : VM)

/-- The loop of `case WRITE_STDOUT`, with `n` iterations left: each iteration
prints `memory[dataPtr]`. -/
def writeLoop : Nat → VM → Step
  | 0, s => .next s
  | n + 1, s =>
    if inBounds s.dataPtr then
      writeLoop n { s with output := s.output ++ [s.memory s.dataPtr] }
    else .halt .panic s

/-- The loop of `case READ_STDIN`, with `n` iterations left: each iteration
reads one byte, returns the read error if there is none, and stores the byte
in `memory[dataPtr]`. -/
def readLoop : Nat → VM → Step
  | 0, s => .next s
  | n + 1, s =>
    match s.input with
    | [] => .halt (.error .readEOF) s
    | b :: bs =>
      if inBounds s.dataPtr then
        readLoop n { s with input := bs, memory := Function.update s.memory s.dataPtr b }
      else .halt .panic { s with input := bs }

/-- The `switch kind` of `runOptInterpreter` with the `pc++` that follows it,
for the op `o` fetched at `s.pc`. The inner loop of `LOOP_MOVE_PTR` is taken
one iteration at a time: while the cell is not zero the pointer moves and the
program counter stays on the op. -/
def execOp (o : Op) (s : VM) : Step :=
  match o.opKind with
  | .INC_PTR => .next { s with dataPtr := s.dataPtr + o.argument, pc := s.pc + 1 }
  | .DEC_PTR => .next { s with dataPtr := s.dataPtr - o.argument, pc := s.pc + 1 }
  | .INC_DATA =>
    if inBounds s.dataPtr then
      .next { s with
        memory := Function.update s.memory s.dataPtr
          ((s.memory s.dataPtr + byteOf o.argument) % 256),
        pc := s.pc + 1 }
    else .halt .panic s
  | .DEC_DATA =>
    if inBounds s.dataPtr then
      .next { s with
        memory := Function.update s.memory s.dataPtr
          ((s.memory s.dataPtr + 256 - byteOf o.argument) % 256),
        pc := s.pc + 1 }
    else .halt .panic s
  | .WRITE_STDOUT =>
    match writeLoop o.argument.toNat s with
    | .next s' => .next { s' with pc := s'.pc + 1 }
    | .halt out s' => .halt out s'
  | .READ_STDIN =>
    match readLoop o.argument.toNat s with
    | .next s' => .next { s' with pc := s'.pc + 1 }
    | .halt out s' => .halt out s'
  | .JUMP_IF_DATA_ZERO =>
    if inBounds s.dataPtr then
      if s.memory s.dataPtr ≠ 0 then .next { s with pc := s.pc + 1 }
      else .next { s with pc := o.argument + 1 }
    else .halt .panic s
  | .JUMP_IF_DATA_NOT_ZERO =>
    if inBounds s.dataPtr then
      if s.memory s.dataPtr = 0 then .next { s with pc := s.pc + 1 }
      else .next { s with pc := o.argument + 1 }
    else .halt .panic s
  | .LOOP_SET_TO_ZERO =>
    if inBounds s.dataPtr then
      .next { s with memory := Function.update s.memory s.dataPtr 0, pc := s.pc + 1 }
    else .halt .panic s
  | .LOOP_MOVE_PTR =>
    if inBounds s.dataPtr then
      if s.memory s.dataPtr > 0 then .next { s with dataPtr := s.dataPtr + o.argument }
      else .next { s with pc := s.pc + 1 }
    else .halt .panic s
  | .LOOP_MOVE_DATA =>
    if inBounds s.dataPtr then
      if s.memory s.dataPtr > 0 then
        let moveToPrt := s.dataPtr + o.argument
        if inBounds moveToPrt then
          let memory1 := Function.update s.memory moveToPrt
            ((s.memory moveToPrt + s.memory s.dataPtr) % 256)
          .next { s with memory := Function.update memory1 s.dataPtr 0, pc := s.pc + 1 }
        else .halt .panic s
      else .next { s with pc := s.pc + 1 }
    else .halt .panic s
  | .INVALID_OP => .halt (.error (.invalidOp s.pc)) s

/-- The loop `for pc < len(optProgram.instructions)` of `runOptInterpreter`
over the bytecode `prog`, with a budget of `fuel` passes: `none` when the
budget is used up, otherwise how the run ends and the state it ends in. The
fetch `optProgram.instructions[pc]` panics for a negative `pc`. -/
def runOps (prog : List Op) : Nat → VM → Option (Outcome × VM)
  | 0, _ => none
  | fuel + 1, s =>
    if s.pc < prog.length then
      if s.pc < 0 then some (.panic, s)
      else
        match prog[s.pc.toNat]? with
        | some o =>
          match execOp o s with
          | .next s' => runOps prog fuel s'
          | .halt out s' => some (out, s')
        | none => some (.panic, s)
    else some (.ok, s)

/-- The function `runOptInterpreter`: translate, return the translation error
if there is one, otherwise run the bytecode from the initial state. -/
def runOptInterpreter (fuel : Nat) (p : List Nat) (input : List Nat) :
    Option (Outcome × VM) :=
  match translateProgram p with
  | .error e => some (.error e, VM.init input)
  | .ok prog => runOps prog fuel (VM.init input)

/-- The bytes `fmt.Printf("%c", b)` writes for a byte `b`: the UTF-8 encoding
of the code point `b`. -/
def utf8OfByte (b : Nat) : List Nat :=
  if b < 128 then [b] else [192 + b / 64, 128 + b % 64]

/-- The bytes written to standard output for a list of printed characters. -/
def stdoutBytes (out : List Nat) : List Nat :=
  (out.map utf8OfByte).flatten

/-! ## The rescanning interpreter (`src/simple/main.go`) -/

/-- The forward scan of `case '['` in `runSimpleInterpreter`: `rest` holds the
instructions after index `pc`. Each round stops when `bracketNesting` is 0,
else increments `pc`, stops when `pc` has reached the end of the program, else
counts the bracket at `pc`. Returns the final `pc` and `bracketNesting`. -/
def scanForward : List Nat → Nat → Nat → Nat × Nat
  | [], pc, bracketNesting =>
    if bracketNesting = 0 then (pc, 0) else (pc + 1, bracketNesting)
  | c :: cs, pc, bracketNesting =>
    if bracketNesting = 0 then (pc, 0)
    else if c = cClose then scanForward cs (pc + 1) (bracketNesting - 1)
    else if c = cOpen then scanForward cs (pc + 1) (bracketNesting + 1)
    else scanForward cs (pc + 1) bracketNesting

/-- The backward scan of `case ']'` in `runSimpleInterpreter`:
`for (bracketNesting != 0) && (pc > 0)`, each round decrementing `pc` and
counting the bracket at `pc` (an index below the length of the program).
Returns the final `pc` and `bracketNesting`. -/
def scanBackward (p : List Nat) : Nat → Nat → Nat × Nat
  | 0, bracketNesting => (0, bracketNesting)
  | pc + 1, bracketNesting =>
    if bracketNesting = 0 then (pc + 1, 0)
    else if p.getD pc 0 = cOpen then scanBackward p pc (bracketNesting - 1)
    else if p.getD pc 0 = cClose then scanBackward p pc (bracketNesting + 1)
    else scanBackward p pc bracketNesting

/-- The `switch char` of `runSimpleInterpreter` with the `pc++` that follows
it, for the instruction `char` fetched at `s.pc` of the program `p`. -/
def execChar (p : List Nat) (char : Nat) (s : VM) : Step :=
  if char = cRight then .next { s with dataPtr := s.dataPtr + 1, pc := s.pc + 1 }
  else if char = cLeft then .next { s with dataPtr := s.dataPtr - 1, pc := s.pc + 1 }
  else if char = cPlus then
    if inBounds s.dataPtr then
      .next { s with
        memory := Function.update s.memory s.dataPtr ((s.memory s.dataPtr + 1) % 256),
        pc := s.pc + 1 }
    else .halt .panic s
  else if char = cMinus then
    if inBounds s.dataPtr then
      .next { s with
        memory := Function.update s.memory s.dataPtr ((s.memory s.dataPtr + 255) % 256),
        pc := s.pc + 1 }
    else .halt .panic s
  else if char = cDot then
    if inBounds s.dataPtr then
      .next { s with output := s.output ++ [s.memory s.dataPtr], pc := s.pc + 1 }
    else .halt .panic s
  else if char = cComma then
    match s.input with
    | [] => .halt (.error .readEOF) s
    | b :: bs =>
      if inBounds s.dataPtr then
        .next { s with
          input := bs, memory := Function.update s.memory s.dataPtr b, pc := s.pc + 1 }
      else .halt .panic { s with input := bs }
  else if char = cOpen then
    if inBounds s.dataPtr then
      if s.memory s.dataPtr ≠ 0 then .next { s with pc := s.pc + 1 }
      else
        let savedPC := s.pc.toNat
        let r := scanForward (p.drop (savedPC + 1)) savedPC 1
        if r.2 ≠ 0 then .halt (.error (.simpleUnmatchedOpen savedPC)) { s with pc := r.1 }
        else .next { s with pc := (r.1 : Int) + 1 }
    else .halt .panic s
  else if char = cClose then
    if inBounds s.dataPtr then
      if s.memory s.dataPtr = 0 then .next { s with pc := s.pc + 1 }
      else
        let savedPC := s.pc.toNat
        let r := scanBackward p savedPC 1
        if r.2 ≠ 0 then .halt (.error (.simpleUnmatchedClose savedPC)) { s with pc := r.1 }
        else .next { s with pc := (r.1 : Int) + 1 }
    else .halt .panic s
  else .halt (.error (.badChar char s.pc.toNat)) s

/-- The loop `for pc < len(p.instructions)` of `runSimpleInterpreter`, with a
budget of `fuel` passes: `none` when the budget is used up. -/
def runChars (p : List Nat) : Nat → VM → Option (Outcome × VM)
  | 0, _ => none
  | fuel + 1, s =>
    if s.pc < p.length then
      if s.pc < 0 then some (.panic, s)
      else
        match p[s.pc.toNat]? with
        | some char =>
          match execChar p char s with
          | .next s' => runChars p fuel s'
          | .halt out s' => some (out, s')
        | none => some (.panic, s)
    else some (.ok, s)

/-- The function `runSimpleInterpreter`, from the initial state. -/
def runSimpleInterpreter (fuel : Nat) (p : List Nat) (input : List Nat) :
    Option (Outcome × VM) :=
  runChars p fuel (VM.init input)

/-! ## Notions of the specification used in the statements -/

/-- The nesting depth after the instructions `p`, starting from depth `d`:
`'['` opens a loop, `']'` closes the innermost open one; `none` when a `']'`
comes with no loop open. -/
def bracketDepth : List Nat → Nat → Option Nat
  | [], d => some d
  | c :: cs, d =>
    if c = cOpen then bracketDepth cs (d + 1)
    else if c = cClose then
      if d = 0 then none else bracketDepth cs (d - 1)
    else bracketDepth cs d

/-- A source program has balanced brackets: every `']'` closes an open `'['`
and no `'['` is left open at the end. -/
def Balanced (p : List Nat) : Prop := bracketDepth p 0 = some 0

instance (p : List Nat) : Decidable (Balanced p) := by
  unfold Balanced; infer_instance

/-- The index of the first `']'` that has no open `'['` pending, in a program
read from index `i` on with `d` loops open. -/
def firstUnmatchedClose : List Nat → Nat → Nat → Option Nat
  | [], _, _ => none
  | c :: cs, d, i =>
    if c = cOpen then firstUnmatchedClose cs (d + 1) (i + 1)
    else if c = cClose then
      if d = 0 then some i else firstUnmatchedClose cs (d - 1) (i + 1)
    else firstUnmatchedClose cs d (i + 1)

/-- The source program `+[--].`. -/
def evenClearProgram : List Nat := [cPlus, cOpen, cMinus, cMinus, cClose, cDot]

/-- The six source symbols that fold into counted ops: `> < + - , .`. -/
def isFoldable (c : Nat) : Prop :=
  c = cRight ∨ c = cLeft ∨ c = cPlus ∨ c = cMinus ∨ c = cComma ∨ c = cDot

instance (c : Nat) : Decidable (isFoldable c) := by
  unfold isFoldable; infer_instance

/-- The source symbol that an op kind stands for: `INC_PTR` for `>`, `DEC_PTR`
for `<`, `INC_DATA` for `+`, `DEC_DATA` for `-`, `READ_STDIN` for `,` and
`WRITE_STDOUT` for `.`; the other kinds stand for no single symbol. -/
def symbolOfKind : OpKind → Option Nat
  | .INC_PTR => some cRight
  | .DEC_PTR => some cLeft
  | .INC_DATA => some cPlus
  | .DEC_DATA => some cMinus
  | .READ_STDIN => some cComma
  | .WRITE_STDOUT => some cDot
  | _ => none

/-- The source text a folded bytecode stands for: each op written out as
`argument` copies of its symbol. -/
def unfoldOps (ops : List Op) : List Nat :=
  (ops.map (fun o =>
    match symbolOfKind o.opKind with
    | some c => List.replicate o.argument.toNat c
    | none => [])).flatten

/-- The state of the jump ops while `translateProgram` runs, for the
instructions `ops` built so far and the bracket stack `stack` (top first):
the stack holds, in decreasing order, indices of `JUMP_IF_DATA_ZERO` ops;
every other `JUMP_IF_DATA_ZERO` points forward at a `JUMP_IF_DATA_NOT_ZERO`
that points back at it; every `JUMP_IF_DATA_NOT_ZERO` points back at such a
partner, which is not on the stack; two pairs never cross; and a pair that
starts before a pending `[` ends before it. -/
structure PairInv (ops : List Op) (stack : List Nat) : Prop where
  sorted : stack.Pairwise (fun a b => b < a)
  pending : ∀ s ∈ stack, ∃ a, ops[s]? = some ⟨.JUMP_IF_DATA_ZERO, a⟩
  opens : ∀ (i : Nat) (a : Int), ops[i]? = some ⟨.JUMP_IF_DATA_ZERO, a⟩ →
    i ∈ stack ∨ ∃ j : Nat, a = (j : Int) ∧ i < j ∧
      ops[j]? = some ⟨.JUMP_IF_DATA_NOT_ZERO, (i : Int)⟩
  closes : ∀ (j : Nat) (a : Int), ops[j]? = some ⟨.JUMP_IF_DATA_NOT_ZERO, a⟩ →
    ∃ i : Nat, a = (i : Int) ∧ i < j ∧
      ops[i]? = some ⟨.JUMP_IF_DATA_ZERO, (j : Int)⟩ ∧ i ∉ stack
  nested : ∀ i j i' j' : Nat,
    ops[i]? = some ⟨.JUMP_IF_DATA_ZERO, (j : Int)⟩ →
    ops[j]? = some ⟨.JUMP_IF_DATA_NOT_ZERO, (i : Int)⟩ →
    ops[i']? = some ⟨.JUMP_IF_DATA_ZERO, (j' : Int)⟩ →
    ops[j']? = some ⟨.JUMP_IF_DATA_NOT_ZERO, (i' : Int)⟩ →
    i < i' → i' < j → j' < j
  fenced : ∀ s ∈ stack, ∀ i j : Nat,
    ops[i]? = some ⟨.JUMP_IF_DATA_ZERO, (j : Int)⟩ →
    ops[j]? = some ⟨.JUMP_IF_DATA_NOT_ZERO, (i : Int)⟩ →
    i < s → j < s

/-- The bytecode that the fallback branch of `translateProgram` (no
replacement from `optimizedLoop`) builds for a loop with the ops `body` that
starts the program: the pending `JUMP_IF_DATA_ZERO` at index 0 gets the index
of the closing jump as argument, and a `JUMP_IF_DATA_NOT_ZERO` with argument 0
is appended. -/
def jumpPairCode (body : List Op) : List Op :=
  setArgument (⟨.JUMP_IF_DATA_ZERO, 0⟩ :: body) 0 ((⟨.JUMP_IF_DATA_ZERO, 0⟩ :: body).length) ++
    [⟨.JUMP_IF_DATA_NOT_ZERO, 0⟩]

/-- The unoptimized bytecode of the loop `[->^k+<^k]` (`fwd`) or `[-<^k+>^k]`. -/
def moveLoopCode (fwd : Bool) (k : Nat) : List Op :=
  jumpPairCode [⟨.DEC_DATA, 1⟩, ⟨if fwd then .INC_PTR else .DEC_PTR, k⟩, ⟨.INC_DATA, 1⟩,
    ⟨if fwd then .DEC_PTR else .INC_PTR, k⟩]

/-- The unoptimized bytecode of the loop `[+^n]` or (`dec`) `[-^n]`. -/
def clearLoopCode (dec : Bool) (n : Nat) : List Op :=
  jumpPairCode [⟨if dec then .DEC_DATA else .INC_DATA, n⟩]

/-- The unoptimized bytecode of the loop `[>^k]` (`fwd`) or `[<^k]`. -/
def scanLoopCode (fwd : Bool) (k : Nat) : List Op :=
  jumpPairCode [⟨if fwd then .INC_PTR else .DEC_PTR, k⟩]

/-- The argument `optimizedLoop` gives to the op that replaces a loop moving
by `k`: `k` to the right, `-k` to the left. -/
def signedOffset (fwd : Bool) (k : Nat) : Int := if fwd then (k : Int) else -(k : Int)
/-- The amount the loop body `INC_DATA n` (or, for `dec`, `DEC_DATA n`) adds
to a cell modulo 256. -/
def stepByte (dec : Bool) (n : Nat) : Nat :=
  if dec then 256 - byteOf n else byteOf n

/-- A state at the start of a bytecode: pointer at cell 0, which holds `v`;
every other cell zero, no input, nothing printed. -/
def cellState (v : Nat) : VM :=
  { pc := 0, dataPtr := 0, memory := Function.update (fun _ => 0) 0 v, input := [], output := [] }
/-- How many more moves by the stride a pointer at `p` can make before it
leaves the tape: the distance to the end of the tape when moving right, to
its start when moving left. -/
def scanRoom (fwd : Bool) (p : Int) : Nat :=
  if fwd then (MEMORY_SIZE - p).toNat else (p + 1).toNat

/-! ## The parser -/

/-- What one call `reader.Read(buf)` with the one-byte buffer of
`parseFromReader` returns before the end of the stream, for a reader that
behaves as the opened file of `main` does: one byte with a nil error, or an
error other than `io.EOF`. A reader is the list of these results; past its
end `Read` returns no byte and `io.EOF`. -/
inductive ReadResult where
  | byte (b : Nat)
  | failure
  deriving DecidableEq, Repr

/-- The `case` list of the `switch buf[0]` of `parseFromReader`: the eight
instruction symbols `> < + - . , [ ]`. -/
def isInstruction (b : Nat) : Prop :=
  b = cRight ∨ b = cLeft ∨ b = cPlus ∨ b = cMinus ∨ b = cDot ∨ b = cComma ∨
    b = cOpen ∨ b = cClose

instance (b : Nat) : Decidable (isInstruction b) := by
  unfold isInstruction; infer_instance

/-- The loop of `parseFromReader`, as a function of the reads still to come and
of `program.instructions`. -/
def parseLoop : List ReadResult → List Nat → Except Err (List Nat)
  | [], instructions => .ok instructions
  | .failure :: _, _ => .error .readFailed
  | .byte b :: reader, instructions =>
    if isInstruction b then parseLoop reader (instructions ++ [b])
    else parseLoop reader instructions

/-- The function `parseFromReader`. -/
def parseFromReader (reader : List ReadResult) : Except Err (List Nat) :=
  parseLoop reader []

/-- The reader over a stream of bytes none of whose reads fails. -/
def bytesReader (bytes : List Nat) : List ReadResult :=
  bytes.map ReadResult.byte

/-- The ops that a run of `n` copies of a non-bracket symbol `c` folds into:
one op with argument `n`, and none when the run is empty. -/
def foldedRun (c n : Nat) : List Op :=
  if n = 0 then [] else [⟨kindOfChar c, (n : Int)⟩]

/-- Passing `n` times through the `switch char` of `runSimpleInterpreter` on
the same symbol `c`, as the loop does on a run of `n` copies of `c`; it stops
at the first pass that leaves the function. -/
def stepChars (p : List Nat) (c : Nat) : Nat → VM → Step
  | 0, s => .next s
  | n + 1, s =>
    match execChar p c s with
    | .next s' => stepChars p c n s'
    | .halt out s' => .halt out s'

/-- Two states hold the same data: pointer, tape, input left and characters
printed. The program counters are left out, the one counting ops and the
other source symbols. -/
def SameData (s t : VM) : Prop :=
  s.dataPtr = t.dataPtr ∧ s.memory = t.memory ∧ s.input = t.input ∧ s.output = t.output

/-- Two passes end alike: both go on, or both leave the function with the same
outcome, in states with the same data. -/
def StepAgree : Step → Step → Prop
  | .next s, .next t => SameData s t
  | .halt o s, .halt o' t => o = o' ∧ SameData s t
  | _, _ => False

end Brainfxxk

namespace Brainfxxk

/-! ## Running the interpreters: basic facts -/

theorem runOps_zero (prog : List Op) (s : VM) : runOps prog 0 s = none := rfl

theorem runOps_done (prog : List Op) (fuel : Nat) (s : VM) (h : (prog.length : Int) ≤ s.pc) :
    runOps prog (fuel + 1) s = some (.ok, s) := by
  simp [runOps, not_lt.mpr h]

theorem runOps_next (prog : List Op) (fuel : Nat) (s s' : VM) (o : Op)
    (h0 : 0 ≤ s.pc) (ho : prog[s.pc.toNat]? = some o) (hs : execOp o s = .next s') :
    runOps prog (fuel + 1) s = runOps prog fuel s' := by
  have hlt : s.pc < prog.length := by
    have := (List.getElem?_eq_some.mp ho).1
    omega
  simp [runOps, hlt, not_lt.mpr h0, ho, hs]

theorem runOps_halt (prog : List Op) (fuel : Nat) (s s' : VM) (o : Op) (out : Outcome)
    (h0 : 0 ≤ s.pc) (ho : prog[s.pc.toNat]? = some o) (hs : execOp o s = .halt out s') :
    runOps prog (fuel + 1) s = some (out, s') := by
  have hlt : s.pc < prog.length := by
    have := (List.getElem?_eq_some.mp ho).1
    omega
  simp [runOps, hlt, not_lt.mpr h0, ho, hs]

/-- A run that ends within a budget ends the same way within any larger one. -/
theorem runOps_mono (prog : List Op) (fuel extra : Nat) (s : VM) (r : Outcome × VM)
    (h : runOps prog fuel s = some r) : runOps prog (fuel + extra) s = some r := by
  induction fuel generalizing s with
  | zero => simp [runOps] at h
  | succ n ih =>
    rw [Nat.add_right_comm]
    unfold runOps at h ⊢
    split
    · rename_i hlt
      simp only [hlt, if_true] at h
      split
      · rename_i hneg
        simpa [hneg] using h
      · rename_i hneg
        simp only [hneg, if_false] at h
        cases ho : prog[s.pc.toNat]? with
        | none => simpa [ho] using h
        | some o =>
          simp only [ho] at h ⊢
          cases hs : execOp o s with
          | next s' =>
            simp only [hs] at h ⊢
            exact ih s' h
          | halt out s' => simpa [hs] using h
    · rename_i hlt
      simpa [hlt] using h

/-- The result of a run does not depend on the budget. -/
theorem runOps_det (prog : List Op) (f1 f2 : Nat) (s : VM) (r1 r2 : Outcome × VM)
    (h1 : runOps prog f1 s = some r1) (h2 : runOps prog f2 s = some r2) : r1 = r2 := by
  have e1 := runOps_mono prog f1 f2 s r1 h1
  have e2 := runOps_mono prog f2 f1 s r2 h2
  rw [Nat.add_comm] at e2
  rw [e1] at e2
  exact Option.some.inj e2

/-! ## The rescanning interpreter on `+[--].` -/

/-- Inside the loop of `+[--].` the rescanning interpreter keeps going: the
cell is odd before the first `-` and at `]`, even before the second `-`. -/
theorem runChars_evenClear_inside (fuel : Nat) (s : VM) (hp : s.dataPtr = 0)
    (h : ((s.pc = 2 ∨ s.pc = 4) ∧ s.memory 0 % 2 = 1) ∨ (s.pc = 3 ∧ s.memory 0 % 2 = 0)) :
    runChars evenClearProgram fuel s = none := by
  induction fuel generalizing s with
  | zero => rfl
  | succ n ih =>
    obtain ⟨pc, ptr, mem, inp, out⟩ := s
    simp only at hp h
    subst hp
    rcases h with ⟨h | h, hodd⟩ | ⟨h, heven⟩
    · subst h
      simp [runChars, evenClearProgram, execChar, inBounds, MEMORY_SIZE]
      apply ih
      · rfl
      · right
        simp
        omega
    · subst h
      have hne : mem 0 ≠ 0 := by omega
      simp [runChars, evenClearProgram, execChar, inBounds, MEMORY_SIZE, scanBackward, hne]
      apply ih
      · rfl
      · left
        simp [hodd]
    · subst h
      simp [runChars, evenClearProgram, execChar, inBounds, MEMORY_SIZE]
      apply ih
      · rfl
      · left
        simp
        omega

theorem runSimpleInterpreter_evenClear (fuel : Nat) (input : List Nat) :
    runSimpleInterpreter fuel evenClearProgram input = none := by
  match fuel with
  | 0 => rfl
  | 1 => simp [runSimpleInterpreter, runChars, evenClearProgram, execChar, VM.init, inBounds,
      MEMORY_SIZE]
  | n + 2 =>
    simp [runSimpleInterpreter, runChars, evenClearProgram, execChar, VM.init, inBounds,
      MEMORY_SIZE]
    have := runChars_evenClear_inside n
      ⟨2, 0, Function.update (fun _ => 0) 0 1, input, []⟩ rfl (Or.inl ⟨Or.inl rfl, by simp⟩)
    simpa [evenClearProgram] using this

theorem translateProgram_evenClear :
    translateProgram evenClearProgram =
      .ok [⟨.INC_DATA, 1⟩, ⟨.LOOP_SET_TO_ZERO, 0⟩, ⟨.WRITE_STDOUT, 1⟩] := by
  simp [evenClearProgram, translateProgram, translateLoop, optimizedLoop, kindOfChar]

theorem runOptInterpreter_evenClear (input : List Nat) :
    ∃ s, runOptInterpreter 4 evenClearProgram input = some (.ok, s) ∧
      s.output = [0] ∧ s.input = input := by
  simp [runOptInterpreter, translateProgram_evenClear, runOps, execOp, VM.init, inBounds,
    MEMORY_SIZE, byteOf, writeLoop]

/-- C1 (the code departs from the claim): on the balanced program `+[--].`,
whatever the input, the optimized pipeline returns without error after
printing the zero character, and the rescanning interpreter never returns. -/
theorem differential_oracle_breaks_on_even_clear_loop :
    Balanced evenClearProgram ∧
    (∀ input, ∃ s, runOptInterpreter 4 evenClearProgram input = some (.ok, s) ∧
      stdoutBytes s.output = [0]) ∧
    (∀ input fuel, runSimpleInterpreter fuel evenClearProgram input = none) := by
  refine ⟨by decide, ?_, fun input fuel => runSimpleInterpreter_evenClear fuel input⟩
  intro input
  obtain ⟨s, hs, hout, _⟩ := runOptInterpreter_evenClear input
  exact ⟨s, hs, by simp [hout, stdoutBytes, utf8OfByte]⟩

/-! ## Unfolding the translator loop -/

theorem translateLoop_nil (pc : Nat) (ops : List Op) (stack : List Nat) :
    translateLoop [] pc ops stack = .ok (ops, stack) := by
  rw [translateLoop]

theorem translateLoop_open (cs : List Nat) (pc : Nat) (ops : List Op) (stack : List Nat) :
    translateLoop (cOpen :: cs) pc ops stack =
      translateLoop cs (pc + 1) (ops ++ [⟨.JUMP_IF_DATA_ZERO, 0⟩]) (ops.length :: stack) := by
  cases stack <;> rw [translateLoop] <;> simp

theorem translateLoop_close_nil (cs : List Nat) (pc : Nat) (ops : List Op) :
    translateLoop (cClose :: cs) pc ops [] = .error (.unmatchedClosing pc) := by
  rw [translateLoop]
  simp

theorem translateLoop_close_cons (cs : List Nat) (pc : Nat) (ops : List Op) (start : Nat)
    (stack : List Nat) :
    translateLoop (cClose :: cs) pc ops (start :: stack) =
      if (optimizedLoop ops start).length = 0 then
        translateLoop cs (pc + 1)
          (setArgument ops start ops.length ++ [⟨.JUMP_IF_DATA_NOT_ZERO, start⟩]) stack
      else translateLoop cs (pc + 1) (ops.take start ++ optimizedLoop ops start) stack := by
  rw [translateLoop]
  simp

theorem translateLoop_run (c : Nat) (cs : List Nat) (pc : Nat) (ops : List Op)
    (stack : List Nat) (hno : c ≠ cOpen) (hnc : c ≠ cClose) :
    translateLoop (c :: cs) pc ops stack =
      translateLoop (cs.dropWhile (fun x => decide (x = c)))
        (pc + ((cs.takeWhile (fun x => decide (x = c))).length + 1))
        (ops ++ [⟨kindOfChar c, ((cs.takeWhile (fun x => decide (x = c))).length + 1 : Nat)⟩])
        stack := by
  cases stack <;> rw [translateLoop] <;> simp [hno, hnc]

theorem takeWhile_append_stop (c q : Nat) (h : q ≠ c) (xs Q : List Nat) :
    (xs ++ q :: Q).takeWhile (fun x => decide (x = c)) = xs.takeWhile (fun x => decide (x = c)) := by
  induction xs with
  | nil => simp [List.takeWhile, h]
  | cons x xs ih =>
    by_cases hx : x = c
    · simp [List.takeWhile, hx, ih]
    · simp [List.takeWhile, hx]

theorem dropWhile_append_stop (c q : Nat) (h : q ≠ c) (xs Q : List Nat) :
    (xs ++ q :: Q).dropWhile (fun x => decide (x = c)) =
      xs.dropWhile (fun x => decide (x = c)) ++ q :: Q := by
  induction xs with
  | nil => simp [List.dropWhile, h]
  | cons x xs ih =>
    by_cases hx : x = c
    · simp [List.dropWhile, hx, ih]
    · simp [List.dropWhile, hx]

theorem length_takeWhile_add_dropWhile (c : Nat) (xs : List Nat) :
    (xs.takeWhile (fun x => decide (x = c))).length +
      (xs.dropWhile (fun x => decide (x = c))).length = xs.length := by
  have := congrArg List.length (List.takeWhile_append_dropWhile (fun x => decide (x = c)) xs)
  rw [List.length_append] at this
  exact this

/-- Translating `P` followed by a text that starts with `[` is translating
`P` and going on from the instructions and bracket stack reached. -/
theorem translateLoop_append_open (Q : List Nat) (P : List Nat) (pc : Nat) (ops : List Op)
    (stack : List Nat) :
    ∀ r, translateLoop P pc ops stack = .ok r →
      translateLoop (P ++ cOpen :: Q) pc ops stack =
        translateLoop (cOpen :: Q) (pc + P.length) r.1 r.2 := by
  induction P, pc, ops, stack using translateLoop.induct with
  | case1 pc ops stack =>
    intro r h
    simp [translateLoop_nil] at h
    subst h
    simp
  | case2 pc ops stack cs ih =>
    intro r h
    rw [translateLoop_open] at h
    rw [List.cons_append, translateLoop_open, ih r h]
    simp [Nat.add_assoc, Nat.add_comm 1]
  | case3 pc ops cs hne =>
    intro r h
    simp [translateLoop_close_nil] at h
  | case4 pc ops cs start stack' optimizedOps hlen hne ih =>
    intro r h
    have hlen' : (optimizedLoop ops start).length = 0 := hlen
    rw [translateLoop_close_cons, if_pos hlen'] at h
    rw [List.cons_append, translateLoop_close_cons, if_pos hlen', ih r h]
    simp [Nat.add_assoc, Nat.add_comm 1]
  | case5 pc ops cs start stack' optimizedOps hlen hne ih =>
    intro r h
    have hlen' : ¬ (optimizedLoop ops start).length = 0 := hlen
    rw [translateLoop_close_cons, if_neg hlen'] at h
    rw [List.cons_append, translateLoop_close_cons, if_neg hlen', ih r h]
    simp [Nat.add_assoc, Nat.add_comm 1]
  | case6 pc ops stack c cs hno hnc repeatNum ih =>
    intro r h
    rw [translateLoop_run c cs pc ops stack hno hnc] at h
    have := ih r h
    rw [List.cons_append, translateLoop_run c _ pc ops stack hno hnc,
      takeWhile_append_stop c cOpen (Ne.symm hno), dropWhile_append_stop c cOpen (Ne.symm hno),
      this]
    have hl := length_takeWhile_add_dropWhile c cs
    simp only [repeatNum, List.length_cons]
    congr 1
    omega

theorem translateProgram_eq_ok (p : List Nat) (ops : List Op) :
    translateProgram p = .ok ops ↔ ∃ stack, translateLoop p 0 [] [] = .ok (ops, stack) := by
  unfold translateProgram
  cases h : translateLoop p 0 [] [] with
  | error e => simp
  | ok r =>
    obtain ⟨o, st⟩ := r
    simp

theorem getElem?_append_length_add (ops l : List Op) (i : Nat) :
    (ops ++ l)[ops.length + i]? = l[i]? := by
  rw [List.getElem?_append_right (by omega)]
  simp

/-- A run of `n ≥ 1` copies of a non-bracket symbol in front of a `]` folds
into one op. -/
theorem translateLoop_replicate_close (c n : Nat) (hn : 1 ≤ n) (hno : c ≠ cOpen)
    (hnc : c ≠ cClose) (rest : List Nat) (pc : Nat) (ops : List Op) (stack : List Nat) :
    translateLoop (List.replicate n c ++ cClose :: rest) pc ops stack =
      translateLoop (cClose :: rest) (pc + n) (ops ++ [⟨kindOfChar c, (n : Nat)⟩]) stack := by
  obtain ⟨m, rfl⟩ : ∃ m, n = m + 1 := ⟨n - 1, by omega⟩
  rw [List.replicate_succ, List.cons_append, translateLoop_run c _ pc ops stack hno hnc,
    takeWhile_append_stop c cClose (Ne.symm hnc), dropWhile_append_stop c cClose (Ne.symm hnc),
    List.takeWhile_replicate, List.dropWhile_replicate]
  simp

/-- Translating `P [ c^n ]` for a non-bracket symbol `c`: the loop is closed
on the instructions of `P` followed by the pending jump and the folded op. -/
theorem translateLoop_one_op_loop (c n : Nat) (hn : 1 ≤ n) (hno : c ≠ cOpen)
    (hnc : c ≠ cClose) (P : List Nat) (opsP : List Op) (stack : List Nat)
    (hP : translateLoop P 0 [] [] = .ok (opsP, stack)) :
    translateLoop (P ++ cOpen :: (List.replicate n c ++ [cClose])) 0 [] [] =
      translateLoop [cClose] (0 + P.length + 1 + n)
        (opsP ++ [⟨.JUMP_IF_DATA_ZERO, 0⟩] ++ [⟨kindOfChar c, (n : Nat)⟩])
        (opsP.length :: stack) := by
  rw [translateLoop_append_open _ P 0 [] [] _ hP, translateLoop_open,
    translateLoop_replicate_close c n hn hno hnc]

/-- C9: for every `n ≥ 1`, every `c` among `+` and `-` and every text `P` that
`translateProgram` accepts, translating `P [ c^n ]` gives the bytecode of `P`
followed by the single op `LOOP_SET_TO_ZERO`: the pending jump and the folded
body are gone and no `JUMP_IF_DATA_NOT_ZERO` is appended. -/
theorem clear_loop_recognition (n : Nat) (hn : 1 ≤ n) (c : Nat) (hc : c = cPlus ∨ c = cMinus)
    (P : List Nat) (opsP : List Op) (hP : translateProgram P = .ok opsP) :
    translateProgram (P ++ cOpen :: (List.replicate n c ++ [cClose])) =
      .ok (opsP ++ [⟨.LOOP_SET_TO_ZERO, 0⟩]) := by
  obtain ⟨stack, hst⟩ := (translateProgram_eq_ok P opsP).mp hP
  rw [translateProgram_eq_ok]
  refine ⟨stack, ?_⟩
  have hno : c ≠ cOpen := by rcases hc with h | h <;> simp [h]
  have hnc : c ≠ cClose := by rcases hc with h | h <;> simp [h]
  rw [translateLoop_one_op_loop c n hn hno hnc P opsP stack hst, translateLoop_close_cons]
  have hopt : optimizedLoop (opsP ++ [⟨.JUMP_IF_DATA_ZERO, 0⟩] ++ [⟨kindOfChar c, (n : Nat)⟩])
      opsP.length = [⟨.LOOP_SET_TO_ZERO, 0⟩] := by
    rw [List.append_assoc]
    unfold optimizedLoop
    rw [getElem?_append_length_add]
    rcases hc with h | h <;> simp [h, kindOfChar]
  rw [hopt]
  simp [translateLoop_nil]

theorem clear_loop_recognition_witness :
    1 ≤ 2 ∧ translateProgram [cPlus] = .ok [⟨.INC_DATA, 1⟩] ∧
    translateProgram ([cPlus] ++ cOpen :: (List.replicate 2 cMinus ++ [cClose])) =
      .ok ([⟨.INC_DATA, 1⟩] ++ [⟨.LOOP_SET_TO_ZERO, 0⟩]) :=
  have h : translateProgram [cPlus] = .ok [⟨.INC_DATA, 1⟩] := by
    simp [translateProgram, translateLoop, kindOfChar]
  ⟨by decide, h, clear_loop_recognition 2 (by decide) cMinus (Or.inr rfl) [cPlus] _ h⟩

/-- C10: for every `k ≥ 1` and every text `P` that `translateProgram` accepts,
translating `P [ >^k ]` gives the bytecode of `P` followed by the single op
`LOOP_MOVE_PTR k`, and translating `P [ <^k ]` gives the bytecode of `P`
followed by `LOOP_MOVE_PTR (-k)`; the stride is not 0 and no jump op is
emitted for the loop. -/
theorem scan_loop_recognition (k : Nat) (hk : 1 ≤ k) (P : List Nat) (opsP : List Op)
    (hP : translateProgram P = .ok opsP) :
    translateProgram (P ++ cOpen :: (List.replicate k cRight ++ [cClose])) =
        .ok (opsP ++ [⟨.LOOP_MOVE_PTR, (k : Int)⟩]) ∧
    translateProgram (P ++ cOpen :: (List.replicate k cLeft ++ [cClose])) =
        .ok (opsP ++ [⟨.LOOP_MOVE_PTR, -(k : Int)⟩]) ∧
    (k : Int) ≠ 0 ∧ -(k : Int) ≠ 0 := by
  obtain ⟨stack, hst⟩ := (translateProgram_eq_ok P opsP).mp hP
  refine ⟨?_, ?_, by omega, by omega⟩
  · rw [translateProgram_eq_ok]
    refine ⟨stack, ?_⟩
    rw [translateLoop_one_op_loop cRight k hk (by decide) (by decide) P opsP stack hst,
      translateLoop_close_cons]
    have hopt : optimizedLoop (opsP ++ [⟨.JUMP_IF_DATA_ZERO, 0⟩] ++ [⟨kindOfChar cRight, (k : Nat)⟩])
        opsP.length = [⟨.LOOP_MOVE_PTR, (k : Int)⟩] := by
      rw [List.append_assoc]
      unfold optimizedLoop
      rw [getElem?_append_length_add]
      simp [kindOfChar]
    rw [hopt]
    simp [translateLoop_nil]
  · rw [translateProgram_eq_ok]
    refine ⟨stack, ?_⟩
    rw [translateLoop_one_op_loop cLeft k hk (by decide) (by decide) P opsP stack hst,
      translateLoop_close_cons]
    have hopt : optimizedLoop (opsP ++ [⟨.JUMP_IF_DATA_ZERO, 0⟩] ++ [⟨kindOfChar cLeft, (k : Nat)⟩])
        opsP.length = [⟨.LOOP_MOVE_PTR, -(k : Int)⟩] := by
      rw [List.append_assoc]
      unfold optimizedLoop
      rw [getElem?_append_length_add]
      simp [kindOfChar]
    rw [hopt]
    simp [translateLoop_nil]

theorem scan_loop_recognition_witness :
    1 ≤ 3 ∧ translateProgram [cComma] = .ok [⟨.READ_STDIN, 1⟩] ∧
    translateProgram ([cComma] ++ cOpen :: (List.replicate 3 cRight ++ [cClose])) =
        .ok ([⟨.READ_STDIN, 1⟩] ++ [⟨.LOOP_MOVE_PTR, ((3 : Nat) : Int)⟩]) ∧
    translateProgram ([cComma] ++ cOpen :: (List.replicate 3 cLeft ++ [cClose])) =
        .ok ([⟨.READ_STDIN, 1⟩] ++ [⟨.LOOP_MOVE_PTR, -((3 : Nat) : Int)⟩]) ∧
    ((3 : Nat) : Int) ≠ 0 ∧ -((3 : Nat) : Int) ≠ 0 :=
  have h : translateProgram [cComma] = .ok [⟨.READ_STDIN, 1⟩] := by
    simp [translateProgram, translateLoop, kindOfChar]
  ⟨by decide, h, scan_loop_recognition 3 (by decide) [cComma] _ h⟩

/-! ## Unmatched brackets -/

/-- The scan for an unmatched `]` steps over a run of a non-bracket symbol. -/
theorem firstUnmatchedClose_skip (c : Nat) (hno : c ≠ cOpen) (hnc : c ≠ cClose)
    (l : List Nat) (d i : Nat) :
    firstUnmatchedClose l d i =
      firstUnmatchedClose (l.dropWhile (fun x => decide (x = c))) d
        (i + (l.takeWhile (fun x => decide (x = c))).length) := by
  induction l generalizing i with
  | nil => simp [List.dropWhile, List.takeWhile]
  | cons x xs ih =>
    by_cases hx : x = c
    · subst hx
      simp only [List.dropWhile_cons, List.takeWhile_cons, decide_True, if_true,
        List.length_cons]
      rw [firstUnmatchedClose, if_neg hno, if_neg hnc, ih (i + 1)]
      congr 1
      omega
    · simp [List.dropWhile, List.takeWhile, hx]

theorem translateLoop_unmatched_close (i : Nat) (rest : List Nat) (pc : Nat) (ops : List Op)
    (stack : List Nat) :
    firstUnmatchedClose rest stack.length pc = some i →
      translateLoop rest pc ops stack = .error (.unmatchedClosing i) := by
  induction rest, pc, ops, stack using translateLoop.induct with
  | case1 pc ops stack =>
    intro h
    simp [firstUnmatchedClose] at h
  | case2 pc ops stack cs ih =>
    intro h
    rw [translateLoop_open]
    apply ih
    simpa [firstUnmatchedClose] using h
  | case3 pc ops cs hne =>
    intro h
    rw [translateLoop_close_nil]
    simp [firstUnmatchedClose] at h
    rw [h]
  | case4 pc ops cs start stack' optimizedOps hlen hne ih =>
    intro h
    have hlen' : (optimizedLoop ops start).length = 0 := hlen
    rw [translateLoop_close_cons, if_pos hlen']
    apply ih
    simpa [firstUnmatchedClose] using h
  | case5 pc ops cs start stack' optimizedOps hlen hne ih =>
    intro h
    have hlen' : ¬ (optimizedLoop ops start).length = 0 := hlen
    rw [translateLoop_close_cons, if_neg hlen']
    apply ih
    simpa [firstUnmatchedClose] using h
  | case6 pc ops stack c cs hno hnc repeatNum ih =>
    intro h
    rw [translateLoop_run c cs pc ops stack hno hnc]
    apply ih
    rw [firstUnmatchedClose, if_neg hno, if_neg hnc,
      firstUnmatchedClose_skip c hno hnc cs] at h
    simp only [repeatNum]
    rw [← h]
    congr 1
    omega

/-- The index found by the scan holds a `]`. -/
theorem firstUnmatchedClose_spec (l : List Nat) (d i j : Nat)
    (h : firstUnmatchedClose l d i = some j) : i ≤ j ∧ l[j - i]? = some cClose := by
  induction l generalizing d i with
  | nil => simp [firstUnmatchedClose] at h
  | cons x xs ih =>
    rw [firstUnmatchedClose] at h
    split at h
    · obtain ⟨h1, h2⟩ := ih _ _ h
      refine ⟨by omega, ?_⟩
      obtain ⟨m, hm⟩ : ∃ m, j - i = m + 1 := ⟨j - i - 1, by omega⟩
      rw [hm, List.getElem?_cons_succ]
      rw [show j - (i + 1) = m by omega] at h2
      exact h2
    · split at h
      · rename_i hc
        split at h
        · simp at h
          subst h
          simp [hc]
        · obtain ⟨h1, h2⟩ := ih _ _ h
          refine ⟨by omega, ?_⟩
          obtain ⟨m, hm⟩ : ∃ m, j - i = m + 1 := ⟨j - i - 1, by omega⟩
          rw [hm, List.getElem?_cons_succ]
          rw [show j - (i + 1) = m by omega] at h2
          exact h2
      · obtain ⟨h1, h2⟩ := ih _ _ h
        refine ⟨by omega, ?_⟩
        obtain ⟨m, hm⟩ : ∃ m, j - i = m + 1 := ⟨j - i - 1, by omega⟩
        rw [hm, List.getElem?_cons_succ]
        rw [show j - (i + 1) = m by omega] at h2
        exact h2

/-- C7: when a source program has a `]` with no `[` pending, `i` being the
index of the first one, `translateProgram` returns the error that reports
`i`, and `runOptInterpreter` returns that error in the initial state, whatever
the budget: no op was executed, nothing was printed and no input was read. -/
theorem unmatched_close_rejected (p : List Nat) (i : Nat)
    (h : firstUnmatchedClose p 0 0 = some i) :
    p[i]? = some cClose ∧
    translateProgram p = .error (.unmatchedClosing i) ∧
    ∀ fuel input, ∃ s,
      runOptInterpreter fuel p input = some (.error (.unmatchedClosing i), s) ∧
      s = VM.init input ∧ s.output = [] ∧ s.input = input ∧ s.pc = 0 := by
  have ht : translateProgram p = .error (.unmatchedClosing i) := by
    unfold translateProgram
    rw [translateLoop_unmatched_close i p 0 [] [] h]
  refine ⟨by simpa using (firstUnmatchedClose_spec p 0 0 i h).2, ht, ?_⟩
  intro fuel input
  refine ⟨VM.init input, ?_, rfl, rfl, rfl, rfl⟩
  unfold runOptInterpreter
  rw [ht]

theorem unmatched_close_rejected_witness :
    firstUnmatchedClose [cDot, cComma, cPlus, cClose] 0 0 = some 3 ∧
    [cDot, cComma, cPlus, cClose][3]? = some cClose ∧
    translateProgram [cDot, cComma, cPlus, cClose] = .error (.unmatchedClosing 3) ∧
    ∀ fuel input, ∃ s,
      runOptInterpreter fuel [cDot, cComma, cPlus, cClose] input =
        some (.error (.unmatchedClosing 3), s) ∧
      s = VM.init input ∧ s.output = [] ∧ s.input = input ∧ s.pc = 0 :=
  ⟨by decide, unmatched_close_rejected [cDot, cComma, cPlus, cClose] 3 (by decide)⟩

/-- The case `+]` of C7's claim: the error reports index 1. -/
theorem translateProgram_plus_close :
    translateProgram [cPlus, cClose] = .error (.unmatchedClosing 1) := by
  simp [translateProgram, translateLoop, kindOfChar]

/-- C6 (the code departs from the claim): `translateProgram` accepts `[+`,
whose `[` is never closed, and returns a bytecode whose jump keeps the
placeholder target 0; `runOptInterpreter` then runs it to the end without
error, executing the `+` once. -/
theorem unmatched_open_accepted :
    bracketDepth [cOpen, cPlus] 0 = some 1 ∧
    translateProgram [cOpen, cPlus] =
      .ok [⟨.JUMP_IF_DATA_ZERO, 0⟩, ⟨.INC_DATA, 1⟩] ∧
    ∀ input, ∃ s, runOptInterpreter 3 [cOpen, cPlus] input = some (.ok, s) ∧
      s.memory 0 = 1 := by
  refine ⟨by decide, ?_, ?_⟩
  · simp [translateProgram, translateLoop, kindOfChar]
  · intro input
    simp [runOptInterpreter, translateProgram, translateLoop, kindOfChar, runOps, execOp,
      VM.init, inBounds, MEMORY_SIZE, byteOf]

/-! ## Run-length folding -/

theorem symbolOfKind_kindOfChar (c : Nat) (h : isFoldable c) :
    symbolOfKind (kindOfChar c) = some c := by
  rcases h with h | h | h | h | h | h <;> subst h <;> rfl

theorem kindOfChar_injOn (c c' : Nat) (h : isFoldable c) (h' : isFoldable c')
    (e : kindOfChar c = kindOfChar c') : c = c' := by
  have := symbolOfKind_kindOfChar c h
  rw [e, symbolOfKind_kindOfChar c' h'] at this
  exact (Option.some.inj this).symm

theorem takeWhile_eq_replicate (c : Nat) (l : List Nat) :
    l.takeWhile (fun x => decide (x = c)) =
      List.replicate (l.takeWhile (fun x => decide (x = c))).length c := by
  rw [List.eq_replicate_iff]
  refine ⟨rfl, ?_⟩
  intro b hb
  simpa using List.mem_takeWhile_imp hb

theorem head?_dropWhile_ne (c : Nat) (l : List Nat) (x : Nat)
    (h : (l.dropWhile (fun x => decide (x = c))).head? = some x) : x ≠ c := by
  induction l with
  | nil => simp at h
  | cons y ys ih =>
    by_cases hy : y = c
    · simp [List.dropWhile, hy] at h
      exact ih h
    · simp [List.dropWhile, hy] at h
      omega

theorem translateLoop_folds (rest : List Nat) (pc : Nat) (ops : List Op) (stack : List Nat) :
    (∀ c ∈ rest, isFoldable c) →
    ∃ ops', translateLoop rest pc ops stack = .ok (ops ++ ops', stack) ∧
      unfoldOps ops' = rest ∧
      (∀ o ∈ ops', 1 ≤ o.argument ∧ ∃ c, isFoldable c ∧ o.opKind = kindOfChar c) ∧
      ops'.Chain' (fun a b => a.opKind ≠ b.opKind) ∧
      (∀ o, ops'.head? = some o → ∃ c, rest.head? = some c ∧ o.opKind = kindOfChar c) ∧
      (ops'.map (fun o => o.argument)).sum = (rest.length : Int) := by
  induction rest, pc, ops, stack using translateLoop.induct with
  | case1 pc ops stack =>
    intro _
    exact ⟨[], by simp [translateLoop_nil], rfl, by simp, by simp, by simp, by simp⟩
  | case2 pc ops stack cs ih =>
    intro h
    exact absurd (h cOpen (by simp)) (by decide)
  | case3 pc ops cs hne =>
    intro h
    exact absurd (h cClose (by simp)) (by decide)
  | case4 pc ops cs start stack' optimizedOps hlen hne ih =>
    intro h
    exact absurd (h cClose (by simp)) (by decide)
  | case5 pc ops cs start stack' optimizedOps hlen hne ih =>
    intro h
    exact absurd (h cClose (by simp)) (by decide)
  | case6 pc ops stack c cs hno hnc repeatNum ih =>
    intro h
    have hc : isFoldable c := h c (by simp)
    have hrest : ∀ x ∈ cs.dropWhile (fun x => decide (x = c)), isFoldable x := by
      intro x hx
      exact h x (List.mem_cons_of_mem _ ((List.dropWhile_sublist _).subset hx))
    obtain ⟨ops', h1, h2, h3, h4, h5, h6⟩ := ih hrest
    refine ⟨⟨kindOfChar c, (repeatNum : Nat)⟩ :: ops', ?_, ?_, ?_, ?_, ?_, ?_⟩
    · rw [translateLoop_run c cs pc ops stack hno hnc, h1]
      simp
    · have e := List.takeWhile_append_dropWhile (fun x => decide (x = c)) cs
      simp only [unfoldOps, List.map_cons, List.flatten_cons, symbolOfKind_kindOfChar c hc,
        Int.toNat_ofNat, repeatNum, List.replicate_succ, List.cons_append]
      simp only [unfoldOps] at h2
      rw [h2, ← takeWhile_eq_replicate, e]
    · intro o ho
      rcases List.mem_cons.mp ho with rfl | ho
      · exact ⟨by simp only [repeatNum]; omega, c, hc, rfl⟩
      · exact h3 o ho
    · rw [List.chain'_cons']
      refine ⟨?_, h4⟩
      intro o ho
      obtain ⟨c', hc', hk⟩ := h5 o (by simpa using ho)
      have hne : c' ≠ c := head?_dropWhile_ne c cs c' hc'
      have hf' : isFoldable c' := hrest c' (List.mem_of_mem_head? hc')
      intro e
      simp only at e
      rw [hk] at e
      exact hne (kindOfChar_injOn c c' hc hf' e).symm
    · intro o ho
      simp at ho
      subst ho
      exact ⟨c, by simp, rfl⟩
    · have hl := length_takeWhile_add_dropWhile c cs
      simp only [List.map_cons, List.sum_cons, h6, List.length_cons, repeatNum]
      omega

/-- C8: for every source program made of the six symbols `> < + - , .` (no
bracket), `translateProgram` returns the run-length encoding of the source:
written back out (each op as `argument` copies of the symbol of its kind) the
bytecode is the source; every op has one of the six kinds of these symbols
and an argument `n ≥ 1`; two adjacent ops never have the same kind, so each op
is one maximal run; and the arguments sum to the length of the source. -/
theorem run_length_folding (p : List Nat) (hp : ∀ c ∈ p, isFoldable c) :
    ∃ ops, translateProgram p = .ok ops ∧
      unfoldOps ops = p ∧
      (∀ o ∈ ops, 1 ≤ o.argument ∧ ∃ c, isFoldable c ∧ o.opKind = kindOfChar c) ∧
      ops.Chain' (fun a b => a.opKind ≠ b.opKind) ∧
      (ops.map (fun o => o.argument)).sum = (p.length : Int) := by
  obtain ⟨ops, h1, h2, h3, h4, _, h6⟩ := translateLoop_folds p 0 [] [] hp
  refine ⟨ops, ?_, h2, h3, h4, h6⟩
  rw [translateProgram_eq_ok]
  exact ⟨[], by simpa using h1⟩

theorem run_length_folding_witness :
    (∀ c ∈ [cPlus, cPlus, cRight, cDot, cDot, cDot], isFoldable c) ∧
    ∃ ops, translateProgram [cPlus, cPlus, cRight, cDot, cDot, cDot] = .ok ops ∧
      unfoldOps ops = [cPlus, cPlus, cRight, cDot, cDot, cDot] ∧
      (∀ o ∈ ops, 1 ≤ o.argument ∧ ∃ c, isFoldable c ∧ o.opKind = kindOfChar c) ∧
      ops.Chain' (fun a b => a.opKind ≠ b.opKind) ∧
      (ops.map (fun o => o.argument)).sum =
        (([cPlus, cPlus, cRight, cDot, cDot, cDot] : List Nat).length : Int) :=
  ⟨by decide, run_length_folding [cPlus, cPlus, cRight, cDot, cDot, cDot] (by decide)⟩

/-- The bytecode of `++>...`, computed: three ops for three runs. -/
theorem translateProgram_runs_example :
    translateProgram [cPlus, cPlus, cRight, cDot, cDot, cDot] =
      .ok [⟨.INC_DATA, 2⟩, ⟨.INC_PTR, 1⟩, ⟨.WRITE_STDOUT, 3⟩] := by
  simp [translateProgram, translateLoop, kindOfChar]

/-! ## The jump-pairing invariant of the translator -/

theorem getElem?_snoc (ops : List Op) (o x : Op) (i : Nat) :
    (ops ++ [o])[i]? = some x ↔ (ops[i]? = some x ∨ (i = ops.length ∧ o = x)) := by
  rw [List.getElem?_append]
  split
  · rename_i h
    constructor
    · intro e; exact Or.inl e
    · rintro (e | ⟨e, _⟩)
      · exact e
      · omega
  · rename_i h
    have hnone : ops[i]? = none := List.getElem?_eq_none (by omega)
    by_cases e : i = ops.length
    · subst e
      simp [hnone]
    · have : i - ops.length = (i - ops.length - 1) + 1 := by omega
      rw [this]
      simp [hnone, e]

theorem lt_length_of_getElem? {ops : List Op} {i : Nat} {x : Op} (h : ops[i]? = some x) :
    i < ops.length := (List.getElem?_eq_some.mp h).1

theorem PairInv.empty : PairInv [] [] :=
  ⟨List.Pairwise.nil, by simp, by simp, by simp, by simp, by simp⟩

theorem PairInv.push_open {ops : List Op} {stack : List Nat} (h : PairInv ops stack) :
    PairInv (ops ++ [⟨.JUMP_IF_DATA_ZERO, 0⟩]) (ops.length :: stack) := by
  have hlt : ∀ s ∈ stack, s < ops.length := fun s hs => by
    obtain ⟨a, ha⟩ := h.pending s hs
    exact lt_length_of_getElem? ha
  refine ⟨?_, ?_, ?_, ?_, ?_, ?_⟩
  · exact List.pairwise_cons.mpr ⟨hlt, h.sorted⟩
  · intro s hs
    rcases List.mem_cons.mp hs with rfl | hs
    · exact ⟨0, (getElem?_snoc _ _ _ _).mpr (Or.inr ⟨rfl, rfl⟩)⟩
    · obtain ⟨a, ha⟩ := h.pending s hs
      exact ⟨a, (getElem?_snoc _ _ _ _).mpr (Or.inl ha)⟩
  · intro i a hi
    rcases (getElem?_snoc _ _ _ _).mp hi with hi | ⟨rfl, _⟩
    · rcases h.opens i a hi with hs | ⟨j, ha, hij, hj⟩
      · exact Or.inl (List.mem_cons_of_mem _ hs)
      · exact Or.inr ⟨j, ha, hij, (getElem?_snoc _ _ _ _).mpr (Or.inl hj)⟩
    · exact Or.inl (List.mem_cons_self _ _)
  · intro j a hj
    rcases (getElem?_snoc _ _ _ _).mp hj with hj | ⟨_, e⟩
    · obtain ⟨i, ha, hij, hi, hns⟩ := h.closes j a hj
      refine ⟨i, ha, hij, (getElem?_snoc _ _ _ _).mpr (Or.inl hi), ?_⟩
      intro hmem
      rcases List.mem_cons.mp hmem with e | hmem
      · have := lt_length_of_getElem? hj
        omega
      · exact hns hmem
    · simp at e
  · intro i j i' j' h1 h2 h3 h4 hlt1 hlt2
    rcases (getElem?_snoc _ _ _ _).mp h2 with h2 | ⟨_, e⟩
    swap
    · simp at e
    rcases (getElem?_snoc _ _ _ _).mp h4 with h4 | ⟨_, e⟩
    swap
    · simp at e
    have hjl := lt_length_of_getElem? h2
    rcases (getElem?_snoc _ _ _ _).mp h1 with h1 | ⟨e, _⟩
    swap
    · omega
    rcases (getElem?_snoc _ _ _ _).mp h3 with h3 | ⟨e, _⟩
    swap
    · omega
    exact h.nested i j i' j' h1 h2 h3 h4 hlt1 hlt2
  · intro s hs i j h1 h2 his
    rcases (getElem?_snoc _ _ _ _).mp h2 with h2 | ⟨_, e⟩
    swap
    · simp at e
    have hjl := lt_length_of_getElem? h2
    rcases List.mem_cons.mp hs with rfl | hs
    · exact hjl
    · rcases (getElem?_snoc _ _ _ _).mp h1 with h1 | ⟨e, _⟩
      · exact h.fenced s hs i j h1 h2 his
      · have := hlt s hs
        omega

theorem PairInv.push_plain {ops : List Op} {stack : List Nat} (h : PairInv ops stack)
    (o : Op) (hz : o.opKind ≠ .JUMP_IF_DATA_ZERO) (hnz : o.opKind ≠ .JUMP_IF_DATA_NOT_ZERO) :
    PairInv (ops ++ [o]) stack := by
  have old_z : ∀ (i : Nat) (a : Int), (ops ++ [o])[i]? = some ⟨.JUMP_IF_DATA_ZERO, a⟩ →
      ops[i]? = some ⟨.JUMP_IF_DATA_ZERO, a⟩ := by
    intro i a hi
    rcases (getElem?_snoc _ _ _ _).mp hi with hi | ⟨_, e⟩
    · exact hi
    · exact absurd (congrArg Op.opKind e) hz
  have old_nz : ∀ (i : Nat) (a : Int), (ops ++ [o])[i]? = some ⟨.JUMP_IF_DATA_NOT_ZERO, a⟩ →
      ops[i]? = some ⟨.JUMP_IF_DATA_NOT_ZERO, a⟩ := by
    intro i a hi
    rcases (getElem?_snoc _ _ _ _).mp hi with hi | ⟨_, e⟩
    · exact hi
    · exact absurd (congrArg Op.opKind e) hnz
  have keep : ∀ (i : Nat) (x : Op), ops[i]? = some x → (ops ++ [o])[i]? = some x :=
    fun i x hx => (getElem?_snoc _ _ _ _).mpr (Or.inl hx)
  refine ⟨h.sorted, ?_, ?_, ?_, ?_, ?_⟩
  · intro s hs
    obtain ⟨a, ha⟩ := h.pending s hs
    exact ⟨a, keep _ _ ha⟩
  · intro i a hi
    rcases h.opens i a (old_z i a hi) with hs | ⟨j, ha, hij, hj⟩
    · exact Or.inl hs
    · exact Or.inr ⟨j, ha, hij, keep _ _ hj⟩
  · intro j a hj
    obtain ⟨i, ha, hij, hi, hns⟩ := h.closes j a (old_nz j a hj)
    exact ⟨i, ha, hij, keep _ _ hi, hns⟩
  · intro i j i' j' h1 h2 h3 h4
    exact h.nested i j i' j' (old_z _ _ h1) (old_nz _ _ h2) (old_z _ _ h3) (old_nz _ _ h4)
  · intro s hs i j h1 h2
    exact h.fenced s hs i j (old_z _ _ h1) (old_nz _ _ h2)
theorem PairInv.close_pair {ops : List Op} {start : Nat} {stack : List Nat}
    (h : PairInv ops (start :: stack)) :
    PairInv (setArgument ops start ops.length ++ [⟨.JUMP_IF_DATA_NOT_ZERO, start⟩]) stack := by
  obtain ⟨a0, hst⟩ := h.pending start (List.mem_cons_self _ _)
  have hstart : start < ops.length := lt_length_of_getElem? hst
  have hset : setArgument ops start ops.length =
      ops.set start ⟨.JUMP_IF_DATA_ZERO, (ops.length : Int)⟩ := by
    simp [setArgument, hst]
  rw [hset]
  have hsorted := List.pairwise_cons.mp h.sorted
  have look : ∀ (i : Nat) (x : Op),
      (ops.set start ⟨.JUMP_IF_DATA_ZERO, (ops.length : Int)⟩ ++
        [⟨.JUMP_IF_DATA_NOT_ZERO, (start : Int)⟩])[i]? = some x ↔
      ((i = start ∧ x = ⟨.JUMP_IF_DATA_ZERO, (ops.length : Int)⟩) ∨
        (i ≠ start ∧ ops[i]? = some x) ∨
        (i = ops.length ∧ x = ⟨.JUMP_IF_DATA_NOT_ZERO, (start : Int)⟩)) := by
    intro i x
    rw [getElem?_snoc, List.getElem?_set, List.length_set]
    by_cases e : start = i
    · subst e
      simp [hstart]
      constructor
      · rintro (e | ⟨e, _⟩)
        · exact Or.inl e.symm
        · omega
      · rintro (e | ⟨e, _⟩)
        · exact Or.inl e.symm
        · omega
    · have e' : i ≠ start := fun x => e x.symm
      simp [e, e']
      tauto
  have new_z : ∀ (i : Nat) (a : Int),
      (ops.set start ⟨.JUMP_IF_DATA_ZERO, (ops.length : Int)⟩ ++
        [⟨.JUMP_IF_DATA_NOT_ZERO, (start : Int)⟩])[i]? = some ⟨.JUMP_IF_DATA_ZERO, a⟩ →
      (i = start ∧ a = (ops.length : Int)) ∨
        (i ≠ start ∧ ops[i]? = some ⟨.JUMP_IF_DATA_ZERO, a⟩) := by
    intro i a hi
    rcases (look i _).mp hi with ⟨e1, e2⟩ | ⟨e1, e2⟩ | ⟨_, e2⟩
    · exact Or.inl ⟨e1, by simpa using e2⟩
    · exact Or.inr ⟨e1, e2⟩
    · simp at e2
  have new_nz : ∀ (j : Nat) (a : Int),
      (ops.set start ⟨.JUMP_IF_DATA_ZERO, (ops.length : Int)⟩ ++
        [⟨.JUMP_IF_DATA_NOT_ZERO, (start : Int)⟩])[j]? = some ⟨.JUMP_IF_DATA_NOT_ZERO, a⟩ →
      (j = ops.length ∧ a = (start : Int)) ∨
        (j ≠ start ∧ ops[j]? = some ⟨.JUMP_IF_DATA_NOT_ZERO, a⟩) := by
    intro j a hj
    rcases (look j _).mp hj with ⟨_, e2⟩ | ⟨e1, e2⟩ | ⟨e1, e2⟩
    · simp at e2
    · exact Or.inr ⟨e1, e2⟩
    · exact Or.inl ⟨e1, by simpa using e2⟩
  have keep : ∀ (i : Nat) (x : Op), i ≠ start → ops[i]? = some x →
      (ops.set start ⟨.JUMP_IF_DATA_ZERO, (ops.length : Int)⟩ ++
        [⟨.JUMP_IF_DATA_NOT_ZERO, (start : Int)⟩])[i]? = some x :=
    fun i x hne hx => (look i x).mpr (Or.inr (Or.inl ⟨hne, hx⟩))
  have nz_ne_start : ∀ (j : Nat) (a : Int), ops[j]? = some ⟨.JUMP_IF_DATA_NOT_ZERO, a⟩ →
      j ≠ start := by
    intro j a hj e
    subst e
    rw [hst] at hj
    simp at hj
  refine ⟨hsorted.2, ?_, ?_, ?_, ?_, ?_⟩
  · intro s hs
    obtain ⟨a, ha⟩ := h.pending s (List.mem_cons_of_mem _ hs)
    have := hsorted.1 s hs
    exact ⟨a, keep s _ (by omega) ha⟩
  · intro i a hi
    rcases new_z i a hi with ⟨rfl, rfl⟩ | ⟨hne, hi⟩
    · exact Or.inr ⟨ops.length, rfl, hstart, (look _ _).mpr (Or.inr (Or.inr ⟨rfl, rfl⟩))⟩
    · rcases h.opens i a hi with hs | ⟨j, ha, hij, hj⟩
      · rcases List.mem_cons.mp hs with e | hs
        · exact absurd e hne
        · exact Or.inl hs
      · exact Or.inr ⟨j, ha, hij, keep j _ (nz_ne_start j _ hj) hj⟩
  · intro j a hj
    rcases new_nz j a hj with ⟨rfl, rfl⟩ | ⟨hne, hj⟩
    · refine ⟨start, rfl, hstart, (look _ _).mpr (Or.inl ⟨rfl, rfl⟩), ?_⟩
      intro hmem
      have := hsorted.1 start hmem
      omega
    · obtain ⟨i, ha, hij, hi, hns⟩ := h.closes j a hj
      have hne' : i ≠ start := fun e => hns (e ▸ List.mem_cons_self _ _)
      exact ⟨i, ha, hij, keep i _ hne' hi, fun hmem => hns (List.mem_cons_of_mem _ hmem)⟩
  · intro i j i' j' h1 h2 h3 h4 hlt1 hlt2
    rcases new_nz j _ h2 with ⟨ej, ei⟩ | ⟨hnej, h2⟩
    · -- the outer pair is the new one
      rcases new_nz j' _ h4 with ⟨ej', ei'⟩ | ⟨_, h4⟩
      · omega
      · have := lt_length_of_getElem? h4
        omega
    · rcases new_z i _ h1 with ⟨ei, ej⟩ | ⟨hnei, h1⟩
      · have := lt_length_of_getElem? h2
        omega
      · rcases new_nz j' _ h4 with ⟨ej', ei'⟩ | ⟨hnej', h4⟩
        · -- the inner pair is the new one: the outer pair would cross the pending `[`
          have hi' : i' = start := by omega
          have := h.fenced start (List.mem_cons_self _ _) i j h1 h2 (by omega)
          omega
        · rcases new_z i' _ h3 with ⟨ei', ej'⟩ | ⟨hnei', h3⟩
          · have := lt_length_of_getElem? h4
            omega
          · exact h.nested i j i' j' h1 h2 h3 h4 hlt1 hlt2
  · intro s hs i j h1 h2 his
    have hss := hsorted.1 s hs
    rcases new_z i _ h1 with ⟨ei, ej⟩ | ⟨hnei, h1⟩
    · omega
    · rcases new_nz j _ h2 with ⟨ej, ei⟩ | ⟨hnej, h2⟩
      · omega
      · exact h.fenced s (List.mem_cons_of_mem _ hs) i j h1 h2 his

theorem PairInv.close_replaced {ops : List Op} {start : Nat} {stack : List Nat}
    (h : PairInv ops (start :: stack)) (o : Op)
    (hz : o.opKind ≠ .JUMP_IF_DATA_ZERO) (hnz : o.opKind ≠ .JUMP_IF_DATA_NOT_ZERO) :
    PairInv (ops.take start ++ [o]) stack := by
  obtain ⟨a0, hst⟩ := h.pending start (List.mem_cons_self _ _)
  have hstart : start < ops.length := lt_length_of_getElem? hst
  have hsorted := List.pairwise_cons.mp h.sorted
  have hlen : (ops.take start).length = start := by
    rw [List.length_take]; omega
  have old : ∀ (i : Nat) (x : Op), (ops.take start ++ [o])[i]? = some x → x ≠ o →
      i < start ∧ ops[i]? = some x := by
    intro i x hi hne
    rcases (getElem?_snoc _ _ _ _).mp hi with hi | ⟨_, e⟩
    · rw [List.getElem?_take] at hi
      split at hi
      · rename_i hlt
        exact ⟨hlt, hi⟩
      · simp at hi
    · exact absurd e.symm hne
  have old_z : ∀ (i : Nat) (a : Int),
      (ops.take start ++ [o])[i]? = some ⟨.JUMP_IF_DATA_ZERO, a⟩ →
      i < start ∧ ops[i]? = some ⟨.JUMP_IF_DATA_ZERO, a⟩ :=
    fun i a hi => old i _ hi (fun e => hz (by rw [← e]))
  have old_nz : ∀ (i : Nat) (a : Int),
      (ops.take start ++ [o])[i]? = some ⟨.JUMP_IF_DATA_NOT_ZERO, a⟩ →
      i < start ∧ ops[i]? = some ⟨.JUMP_IF_DATA_NOT_ZERO, a⟩ :=
    fun i a hi => old i _ hi (fun e => hnz (by rw [← e]))
  have keep : ∀ (i : Nat) (x : Op), i < start → ops[i]? = some x →
      (ops.take start ++ [o])[i]? = some x := by
    intro i x hlt hx
    refine (getElem?_snoc _ _ _ _).mpr (Or.inl ?_)
    rw [List.getElem?_take, if_pos hlt]
    exact hx
  refine ⟨hsorted.2, ?_, ?_, ?_, ?_, ?_⟩
  · intro s hs
    obtain ⟨a, ha⟩ := h.pending s (List.mem_cons_of_mem _ hs)
    exact ⟨a, keep s _ (hsorted.1 s hs) ha⟩
  · intro i a hi
    obtain ⟨hlt, hi⟩ := old_z i a hi
    rcases h.opens i a hi with hs | ⟨j, ha, hij, hj⟩
    · rcases List.mem_cons.mp hs with e | hs
      · omega
      · exact Or.inl hs
    · subst ha
      have hjs := h.fenced start (List.mem_cons_self _ _) i j hi hj hlt
      exact Or.inr ⟨j, rfl, hij, keep j _ hjs hj⟩
  · intro j a hj
    obtain ⟨hlt, hj⟩ := old_nz j a hj
    obtain ⟨i, ha, hij, hi, hns⟩ := h.closes j a hj
    exact ⟨i, ha, hij, keep i _ (by omega) hi, fun hmem => hns (List.mem_cons_of_mem _ hmem)⟩
  · intro i j i' j' h1 h2 h3 h4
    exact h.nested i j i' j' (old_z _ _ h1).2 (old_nz _ _ h2).2 (old_z _ _ h3).2
      (old_nz _ _ h4).2
  · intro s hs i j h1 h2
    exact h.fenced s (List.mem_cons_of_mem _ hs) i j (old_z _ _ h1).2 (old_nz _ _ h2).2
/-- What `optimizedLoop` returns: nothing, or one op of one of the three
loop kinds. -/
theorem optimizedLoop_cases (ops : List Op) (start : Nat) :
    optimizedLoop ops start = [] ∨
      ∃ o, optimizedLoop ops start = [o] ∧
        (o.opKind = .LOOP_SET_TO_ZERO ∨ o.opKind = .LOOP_MOVE_PTR ∨
          o.opKind = .LOOP_MOVE_DATA) := by
  unfold optimizedLoop
  split
  · split
    · split
      · exact Or.inr ⟨_, rfl, Or.inl rfl⟩
      · split
        · split
          · exact Or.inr ⟨_, rfl, Or.inr (Or.inl rfl)⟩
          · exact Or.inr ⟨_, rfl, Or.inr (Or.inl rfl)⟩
        · exact Or.inl rfl
    · exact Or.inl rfl
  · split
    · split
      · split
        · split
          · exact Or.inr ⟨_, rfl, Or.inr (Or.inr rfl)⟩
          · split
            · exact Or.inr ⟨_, rfl, Or.inr (Or.inr rfl)⟩
            · exact Or.inl rfl
        · exact Or.inl rfl
      · exact Or.inl rfl
    · exact Or.inl rfl

theorem kindOfChar_ne_jump (c : Nat) :
    kindOfChar c ≠ .JUMP_IF_DATA_ZERO ∧ kindOfChar c ≠ .JUMP_IF_DATA_NOT_ZERO := by
  unfold kindOfChar
  repeat' split
  all_goals exact ⟨by decide, by decide⟩

/-- The translator loop keeps the jump-pairing invariant. -/
theorem translateLoop_pairInv (rest : List Nat) (pc : Nat) (ops : List Op) (stack : List Nat) :
    PairInv ops stack → ∀ r, translateLoop rest pc ops stack = .ok r → PairInv r.1 r.2 := by
  induction rest, pc, ops, stack using translateLoop.induct with
  | case1 pc ops stack =>
    intro h r hr
    simp [translateLoop_nil] at hr
    subst hr
    exact h
  | case2 pc ops stack cs ih =>
    intro h r hr
    rw [translateLoop_open] at hr
    exact ih h.push_open r hr
  | case3 pc ops cs hne =>
    intro h r hr
    simp [translateLoop_close_nil] at hr
  | case4 pc ops cs start stack' optimizedOps hlen hne ih =>
    intro h r hr
    have hlen' : (optimizedLoop ops start).length = 0 := hlen
    rw [translateLoop_close_cons, if_pos hlen'] at hr
    exact ih h.close_pair r hr
  | case5 pc ops cs start stack' optimizedOps hlen hne ih =>
    intro h r hr
    have hlen' : ¬ (optimizedLoop ops start).length = 0 := hlen
    rw [translateLoop_close_cons, if_neg hlen'] at hr
    rcases optimizedLoop_cases ops start with e | ⟨o, e, hk⟩
    · simp [e] at hlen'
    · simp only [optimizedOps, e] at ih
      rw [e] at hr
      refine ih (h.close_replaced o ?_ ?_) r hr
      · rcases hk with hk | hk | hk <;> simp [hk]
      · rcases hk with hk | hk | hk <;> simp [hk]
  | case6 pc ops stack c cs hno hnc repeatNum ih =>
    intro h r hr
    rw [translateLoop_run c cs pc ops stack hno hnc] at hr
    exact ih (h.push_plain _ (kindOfChar_ne_jump c).1 (kindOfChar_ne_jump c).2) r hr

/-- The nesting depth does not change over a run of a non-bracket symbol. -/
theorem bracketDepth_skip (c : Nat) (hno : c ≠ cOpen) (hnc : c ≠ cClose)
    (l : List Nat) (d : Nat) :
    bracketDepth l d = bracketDepth (l.dropWhile (fun x => decide (x = c))) d := by
  induction l with
  | nil => simp [List.dropWhile]
  | cons x xs ih =>
    by_cases hx : x = c
    · subst hx
      simp only [List.dropWhile_cons, decide_True, if_true]
      rw [bracketDepth, if_neg hno, if_neg hnc, ih]
    · simp [List.dropWhile, hx]

/-- The translator loop succeeds when no `]` comes without a pending `[`, and
its bracket stack then has the final nesting depth. -/
theorem translateLoop_ok_of_depth (rest : List Nat) (pc : Nat) (ops : List Op)
    (stack : List Nat) :
    ∀ d, bracketDepth rest stack.length = some d →
      ∃ r, translateLoop rest pc ops stack = .ok r ∧ r.2.length = d := by
  induction rest, pc, ops, stack using translateLoop.induct with
  | case1 pc ops stack =>
    intro d h
    simp [bracketDepth] at h
    exact ⟨(ops, stack), translateLoop_nil _ _ _, h⟩
  | case2 pc ops stack cs ih =>
    intro d h
    rw [translateLoop_open]
    apply ih
    simpa [bracketDepth] using h
  | case3 pc ops cs hne =>
    intro d h
    simp [bracketDepth] at h
  | case4 pc ops cs start stack' optimizedOps hlen hne ih =>
    intro d h
    have hlen' : (optimizedLoop ops start).length = 0 := hlen
    rw [translateLoop_close_cons, if_pos hlen']
    apply ih
    simpa [bracketDepth] using h
  | case5 pc ops cs start stack' optimizedOps hlen hne ih =>
    intro d h
    have hlen' : ¬ (optimizedLoop ops start).length = 0 := hlen
    rw [translateLoop_close_cons, if_neg hlen']
    apply ih
    simpa [bracketDepth] using h
  | case6 pc ops stack c cs hno hnc repeatNum ih =>
    intro d h
    rw [translateLoop_run c cs pc ops stack hno hnc]
    apply ih
    rw [bracketDepth, if_neg hno, if_neg hnc, bracketDepth_skip c hno hnc cs] at h
    exact h

/-- C5: for every source program with balanced brackets `translateProgram`
returns a bytecode in which every `JUMP_IF_DATA_ZERO`, at an index `i`, has an
argument `j` with `i < j < len`, the op at `j` being a
`JUMP_IF_DATA_NOT_ZERO` with argument `i`; every `JUMP_IF_DATA_NOT_ZERO`, at
an index `j`, has an argument `i < j`, the op at `i` being a
`JUMP_IF_DATA_ZERO` with argument `j`, and no other `JUMP_IF_DATA_ZERO` has
argument `j`; and two such pairs are disjoint or nested, never crossing. -/
theorem jump_pairing (p : List Nat) (hb : Balanced p) :
    ∃ ops, translateProgram p = .ok ops ∧
      (∀ (i : Nat) (a : Int), ops[i]? = some ⟨.JUMP_IF_DATA_ZERO, a⟩ →
        ∃ j : Nat, a = (j : Int) ∧ i < j ∧ j < ops.length ∧
          ops[j]? = some ⟨.JUMP_IF_DATA_NOT_ZERO, (i : Int)⟩) ∧
      (∀ (j : Nat) (a : Int), ops[j]? = some ⟨.JUMP_IF_DATA_NOT_ZERO, a⟩ →
        ∃ i : Nat, a = (i : Int) ∧ i < j ∧
          ops[i]? = some ⟨.JUMP_IF_DATA_ZERO, (j : Int)⟩ ∧
          ∀ i' : Nat, ops[i']? = some ⟨.JUMP_IF_DATA_ZERO, (j : Int)⟩ → i' = i) ∧
      (∀ i j i' j' : Nat,
        ops[i]? = some ⟨.JUMP_IF_DATA_ZERO, (j : Int)⟩ →
        ops[j]? = some ⟨.JUMP_IF_DATA_NOT_ZERO, (i : Int)⟩ →
        ops[i']? = some ⟨.JUMP_IF_DATA_ZERO, (j' : Int)⟩ →
        ops[j']? = some ⟨.JUMP_IF_DATA_NOT_ZERO, (i' : Int)⟩ →
        i < i' → j < i' ∨ j' < j) := by
  obtain ⟨⟨ops, stack⟩, hr, hlen⟩ := translateLoop_ok_of_depth p 0 [] [] 0 hb
  have hnil : stack = [] := List.length_eq_zero.mp hlen
  subst hnil
  have inv : PairInv ops [] := translateLoop_pairInv p 0 [] [] PairInv.empty _ hr
  have hopen : ∀ (i : Nat) (a : Int), ops[i]? = some ⟨.JUMP_IF_DATA_ZERO, a⟩ →
      ∃ j : Nat, a = (j : Int) ∧ i < j ∧ j < ops.length ∧
        ops[j]? = some ⟨.JUMP_IF_DATA_NOT_ZERO, (i : Int)⟩ := by
    intro i a hi
    rcases inv.opens i a hi with hs | ⟨j, ha, hij, hj⟩
    · simp at hs
    · exact ⟨j, ha, hij, lt_length_of_getElem? hj, hj⟩
  refine ⟨ops, (translateProgram_eq_ok p ops).mpr ⟨[], hr⟩, hopen, ?_, ?_⟩
  · intro j a hj
    obtain ⟨i, ha, hij, hi, _⟩ := inv.closes j a hj
    refine ⟨i, ha, hij, hi, ?_⟩
    intro i' hi'
    obtain ⟨j2, hj2, _, _, hj2'⟩ := hopen i' _ hi'
    have e : j2 = j := by exact_mod_cast hj2.symm
    subst e
    rw [hj] at hj2'
    have := congrArg Op.argument (Option.some.inj hj2')
    simp only at this
    omega
  · intro i j i' j' h1 h2 h3 h4 hlt
    by_cases hc : j < i'
    · exact Or.inl hc
    · right
      have hne : i' ≠ j := by
        intro e
        subst e
        rw [h2] at h3
        simp at h3
      exact inv.nested i j i' j' h1 h2 h3 h4 hlt (by omega)

theorem jump_pairing_witness :
    Balanced [cOpen, cRight, cOpen, cDot, cClose, cOpen, cMinus, cClose, cClose] ∧
    ∃ ops, translateProgram [cOpen, cRight, cOpen, cDot, cClose, cOpen, cMinus, cClose, cClose]
        = .ok ops ∧
      (∀ (i : Nat) (a : Int), ops[i]? = some ⟨.JUMP_IF_DATA_ZERO, a⟩ →
        ∃ j : Nat, a = (j : Int) ∧ i < j ∧ j < ops.length ∧
          ops[j]? = some ⟨.JUMP_IF_DATA_NOT_ZERO, (i : Int)⟩) ∧
      (∀ (j : Nat) (a : Int), ops[j]? = some ⟨.JUMP_IF_DATA_NOT_ZERO, a⟩ →
        ∃ i : Nat, a = (i : Int) ∧ i < j ∧
          ops[i]? = some ⟨.JUMP_IF_DATA_ZERO, (j : Int)⟩ ∧
          ∀ i' : Nat, ops[i']? = some ⟨.JUMP_IF_DATA_ZERO, (j : Int)⟩ → i' = i) ∧
      (∀ i j i' j' : Nat,
        ops[i]? = some ⟨.JUMP_IF_DATA_ZERO, (j : Int)⟩ →
        ops[j]? = some ⟨.JUMP_IF_DATA_NOT_ZERO, (i : Int)⟩ →
        ops[i']? = some ⟨.JUMP_IF_DATA_ZERO, (j' : Int)⟩ →
        ops[j']? = some ⟨.JUMP_IF_DATA_NOT_ZERO, (i' : Int)⟩ →
        i < i' → j < i' ∨ j' < j) :=
  ⟨by decide, jump_pairing _ (by decide)⟩

/-- The bytecode of `[>[.][-]]`, computed: the inner `[.]` keeps its jump
pair, the inner `[-]` is spliced out, and the outer pair spans both. -/
theorem translateProgram_nested_example :
    translateProgram [cOpen, cRight, cOpen, cDot, cClose, cOpen, cMinus, cClose, cClose] =
      .ok [⟨.JUMP_IF_DATA_ZERO, 6⟩, ⟨.INC_PTR, 1⟩, ⟨.JUMP_IF_DATA_ZERO, 4⟩,
        ⟨.WRITE_STDOUT, 1⟩, ⟨.JUMP_IF_DATA_NOT_ZERO, 2⟩, ⟨.LOOP_SET_TO_ZERO, 0⟩,
        ⟨.JUMP_IF_DATA_NOT_ZERO, 0⟩] := by
  simp [translateProgram, translateLoop, optimizedLoop, kindOfChar, setArgument]

/-! ## The move loop and `LOOP_MOVE_DATA` -/

theorem moveLoopCode_eq (fwd : Bool) (k : Nat) :
    moveLoopCode fwd k =
      [⟨.JUMP_IF_DATA_ZERO, 5⟩, ⟨.DEC_DATA, 1⟩, ⟨if fwd then .INC_PTR else .DEC_PTR, k⟩,
        ⟨.INC_DATA, 1⟩, ⟨if fwd then .DEC_PTR else .INC_PTR, k⟩,
        ⟨.JUMP_IF_DATA_NOT_ZERO, 0⟩] := by
  simp [moveLoopCode, jumpPairCode, setArgument]

theorem byteOf_one : byteOf 1 = 1 := by decide

/-- One pass through the body of the move loop. -/
theorem moveLoop_pass (fwd : Bool) (k : Nat) (hk : 1 ≤ k) (fuel : Nat) (p : Int)
    (mem : Int → Nat) (inp out : List Nat) (hp : inBounds p)
    (ht : inBounds (p + signedOffset fwd k)) (hv : 1 ≤ mem p) (hv' : mem p < 256) :
    runOps (moveLoopCode fwd k) (fuel + 5) ⟨1, p, mem, inp, out⟩ =
      runOps (moveLoopCode fwd k) fuel
        ⟨if mem p = 1 then 6 else 1, p,
          Function.update (Function.update mem p (mem p - 1)) (p + signedOffset fwd k)
            ((mem (p + signedOffset fwd k) + 1) % 256), inp, out⟩ := by
  have hk' : (k : Int) ≠ 0 := by omega
  have e : (mem p + 255) % 256 = mem p - 1 := by omega
  rw [moveLoopCode_eq]
  cases fwd
  · have ht' : inBounds (p - (k : Int)) := by
      unfold inBounds at ht ⊢
      simp [signedOffset] at ht
      omega
    simp [signedOffset, ← sub_eq_add_neg] at ht ⊢
    have hne : p ≠ p - (k : Int) := by omega
    have hne' : p - (k : Int) ≠ p := by omega
    by_cases h1 : mem p = 1
    · simp [runOps, execOp, hp, ht, ht', byteOf_one, hne, hne', e, h1]
    · have h1' : mem p - 1 ≠ 0 := by omega
      simp [runOps, execOp, hp, ht, ht', byteOf_one, hne, hne', e, h1, h1']
  · simp [signedOffset] at ht ⊢
    have hne : p ≠ p + (k : Int) := by omega
    have hne' : p + (k : Int) ≠ p := by omega
    by_cases h1 : mem p = 1
    · simp [runOps, execOp, hp, ht, byteOf_one, hne, hne', e, h1]
    · have h1' : mem p - 1 ≠ 0 := by omega
      simp [runOps, execOp, hp, ht, byteOf_one, hne, hne', e, h1, h1']

theorem signedOffset_ne_zero (fwd : Bool) (k : Nat) (hk : 1 ≤ k) : signedOffset fwd k ≠ 0 := by
  cases fwd <;> simp [signedOffset] <;> omega

/-- From the first op of the body with a cell value `v ≥ 1`, the move loop
ends after `v` passes with the cell added to the target and cleared. -/
theorem moveLoop_body (fwd : Bool) (k : Nat) (hk : 1 ≤ k) (p : Int) (inp out : List Nat)
    (hp : inBounds p) (ht : inBounds (p + signedOffset fwd k)) (v : Nat) :
    ∀ mem : Int → Nat, mem p = v → 1 ≤ v → v < 256 →
      ∃ fuel, runOps (moveLoopCode fwd k) fuel ⟨1, p, mem, inp, out⟩ =
        some (.ok, ⟨6, p,
          Function.update
            (Function.update mem (p + signedOffset fwd k)
              ((mem (p + signedOffset fwd k) + v) % 256)) p 0, inp, out⟩) := by
  have hd := signedOffset_ne_zero fwd k hk
  have hne : p + signedOffset fwd k ≠ p := by omega
  induction v with
  | zero => intro mem _ h; omega
  | succ n ih =>
    intro mem hv _ hlt
    by_cases hn : n = 0
    · subst hn
      refine ⟨1 + 5, ?_⟩
      rw [moveLoop_pass fwd k hk 1 p mem inp out hp ht (by omega) (by omega)]
      simp only [hv, if_true]
      rw [runOps_done _ 0 _ (by simp [moveLoopCode_eq])]
      rw [Function.update_comm hne.symm]
    · obtain ⟨f, hf⟩ := ih
        (Function.update (Function.update mem p (mem p - 1)) (p + signedOffset fwd k)
          ((mem (p + signedOffset fwd k) + 1) % 256))
        (by simp [Function.update_apply, hne.symm, hv]) (by omega) (by omega)
      refine ⟨f + 5, ?_⟩
      rw [moveLoop_pass fwd k hk f p mem inp out hp ht (by omega) (by omega)]
      have h1 : mem p ≠ 1 := by omega
      simp only [h1, if_false]
      rw [hf]
      congr 3
      funext x
      by_cases hx : x = p
      · subst hx
        simp [Function.update_apply]
      · by_cases hx' : x = p + signedOffset fwd k
        · subst hx'
          simp [Function.update_apply, hx]
          omega
        · simp [Function.update_apply, hx, hx']

/-- C2: for every `k ≥ 1`, either direction, and every state at the start of
the code whose cells are bytes and whose pointer `p` and target `p ± k` lie
inside the tape, the unoptimized jump-pair bytecode of the move loop runs to
its end without error, and so does the single op `LOOP_MOVE_DATA ±k`, in the
same tape, pointer, input and output; when the cell at `p` is 0 on entry both
leave tape, pointer, input and output unchanged. -/
theorem moveCellAdd_equiv (k : Nat) (hk : 1 ≤ k) (fwd : Bool) (s : VM) (hpc : s.pc = 0)
    (hbytes : ∀ i, s.memory i < 256) (hp : inBounds s.dataPtr)
    (ht : inBounds (s.dataPtr + signedOffset fwd k)) :
    ∃ fuel s1 s2,
      runOps (moveLoopCode fwd k) fuel s = some (.ok, s1) ∧
      runOps [⟨.LOOP_MOVE_DATA, signedOffset fwd k⟩] 2 s = some (.ok, s2) ∧
      s1.memory = s2.memory ∧ s1.dataPtr = s2.dataPtr ∧
      s1.output = s2.output ∧ s1.input = s2.input ∧
      s2.dataPtr = s.dataPtr ∧ s2.output = s.output ∧ s2.input = s.input ∧
      s2.memory = Function.update
        (Function.update s.memory (s.dataPtr + signedOffset fwd k)
          ((s.memory (s.dataPtr + signedOffset fwd k) + s.memory s.dataPtr) % 256))
        s.dataPtr 0 ∧
      (s.memory s.dataPtr = 0 → s2.memory = s.memory) := by
  obtain ⟨pc, p, mem, inp, out⟩ := s
  simp only at hpc hbytes hp ht ⊢
  subst hpc
  have hd := signedOffset_ne_zero fwd k hk
  have hne : p + signedOffset fwd k ≠ p := by omega
  by_cases hz : mem p = 0
  · refine ⟨2, ⟨6, p, mem, inp, out⟩, ⟨1, p, mem, inp, out⟩, ?_, ?_, rfl, rfl, rfl, rfl, rfl,
      rfl, rfl, ?_, fun _ => rfl⟩
    · simp [moveLoopCode_eq, runOps, execOp, hp, hz]
    · simp [runOps, execOp, hp, hz]
    · funext x
      by_cases hx : x = p
      · subst hx
        simp [hz]
      · by_cases hx' : x = p + signedOffset fwd k
        · subst hx'
          simp [Function.update_apply, hx, hz, Nat.mod_eq_of_lt (hbytes _)]
        · simp [Function.update_apply, hx, hx']
  · obtain ⟨f, hf⟩ := moveLoop_body fwd k hk p inp out hp ht (mem p) mem rfl (by omega)
      (hbytes p)
    refine ⟨f + 1,
      ⟨6, p, Function.update (Function.update mem (p + signedOffset fwd k)
        ((mem (p + signedOffset fwd k) + mem p) % 256)) p 0, inp, out⟩,
      ⟨1, p, Function.update (Function.update mem (p + signedOffset fwd k)
        ((mem (p + signedOffset fwd k) + mem p) % 256)) p 0, inp, out⟩,
      ?_, ?_, rfl, rfl, rfl, rfl, rfl, rfl, rfl, rfl, ?_⟩
    · rw [runOps_next (moveLoopCode fwd k) f ⟨0, p, mem, inp, out⟩ ⟨1, p, mem, inp, out⟩
        ⟨.JUMP_IF_DATA_ZERO, 5⟩ (by simp) (by simp [moveLoopCode_eq])
        (by simp [execOp, hp, hz])]
      exact hf
    · have hpos : 0 < mem p := by omega
      simp [runOps, execOp, hp, ht, hpos]
    · intro h
      exact absurd h hz

theorem moveCellAdd_equiv_witness :
    1 ≤ 1 ∧ (cellState 5).pc = 0 ∧ (∀ i, (cellState 5).memory i < 256) ∧
    inBounds (cellState 5).dataPtr ∧
    inBounds ((cellState 5).dataPtr + signedOffset true 1) ∧
    ∃ fuel s1 s2,
      runOps (moveLoopCode true 1) fuel (cellState 5) = some (.ok, s1) ∧
      runOps [⟨.LOOP_MOVE_DATA, signedOffset true 1⟩] 2 (cellState 5) = some (.ok, s2) ∧
      s1.memory = s2.memory ∧ s1.dataPtr = s2.dataPtr ∧
      s1.output = s2.output ∧ s1.input = s2.input ∧
      s2.dataPtr = (cellState 5).dataPtr ∧ s2.output = (cellState 5).output ∧
      s2.input = (cellState 5).input ∧
      s2.memory = Function.update
        (Function.update (cellState 5).memory ((cellState 5).dataPtr + signedOffset true 1)
          (((cellState 5).memory ((cellState 5).dataPtr + signedOffset true 1) +
            (cellState 5).memory (cellState 5).dataPtr) % 256))
        (cellState 5).dataPtr 0 ∧
      ((cellState 5).memory (cellState 5).dataPtr = 0 → s2.memory = (cellState 5).memory) :=
  have hbytes : ∀ i, (cellState 5).memory i < 256 := by
    intro i
    simp only [cellState, Function.update_apply]
    split <;> omega
  have hp : inBounds (cellState 5).dataPtr := by decide
  have ht : inBounds ((cellState 5).dataPtr + signedOffset true 1) := by decide
  ⟨by decide, rfl, hbytes, hp, ht,
    moveCellAdd_equiv 1 (by decide) true (cellState 5) rfl hbytes hp ht⟩

/-- The move loop on cell 0 = 5, cell 1 = 0, computed: the single op leaves
cell 0 = 0 and cell 1 = 5. -/
theorem moveCellAdd_example :
    ∃ s2, runOps [⟨.LOOP_MOVE_DATA, signedOffset true 1⟩] 2 (cellState 5) = some (.ok, s2) ∧
      s2.memory 0 = 0 ∧ s2.memory 1 = 5 := by
  simp [signedOffset, cellState, runOps, execOp, inBounds, MEMORY_SIZE]
/-! ## The clear loop and `LOOP_SET_TO_ZERO` -/

theorem clearLoopCode_eq (dec : Bool) (n : Nat) :
    clearLoopCode dec n =
      [⟨.JUMP_IF_DATA_ZERO, 2⟩, ⟨if dec then .DEC_DATA else .INC_DATA, n⟩,
        ⟨.JUMP_IF_DATA_NOT_ZERO, 0⟩] := by
  simp [clearLoopCode, jumpPairCode, setArgument]

theorem byteOf_lt (a : Int) : byteOf a < 256 := by
  unfold byteOf
  omega

theorem byteOf_natCast (n : Nat) : byteOf (n : Int) = n % 256 := by
  unfold byteOf
  omega

/-- One pass through the body of the clear loop. -/
theorem clearLoop_pass (dec : Bool) (n : Nat) (fuel : Nat) (p : Int) (mem : Int → Nat)
    (inp out : List Nat) (hp : inBounds p) :
    runOps (clearLoopCode dec n) (fuel + 2) ⟨1, p, mem, inp, out⟩ =
      runOps (clearLoopCode dec n) fuel
        ⟨if (mem p + stepByte dec n) % 256 = 0 then 3 else 1, p,
          Function.update mem p ((mem p + stepByte dec n) % 256), inp, out⟩ := by
  have hb := byteOf_lt (n : Int)
  rw [clearLoopCode_eq]
  cases dec
  · by_cases h0 : (mem p + byteOf (n : Int)) % 256 = 0
    · simp [runOps, execOp, hp, stepByte, h0]
    · simp [runOps, execOp, hp, stepByte, h0]
  · have e : (mem p + 256 - byteOf (n : Int)) % 256 = (mem p + (256 - byteOf (n : Int))) % 256 := by
      congr 1
      omega
    by_cases h0 : (mem p + (256 - byteOf (n : Int))) % 256 = 0
    · simp [runOps, execOp, hp, stepByte, h0, e]
    · simp [runOps, execOp, hp, stepByte, h0, e]

/-- From the first op of the body, the clear loop ends with the cell at 0 as
soon as some number `m ≥ 1` of passes brings the cell to 0 modulo 256. -/
theorem clearLoop_body (dec : Bool) (n : Nat) (p : Int) (inp out : List Nat)
    (hp : inBounds p) (m : Nat) :
    ∀ mem : Int → Nat, 1 ≤ m → (mem p + m * stepByte dec n) % 256 = 0 →
      ∃ fuel, runOps (clearLoopCode dec n) fuel ⟨1, p, mem, inp, out⟩ =
        some (.ok, ⟨3, p, Function.update mem p 0, inp, out⟩) := by
  induction m with
  | zero => intro mem h _; omega
  | succ k ih =>
    intro mem _ hm
    by_cases h0 : (mem p + stepByte dec n) % 256 = 0
    · refine ⟨1 + 2, ?_⟩
      rw [clearLoop_pass dec n 1 p mem inp out hp]
      simp only [h0, if_true]
      rw [runOps_done _ 0 _ (by simp [clearLoopCode_eq])]
    · have hk : 1 ≤ k := by
        rcases Nat.eq_zero_or_pos k with hk | hk
        · subst hk
          simp at hm
          exact absurd hm h0
        · exact hk
      have hm' : (mem p + (k * stepByte dec n + stepByte dec n)) % 256 = 0 := by
        rw [← hm]
        congr 2
        ring
      obtain ⟨f, hf⟩ := ih (Function.update mem p ((mem p + stepByte dec n) % 256)) hk
        (by
          simp only [Function.update_same]
          omega)
      refine ⟨f + 2, ?_⟩
      rw [clearLoop_pass dec n f p mem inp out hp]
      simp only [h0, if_false]
      rw [hf, Function.update_idem]

/-- Adding an odd number modulo 256 reaches 0 from every value, in at least
one step. -/
theorem exists_steps_of_odd (d w : Nat) (hd : d % 2 = 1) :
    ∃ m, 1 ≤ m ∧ (w + m * d) % 256 = 0 := by
  have hcop : Nat.Coprime d 256 := by
    have h2 : Nat.Coprime 2 d :=
      (Nat.Prime.coprime_iff_not_dvd Nat.prime_two).mpr (by omega)
    have : (256 : Nat) = 2 ^ 8 := by norm_num
    rw [this]
    exact (Nat.Coprime.pow_left 8 h2).symm
  obtain ⟨e, he⟩ := Nat.exists_mul_emod_eq_one_of_coprime hcop (by norm_num)
  have he1 : 1 ≤ e := by
    rcases Nat.eq_zero_or_pos e with h | h
    · subst h
      simp at he
    · exact h
  refine ⟨e * (256 - w % 256), ?_, ?_⟩
  · have : 1 ≤ 256 - w % 256 := by omega
    exact Nat.one_le_iff_ne_zero.mpr (Nat.mul_ne_zero (by omega) (by omega))
  · have key : (e * (256 - w % 256) * d) % 256 = (256 - w % 256) % 256 := by
      rw [show e * (256 - w % 256) * d = (d * e) * (256 - w % 256) by ring, Nat.mul_mod, he,
        one_mul, Nat.mod_mod]
    omega

theorem stepByte_odd (dec : Bool) (n : Nat) (hn : n % 2 = 1) : stepByte dec n % 2 = 1 := by
  have := byteOf_natCast n
  cases dec <;> simp only [stepByte, this] <;> simp <;> omega

/-- C3, as amended: for every odd step `n`, either sign, and every state at
the start of the code, the unoptimized loop `[JUMP_IF_DATA_ZERO, INC_DATA n
(or DEC_DATA n), JUMP_IF_DATA_NOT_ZERO]` ends, and ends as the single op
`LOOP_SET_TO_ZERO` does: same outcome, tape, pointer, input and output; with
the pointer inside the tape the outcome is a normal end with the cell at 0. -/
theorem clearCell_equiv_odd (n : Nat) (hn : n % 2 = 1) (dec : Bool) (s : VM)
    (hpc : s.pc = 0) :
    ∃ outcome fuel s1 s2,
      runOps (clearLoopCode dec n) fuel s = some (outcome, s1) ∧
      runOps [⟨.LOOP_SET_TO_ZERO, 0⟩] 2 s = some (outcome, s2) ∧
      s1.memory = s2.memory ∧ s1.dataPtr = s2.dataPtr ∧
      s1.output = s2.output ∧ s1.input = s2.input ∧
      (inBounds s.dataPtr → outcome = .ok ∧
        s2.memory = Function.update s.memory s.dataPtr 0 ∧ s2.dataPtr = s.dataPtr ∧
        s2.output = s.output ∧ s2.input = s.input) := by
  obtain ⟨pc, p, mem, inp, out⟩ := s
  simp only at hpc ⊢
  subst hpc
  by_cases hp : inBounds p
  · by_cases hz : mem p = 0
    · refine ⟨.ok, 2, ⟨3, p, Function.update mem p 0, inp, out⟩,
        ⟨1, p, Function.update mem p 0, inp, out⟩, ?_, ?_, rfl, rfl, rfl, rfl,
        fun _ => ⟨rfl, rfl, rfl, rfl, rfl⟩⟩
      · have : Function.update mem p 0 = mem := by
          rw [← hz]
          exact Function.update_eq_self p mem
        rw [this]
        simp [clearLoopCode_eq, runOps, execOp, hp, hz]
      · simp [runOps, execOp, hp]
    · obtain ⟨m, hm1, hm⟩ := exists_steps_of_odd (stepByte dec n) (mem p) (stepByte_odd dec n hn)
      obtain ⟨f, hf⟩ := clearLoop_body dec n p inp out hp m mem hm1 hm
      refine ⟨.ok, f + 1, ⟨3, p, Function.update mem p 0, inp, out⟩,
        ⟨1, p, Function.update mem p 0, inp, out⟩, ?_, ?_, rfl, rfl, rfl, rfl,
        fun _ => ⟨rfl, rfl, rfl, rfl, rfl⟩⟩
      · rw [runOps_next (clearLoopCode dec n) f ⟨0, p, mem, inp, out⟩ ⟨1, p, mem, inp, out⟩
          ⟨.JUMP_IF_DATA_ZERO, 2⟩ (by simp) (by simp [clearLoopCode_eq])
          (by simp [execOp, hp, hz])]
        exact hf
      · simp [runOps, execOp, hp]
  · refine ⟨.panic, 1, ⟨0, p, mem, inp, out⟩, ⟨0, p, mem, inp, out⟩, ?_, ?_, rfl, rfl, rfl,
      rfl, fun h => absurd h hp⟩
    · simp [clearLoopCode_eq, runOps, execOp, hp]
    · simp [runOps, execOp, hp]

theorem clearCell_equiv_odd_witness :
    3 % 2 = 1 ∧ (cellState 7).pc = 0 ∧
    ∃ outcome fuel s1 s2,
      runOps (clearLoopCode true 3) fuel (cellState 7) = some (outcome, s1) ∧
      runOps [⟨.LOOP_SET_TO_ZERO, 0⟩] 2 (cellState 7) = some (outcome, s2) ∧
      s1.memory = s2.memory ∧ s1.dataPtr = s2.dataPtr ∧
      s1.output = s2.output ∧ s1.input = s2.input ∧
      (inBounds (cellState 7).dataPtr → outcome = .ok ∧
        s2.memory = Function.update (cellState 7).memory (cellState 7).dataPtr 0 ∧
        s2.dataPtr = (cellState 7).dataPtr ∧
        s2.output = (cellState 7).output ∧ s2.input = (cellState 7).input) :=
  ⟨by decide, rfl, clearCell_equiv_odd 3 (by decide) true (cellState 7) rfl⟩

/-- With the step 2 and an odd cell the clear loop never ends. -/
theorem clearLoop_even_inside (fuel : Nat) (s : VM) (hp : s.dataPtr = 0)
    (hpc : s.pc = 0 ∨ s.pc = 1 ∨ s.pc = 2) (hodd : s.memory 0 % 2 = 1) :
    runOps (clearLoopCode false 2) fuel s = none := by
  induction fuel generalizing s with
  | zero => rfl
  | succ k ih =>
    obtain ⟨pc, p, mem, inp, out⟩ := s
    simp only at hp hpc hodd
    subst hp
    have hne : mem 0 ≠ 0 := by omega
    rcases hpc with h | h | h
    · subst h
      simp [clearLoopCode_eq, runOps, execOp, inBounds, MEMORY_SIZE, hne]
      have := ih ⟨1, 0, mem, inp, out⟩ rfl (Or.inr (Or.inl rfl)) hodd
      simpa [clearLoopCode_eq] using this
    · subst h
      have hb : byteOf 2 = 2 := by decide
      simp [clearLoopCode_eq, runOps, execOp, inBounds, MEMORY_SIZE, hb]
      have := ih ⟨2, 0, Function.update mem 0 ((mem 0 + 2) % 256), inp, out⟩ rfl
        (Or.inr (Or.inr rfl)) (by simp; omega)
      simpa [clearLoopCode_eq] using this
    · subst h
      simp [clearLoopCode_eq, runOps, execOp, inBounds, MEMORY_SIZE, hne]
      have := ih ⟨1, 0, mem, inp, out⟩ rfl (Or.inr (Or.inl rfl)) hodd
      simpa [clearLoopCode_eq] using this

/-- C3 as stated fails for the step 2: from the cell value 1 the loop
`[JUMP_IF_DATA_ZERO, INC_DATA 2, JUMP_IF_DATA_NOT_ZERO]` never ends, the cell
staying odd, while `LOOP_SET_TO_ZERO` ends at once with the cell at 0. -/
theorem clearCell_even_step_diverges :
    (∀ fuel, runOps (clearLoopCode false 2) fuel (cellState 1) = none) ∧
    (∃ s2, runOps [⟨.LOOP_SET_TO_ZERO, 0⟩] 2 (cellState 1) = some (.ok, s2) ∧
      s2.memory 0 = 0) := by
  constructor
  · intro fuel
    exact clearLoop_even_inside fuel (cellState 1) rfl (Or.inl rfl) (by simp [cellState])
  · simp [cellState, runOps, execOp, inBounds, MEMORY_SIZE]
/-! ## The scan loop and `LOOP_MOVE_PTR` -/

theorem scanLoopCode_eq (fwd : Bool) (k : Nat) :
    scanLoopCode fwd k =
      [⟨.JUMP_IF_DATA_ZERO, 2⟩, ⟨if fwd then .INC_PTR else .DEC_PTR, k⟩,
        ⟨.JUMP_IF_DATA_NOT_ZERO, 0⟩] := by
  simp [scanLoopCode, jumpPairCode, setArgument]

/-- At either jump of the scan loop, a nonzero cell leads through the body
back to the closing jump, the pointer moved by the stride. -/
theorem scanLoop_enter (fwd : Bool) (k : Nat) (fuel : Nat) (pc0 p : Int) (mem : Int → Nat)
    (inp out : List Nat) (h0 : pc0 = 0 ∨ pc0 = 2) (hp : inBounds p) (hz : mem p ≠ 0) :
    runOps (scanLoopCode fwd k) (fuel + 2) ⟨pc0, p, mem, inp, out⟩ =
      runOps (scanLoopCode fwd k) fuel ⟨2, p + signedOffset fwd k, mem, inp, out⟩ := by
  rw [scanLoopCode_eq]
  rcases h0 with rfl | rfl <;> cases fwd <;>
    simp [runOps, execOp, hp, hz, signedOffset, sub_eq_add_neg]

theorem scanLoop_exit (fwd : Bool) (k : Nat) (fuel : Nat) (pc0 p : Int) (mem : Int → Nat)
    (inp out : List Nat) (h0 : pc0 = 0 ∨ pc0 = 2) (hp : inBounds p) (hz : mem p = 0) :
    runOps (scanLoopCode fwd k) (fuel + 2) ⟨pc0, p, mem, inp, out⟩ =
      some (.ok, ⟨3, p, mem, inp, out⟩) := by
  rw [scanLoopCode_eq]
  rcases h0 with rfl | rfl <;> simp [runOps, execOp, hp, hz]

theorem scanLoop_panic (fwd : Bool) (k : Nat) (fuel : Nat) (pc0 p : Int) (mem : Int → Nat)
    (inp out : List Nat) (h0 : pc0 = 0 ∨ pc0 = 2) (hp : ¬ inBounds p) :
    runOps (scanLoopCode fwd k) (fuel + 1) ⟨pc0, p, mem, inp, out⟩ =
      some (.panic, ⟨pc0, p, mem, inp, out⟩) := by
  rw [scanLoopCode_eq]
  rcases h0 with rfl | rfl <;> simp [runOps, execOp, hp]

theorem movePtr_enter (d : Int) (fuel : Nat) (p : Int) (mem : Int → Nat)
    (inp out : List Nat) (hp : inBounds p) (hz : mem p ≠ 0) :
    runOps [⟨.LOOP_MOVE_PTR, d⟩] (fuel + 1) ⟨0, p, mem, inp, out⟩ =
      runOps [⟨.LOOP_MOVE_PTR, d⟩] fuel ⟨0, p + d, mem, inp, out⟩ := by
  have hpos : 0 < mem p := by omega
  simp [runOps, execOp, hp, hpos]

theorem movePtr_exit (d : Int) (fuel : Nat) (p : Int) (mem : Int → Nat)
    (inp out : List Nat) (hp : inBounds p) (hz : mem p = 0) :
    runOps [⟨.LOOP_MOVE_PTR, d⟩] (fuel + 2) ⟨0, p, mem, inp, out⟩ =
      some (.ok, ⟨1, p, mem, inp, out⟩) := by
  simp [runOps, execOp, hp, hz]

theorem movePtr_panic (d : Int) (fuel : Nat) (p : Int) (mem : Int → Nat)
    (inp out : List Nat) (hp : ¬ inBounds p) :
    runOps [⟨.LOOP_MOVE_PTR, d⟩] (fuel + 1) ⟨0, p, mem, inp, out⟩ =
      some (.panic, ⟨0, p, mem, inp, out⟩) := by
  simp [runOps, execOp, hp]

theorem scanRoom_step (fwd : Bool) (k : Nat) (hk : 1 ≤ k) (p : Int) (hp : inBounds p) :
    scanRoom fwd (p + signedOffset fwd k) < scanRoom fwd p := by
  unfold inBounds MEMORY_SIZE at hp
  cases fwd <;> simp [scanRoom, signedOffset, MEMORY_SIZE] <;> omega

/-- From either jump of the scan loop, and from `LOOP_MOVE_PTR`, the runs end
the same way: at the first cell along the stride that is zero, or with the
panic of the first access outside the tape. -/
theorem scan_runs (fwd : Bool) (k : Nat) (hk : 1 ≤ k) (mem : Int → Nat) (inp out : List Nat)
    (pc0 : Int) (h0 : pc0 = 0 ∨ pc0 = 2) (n : Nat) :
    ∀ p : Int, scanRoom fwd p ≤ n →
      ∃ (outcome : Outcome) (q c1 c2 : Int) (f1 f2 j : Nat),
        runOps (scanLoopCode fwd k) f1 ⟨pc0, p, mem, inp, out⟩ =
          some (outcome, ⟨c1, q, mem, inp, out⟩) ∧
        runOps [⟨.LOOP_MOVE_PTR, signedOffset fwd k⟩] f2 ⟨0, p, mem, inp, out⟩ =
          some (outcome, ⟨c2, q, mem, inp, out⟩) ∧
        q = p + (j : Int) * signedOffset fwd k ∧
        (∀ i : Nat, i < j → inBounds (p + (i : Int) * signedOffset fwd k) ∧
          mem (p + (i : Int) * signedOffset fwd k) ≠ 0) ∧
        ((outcome = .ok ∧ inBounds q ∧ mem q = 0) ∨ (outcome = .panic ∧ ¬ inBounds q)) := by
  induction n generalizing pc0 with
  | zero =>
    intro p hroom
    have hp : ¬ inBounds p := by
      unfold inBounds MEMORY_SIZE
      cases fwd <;> simp [scanRoom, MEMORY_SIZE] at hroom <;> omega
    exact ⟨.panic, p, pc0, 0, 1, 1, 0, scanLoop_panic fwd k 0 pc0 p mem inp out h0 hp,
      movePtr_panic _ 0 p mem inp out hp, by simp, by simp, Or.inr ⟨rfl, hp⟩⟩
  | succ m ih =>
    intro p hroom
    by_cases hp : inBounds p
    · by_cases hz : mem p = 0
      · exact ⟨.ok, p, 3, 1, 2, 2, 0, scanLoop_exit fwd k 0 pc0 p mem inp out h0 hp hz,
          movePtr_exit _ 0 p mem inp out hp hz, by simp, by simp, Or.inl ⟨rfl, hp, hz⟩⟩
      · have hlt := scanRoom_step fwd k hk p hp
        obtain ⟨outcome, q, c1, c2, f1, f2, j, h1, h2, hq, hall, hend⟩ :=
          ih 2 (Or.inr rfl) (p + signedOffset fwd k) (by omega)
        refine ⟨outcome, q, c1, c2, f1 + 2, f2 + 1, j + 1, ?_, ?_, ?_, ?_, hend⟩
        · rw [scanLoop_enter fwd k f1 pc0 p mem inp out h0 hp hz]
          exact h1
        · rw [movePtr_enter _ f2 p mem inp out hp hz]
          exact h2
        · rw [hq]
          push_cast
          ring
        · intro i hi
          rcases Nat.eq_zero_or_pos i with rfl | hpos
          · simpa using ⟨hp, hz⟩
          · obtain ⟨i', rfl⟩ : ∃ i', i = i' + 1 := ⟨i - 1, by omega⟩
            have := hall i' (by omega)
            have e : p + ((i' + 1 : Nat) : Int) * signedOffset fwd k =
                p + signedOffset fwd k + (i' : Int) * signedOffset fwd k := by
              push_cast
              ring
            rw [e]
            exact this
    · exact ⟨.panic, p, pc0, 0, 1, 1, 0, scanLoop_panic fwd k 0 pc0 p mem inp out h0 hp,
        movePtr_panic _ 0 p mem inp out hp, by simp, by simp, Or.inr ⟨rfl, hp⟩⟩

/-- C4: for every `k ≥ 1`, either direction, and every state at the start of
the code, the unoptimized jump-pair bytecode of the scan loop and the single
op `LOOP_MOVE_PTR ±k` behave identically. Both runs end, the same way: tape,
input and output unchanged and the pointer at the first position
`p + j * stride` (`j ≥ 0`) whose cell is zero, when there is one inside the
tape, and otherwise with the panic of the access at the first position outside
the tape. In particular one halts normally iff the other does. -/
theorem scanPointer_equiv (k : Nat) (hk : 1 ≤ k) (fwd : Bool) (s : VM) (hpc : s.pc = 0) :
    (∃ (outcome : Outcome) (f1 f2 : Nat) (s1 s2 : VM) (j : Nat),
      runOps (scanLoopCode fwd k) f1 s = some (outcome, s1) ∧
      runOps [⟨.LOOP_MOVE_PTR, signedOffset fwd k⟩] f2 s = some (outcome, s2) ∧
      s1.memory = s.memory ∧ s2.memory = s.memory ∧
      s1.output = s.output ∧ s2.output = s.output ∧
      s1.input = s.input ∧ s2.input = s.input ∧
      s1.dataPtr = s.dataPtr + (j : Int) * signedOffset fwd k ∧
      s2.dataPtr = s.dataPtr + (j : Int) * signedOffset fwd k ∧
      (∀ i : Nat, i < j → s.memory (s.dataPtr + (i : Int) * signedOffset fwd k) ≠ 0) ∧
      ((outcome = .ok ∧ s.memory (s.dataPtr + (j : Int) * signedOffset fwd k) = 0) ∨
        (outcome = .panic ∧ ¬ inBounds (s.dataPtr + (j : Int) * signedOffset fwd k)))) ∧
    ((∃ f s1, runOps (scanLoopCode fwd k) f s = some (.ok, s1)) ↔
      (∃ f s2, runOps [⟨.LOOP_MOVE_PTR, signedOffset fwd k⟩] f s = some (.ok, s2))) := by
  obtain ⟨pc, p, mem, inp, out⟩ := s
  simp only at hpc ⊢
  subst hpc
  obtain ⟨outcome, q, c1, c2, f1, f2, j, h1, h2, hq, hall, hend⟩ :=
    scan_runs fwd k hk mem inp out 0 (Or.inl rfl) (scanRoom fwd p) p (le_refl _)
  subst hq
  constructor
  · refine ⟨outcome, f1, f2, _, _, j, h1, h2, rfl, rfl, rfl, rfl, rfl, rfl, rfl, rfl,
      fun i hi => (hall i hi).2, ?_⟩
    rcases hend with ⟨ho, _, hz⟩ | ⟨ho, hb⟩
    · exact Or.inl ⟨ho, hz⟩
    · exact Or.inr ⟨ho, hb⟩
  · constructor
    · rintro ⟨f, s1, hf⟩
      have := runOps_det _ _ _ _ _ _ hf h1
      have ho : outcome = .ok := (congrArg Prod.fst this).symm
      subst ho
      exact ⟨f2, _, h2⟩
    · rintro ⟨f, s2, hf⟩
      have := runOps_det _ _ _ _ _ _ hf h2
      have ho : outcome = .ok := (congrArg Prod.fst this).symm
      subst ho
      exact ⟨f1, _, h1⟩

theorem scanPointer_equiv_witness :
    1 ≤ 2 ∧ (cellState 4).pc = 0 ∧
    (∃ (outcome : Outcome) (f1 f2 : Nat) (s1 s2 : VM) (j : Nat),
      runOps (scanLoopCode false 2) f1 (cellState 4) = some (outcome, s1) ∧
      runOps [⟨.LOOP_MOVE_PTR, signedOffset false 2⟩] f2 (cellState 4) = some (outcome, s2) ∧
      s1.memory = (cellState 4).memory ∧ s2.memory = (cellState 4).memory ∧
      s1.output = (cellState 4).output ∧ s2.output = (cellState 4).output ∧
      s1.input = (cellState 4).input ∧ s2.input = (cellState 4).input ∧
      s1.dataPtr = (cellState 4).dataPtr + (j : Int) * signedOffset false 2 ∧
      s2.dataPtr = (cellState 4).dataPtr + (j : Int) * signedOffset false 2 ∧
      (∀ i : Nat, i < j →
        (cellState 4).memory ((cellState 4).dataPtr + (i : Int) * signedOffset false 2) ≠ 0) ∧
      ((outcome = .ok ∧
          (cellState 4).memory ((cellState 4).dataPtr + (j : Int) * signedOffset false 2) = 0) ∨
        (outcome = .panic ∧
          ¬ inBounds ((cellState 4).dataPtr + (j : Int) * signedOffset false 2)))) ∧
    ((∃ f s1, runOps (scanLoopCode false 2) f (cellState 4) = some (.ok, s1)) ↔
      (∃ f s2, runOps [⟨.LOOP_MOVE_PTR, signedOffset false 2⟩] f (cellState 4) =
        some (.ok, s2))) :=
  ⟨by decide, rfl, scanPointer_equiv 2 (by decide) false (cellState 4) rfl⟩

/-- The scan to the left from cell 0 holding 4, with stride 2, computed: both
codes panic at the pointer -2, the first position outside the tape. -/
theorem scan_left_example :
    (∃ s1, runOps (scanLoopCode false 2) 3 (cellState 4) = some (.panic, s1) ∧
      s1.dataPtr = -2) ∧
    (∃ s2, runOps [⟨.LOOP_MOVE_PTR, signedOffset false 2⟩] 2 (cellState 4) =
      some (.panic, s2) ∧ s2.dataPtr = -2) := by
  constructor <;>
    simp [scanLoopCode_eq, signedOffset, cellState, runOps, execOp, inBounds, MEMORY_SIZE]

/-- The scan to the right from cell 0 holding 4, with stride 3, computed: both
codes end normally at cell 3, which is zero. -/
theorem scan_right_example :
    (∃ s1, runOps (scanLoopCode true 3) 4 (cellState 4) = some (.ok, s1) ∧
      s1.dataPtr = 3) ∧
    (∃ s2, runOps [⟨.LOOP_MOVE_PTR, signedOffset true 3⟩] 3 (cellState 4) =
      some (.ok, s2) ∧ s2.dataPtr = 3) := by
  constructor <;>
    simp [scanLoopCode_eq, signedOffset, cellState, runOps, execOp, inBounds, MEMORY_SIZE]

/-! ## The move loop in the translator -/

/-- A run of `n ≥ 1` copies of a non-bracket symbol in front of another symbol
folds into one op. -/
theorem translateLoop_replicate_next (c n : Nat) (hn : 1 ≤ n) (hno : c ≠ cOpen)
    (hnc : c ≠ cClose) (q : Nat) (hq : q ≠ c) (rest : List Nat) (pc : Nat) (ops : List Op)
    (stack : List Nat) :
    translateLoop (List.replicate n c ++ q :: rest) pc ops stack =
      translateLoop (q :: rest) (pc + n) (ops ++ [⟨kindOfChar c, (n : Nat)⟩]) stack := by
  obtain ⟨m, rfl⟩ : ∃ m, n = m + 1 := ⟨n - 1, by omega⟩
  rw [List.replicate_succ, List.cons_append, translateLoop_run c _ pc ops stack hno hnc,
    takeWhile_append_stop c q hq, dropWhile_append_stop c q hq,
    List.takeWhile_replicate, List.dropWhile_replicate]
  simp

/-- A run of `n ≥ 1` copies of a non-bracket symbol at the end of the text
folds into one op. -/
theorem translateLoop_replicate_end (c n : Nat) (hn : 1 ≤ n) (hno : c ≠ cOpen)
    (hnc : c ≠ cClose) (pc : Nat) (ops : List Op) (stack : List Nat) :
    translateLoop (List.replicate n c) pc ops stack =
      .ok (ops ++ [⟨kindOfChar c, (n : Nat)⟩], stack) := by
  obtain ⟨m, rfl⟩ : ∃ m, n = m + 1 := ⟨n - 1, by omega⟩
  rw [List.replicate_succ, translateLoop_run c _ pc ops stack hno hnc,
    List.takeWhile_replicate, List.dropWhile_replicate]
  simp [translateLoop_nil]

/-- The four folded ops of a loop body `a b^k c d^k` in front of the `]`. -/
theorem translateLoop_four_op_body (a b c d k : Nat) (hk : 1 ≤ k)
    (ha : a ≠ cOpen ∧ a ≠ cClose) (hb : b ≠ cOpen ∧ b ≠ cClose)
    (hc : c ≠ cOpen ∧ c ≠ cClose) (hd : d ≠ cOpen ∧ d ≠ cClose)
    (hab : b ≠ a) (hbc : c ≠ b) (hcd : d ≠ c)
    (rest : List Nat) (pc : Nat) (ops : List Op) (stack : List Nat) :
    translateLoop (a :: (List.replicate k b ++ c :: (List.replicate k d ++ cClose :: rest)))
        pc ops stack =
      translateLoop (cClose :: rest) (pc + 1 + k + 1 + k)
        (ops ++ [⟨kindOfChar a, 1⟩] ++ [⟨kindOfChar b, (k : Nat)⟩] ++ [⟨kindOfChar c, 1⟩] ++
          [⟨kindOfChar d, (k : Nat)⟩]) stack := by
  have e1 := translateLoop_replicate_next a 1 (le_refl 1) ha.1 ha.2
    b hab (List.replicate (k - 1) b ++ c :: (List.replicate k d ++ cClose :: rest)) pc ops stack
  have hrep : b :: (List.replicate (k - 1) b ++ c :: (List.replicate k d ++ cClose :: rest)) =
      List.replicate k b ++ c :: (List.replicate k d ++ cClose :: rest) := by
    obtain ⟨m, rfl⟩ : ∃ m, k = m + 1 := ⟨k - 1, by omega⟩
    simp [List.replicate_succ]
  rw [hrep] at e1
  simp only [List.replicate_one, List.singleton_append] at e1
  rw [e1, translateLoop_replicate_next b k hk hb.1 hb.2 c hbc]
  have e3 := translateLoop_replicate_next c 1 (le_refl 1) hc.1 hc.2
    d hcd (List.replicate (k - 1) d ++ cClose :: rest) (pc + 1 + k)
    (ops ++ [⟨kindOfChar a, ((1 : Nat) : Int)⟩] ++ [⟨kindOfChar b, (k : Nat)⟩]) stack
  have hrep' : d :: (List.replicate (k - 1) d ++ cClose :: rest) =
      List.replicate k d ++ cClose :: rest := by
    obtain ⟨m, rfl⟩ : ∃ m, k = m + 1 := ⟨k - 1, by omega⟩
    simp [List.replicate_succ]
  rw [hrep'] at e3
  simp only [List.replicate_one, List.singleton_append] at e3
  rw [e3, translateLoop_replicate_close d k hk hd.1 hd.2]
  simp

/-- C11: for every `k ≥ 1` and every text `P` that `translateProgram` accepts,
translating `P [ - >^k + <^k ]` gives the bytecode of `P` followed by the
single op `LOOP_MOVE_DATA k`, and translating `P [ - <^k + >^k ]` gives the
bytecode of `P` followed by `LOOP_MOVE_DATA (-k)`; no jump op is emitted for
the loop. -/
theorem move_loop_recognition (k : Nat) (hk : 1 ≤ k) (P : List Nat) (opsP : List Op)
    (hP : translateProgram P = .ok opsP) :
    translateProgram (P ++ cOpen :: cMinus :: (List.replicate k cRight ++
        cPlus :: (List.replicate k cLeft ++ [cClose]))) =
      .ok (opsP ++ [⟨.LOOP_MOVE_DATA, (k : Int)⟩]) ∧
    translateProgram (P ++ cOpen :: cMinus :: (List.replicate k cLeft ++
        cPlus :: (List.replicate k cRight ++ [cClose]))) =
      .ok (opsP ++ [⟨.LOOP_MOVE_DATA, -(k : Int)⟩]) := by
  obtain ⟨stack, hst⟩ := (translateProgram_eq_ok P opsP).mp hP
  constructor
  · rw [translateProgram_eq_ok]
    refine ⟨stack, ?_⟩
    rw [translateLoop_append_open _ P 0 [] [] _ hst, translateLoop_open,
      translateLoop_four_op_body cMinus cRight cPlus cLeft k hk (by decide) (by decide)
        (by decide) (by decide) (by decide) (by decide) (by decide),
      translateLoop_close_cons]
    have hopt : optimizedLoop (opsP ++ [⟨.JUMP_IF_DATA_ZERO, 0⟩] ++ [⟨kindOfChar cMinus, 1⟩] ++
        [⟨kindOfChar cRight, (k : Nat)⟩] ++ [⟨kindOfChar cPlus, 1⟩] ++
        [⟨kindOfChar cLeft, (k : Nat)⟩]) opsP.length = [⟨.LOOP_MOVE_DATA, (k : Int)⟩] := by
      simp only [List.append_assoc]
      unfold optimizedLoop
      simp only [getElem?_append_length_add]
      simp [kindOfChar]
    rw [hopt]
    simp [translateLoop_nil]
  · rw [translateProgram_eq_ok]
    refine ⟨stack, ?_⟩
    rw [translateLoop_append_open _ P 0 [] [] _ hst, translateLoop_open,
      translateLoop_four_op_body cMinus cLeft cPlus cRight k hk (by decide) (by decide)
        (by decide) (by decide) (by decide) (by decide) (by decide),
      translateLoop_close_cons]
    have hopt : optimizedLoop (opsP ++ [⟨.JUMP_IF_DATA_ZERO, 0⟩] ++ [⟨kindOfChar cMinus, 1⟩] ++
        [⟨kindOfChar cLeft, (k : Nat)⟩] ++ [⟨kindOfChar cPlus, 1⟩] ++
        [⟨kindOfChar cRight, (k : Nat)⟩]) opsP.length = [⟨.LOOP_MOVE_DATA, -(k : Int)⟩] := by
      simp only [List.append_assoc]
      unfold optimizedLoop
      simp only [getElem?_append_length_add]
      simp [kindOfChar]
    rw [hopt]
    simp [translateLoop_nil]

theorem move_loop_recognition_witness :
    1 ≤ 2 ∧ translateProgram [cDot] = .ok [⟨.WRITE_STDOUT, 1⟩] ∧
    translateProgram ([cDot] ++ cOpen :: cMinus :: (List.replicate 2 cRight ++
        cPlus :: (List.replicate 2 cLeft ++ [cClose]))) =
      .ok ([⟨.WRITE_STDOUT, 1⟩] ++ [⟨.LOOP_MOVE_DATA, ((2 : Nat) : Int)⟩]) ∧
    translateProgram ([cDot] ++ cOpen :: cMinus :: (List.replicate 2 cLeft ++
        cPlus :: (List.replicate 2 cRight ++ [cClose]))) =
      .ok ([⟨.WRITE_STDOUT, 1⟩] ++ [⟨.LOOP_MOVE_DATA, -((2 : Nat) : Int)⟩]) :=
  have h : translateProgram [cDot] = .ok [⟨.WRITE_STDOUT, 1⟩] := by
    simp [translateProgram, translateLoop, kindOfChar]
  ⟨by decide, h, move_loop_recognition 2 (by decide) [cDot] _ h⟩
theorem setArgument_append_cons (ops body : List Op) (o : Op) (a : Int) :
    setArgument (ops ++ o :: body) ops.length a = ops ++ { o with argument := a } :: body := by
  unfold setArgument
  have h : (ops ++ o :: body)[ops.length]? = some o := by
    have := getElem?_append_length_add ops (o :: body) 0
    simpa using this
  rw [h]
  simp only
  induction ops with
  | nil => rfl
  | cons x xs ih => simp [List.set, ih]

/-- The four folded ops of a loop body `a^k b c^k d` in front of the `]`. -/
theorem translateLoop_four_op_body' (a b c d k : Nat) (hk : 1 ≤ k)
    (ha : a ≠ cOpen ∧ a ≠ cClose) (hb : b ≠ cOpen ∧ b ≠ cClose)
    (hc : c ≠ cOpen ∧ c ≠ cClose) (hd : d ≠ cOpen ∧ d ≠ cClose)
    (hab : b ≠ a) (hbc : c ≠ b) (hcd : d ≠ c)
    (rest : List Nat) (pc : Nat) (ops : List Op) (stack : List Nat) :
    translateLoop (List.replicate k a ++ b :: (List.replicate k c ++ d :: cClose :: rest))
        pc ops stack =
      translateLoop (cClose :: rest) (pc + k + 1 + k + 1)
        (ops ++ [⟨kindOfChar a, (k : Nat)⟩] ++ [⟨kindOfChar b, 1⟩] ++ [⟨kindOfChar c, (k : Nat)⟩] ++
          [⟨kindOfChar d, 1⟩]) stack := by
  rw [translateLoop_replicate_next a k hk ha.1 ha.2 b hab]
  have e2 := translateLoop_replicate_next b 1 (le_refl 1) hb.1 hb.2
    c hbc (List.replicate (k - 1) c ++ d :: cClose :: rest) (pc + k)
    (ops ++ [⟨kindOfChar a, (k : Nat)⟩]) stack
  have hrep : c :: (List.replicate (k - 1) c ++ d :: cClose :: rest) =
      List.replicate k c ++ d :: cClose :: rest := by
    obtain ⟨m, rfl⟩ : ∃ m, k = m + 1 := ⟨k - 1, by omega⟩
    simp [List.replicate_succ]
  rw [hrep] at e2
  simp only [List.replicate_one, List.singleton_append] at e2
  rw [e2, translateLoop_replicate_next c k hk hc.1 hc.2 d hcd]
  have e4 := translateLoop_replicate_close d 1 (le_refl 1) hd.1 hd.2 rest (pc + k + 1 + k)
    (ops ++ [⟨kindOfChar a, (k : Nat)⟩] ++ [⟨kindOfChar b, ((1 : Nat) : Int)⟩] ++
      [⟨kindOfChar c, (k : Nat)⟩]) stack
  simp only [List.replicate_one, List.singleton_append] at e4
  rw [e4]
  simp

/-- C12, as amended: for every `k ≥ 1` and every text `P` that
`translateProgram` accepts, the loop written move, increment, move back,
decrement, `[ >^k + <^k - ]`, is not replaced: `translateProgram` appends to
the bytecode of `P` the resolved jump pair around the four folded ops
`INC_PTR k, INC_DATA 1, DEC_PTR k, DEC_DATA 1`; likewise for the mirror
`[ <^k + >^k - ]`. -/
theorem move_loop_other_order_kept (k : Nat) (hk : 1 ≤ k) (P : List Nat) (opsP : List Op)
    (hP : translateProgram P = .ok opsP) :
    translateProgram (P ++ cOpen :: (List.replicate k cRight ++
        cPlus :: (List.replicate k cLeft ++ cMinus :: [cClose]))) =
      .ok (opsP ++ [⟨.JUMP_IF_DATA_ZERO, (opsP.length : Int) + 5⟩, ⟨.INC_PTR, (k : Int)⟩,
        ⟨.INC_DATA, 1⟩, ⟨.DEC_PTR, (k : Int)⟩, ⟨.DEC_DATA, 1⟩,
        ⟨.JUMP_IF_DATA_NOT_ZERO, (opsP.length : Int)⟩]) ∧
    translateProgram (P ++ cOpen :: (List.replicate k cLeft ++
        cPlus :: (List.replicate k cRight ++ cMinus :: [cClose]))) =
      .ok (opsP ++ [⟨.JUMP_IF_DATA_ZERO, (opsP.length : Int) + 5⟩, ⟨.DEC_PTR, (k : Int)⟩,
        ⟨.INC_DATA, 1⟩, ⟨.INC_PTR, (k : Int)⟩, ⟨.DEC_DATA, 1⟩,
        ⟨.JUMP_IF_DATA_NOT_ZERO, (opsP.length : Int)⟩]) := by
  obtain ⟨stack, hst⟩ := (translateProgram_eq_ok P opsP).mp hP
  constructor
  · rw [translateProgram_eq_ok]
    refine ⟨stack, ?_⟩
    rw [translateLoop_append_open _ P 0 [] [] _ hst, translateLoop_open,
      translateLoop_four_op_body' cRight cPlus cLeft cMinus k hk (by decide) (by decide)
        (by decide) (by decide) (by decide) (by decide) (by decide),
      translateLoop_close_cons]
    have hopt : optimizedLoop (opsP ++ [⟨.JUMP_IF_DATA_ZERO, 0⟩] ++
        [⟨kindOfChar cRight, (k : Nat)⟩] ++ [⟨kindOfChar cPlus, 1⟩] ++
        [⟨kindOfChar cLeft, (k : Nat)⟩] ++ [⟨kindOfChar cMinus, 1⟩]) opsP.length = [] := by
      simp only [List.append_assoc]
      unfold optimizedLoop
      simp only [getElem?_append_length_add]
      simp [kindOfChar]
    rw [hopt]
    simp only [List.length_nil, if_true, List.append_assoc, List.singleton_append,
      List.cons_append, List.nil_append]
    rw [setArgument_append_cons, translateLoop_nil]
    simp [kindOfChar]
  · rw [translateProgram_eq_ok]
    refine ⟨stack, ?_⟩
    rw [translateLoop_append_open _ P 0 [] [] _ hst, translateLoop_open,
      translateLoop_four_op_body' cLeft cPlus cRight cMinus k hk (by decide) (by decide)
        (by decide) (by decide) (by decide) (by decide) (by decide),
      translateLoop_close_cons]
    have hopt : optimizedLoop (opsP ++ [⟨.JUMP_IF_DATA_ZERO, 0⟩] ++
        [⟨kindOfChar cLeft, (k : Nat)⟩] ++ [⟨kindOfChar cPlus, 1⟩] ++
        [⟨kindOfChar cRight, (k : Nat)⟩] ++ [⟨kindOfChar cMinus, 1⟩]) opsP.length = [] := by
      simp only [List.append_assoc]
      unfold optimizedLoop
      simp only [getElem?_append_length_add]
      simp [kindOfChar]
    rw [hopt]
    simp only [List.length_nil, if_true, List.append_assoc, List.singleton_append,
      List.cons_append, List.nil_append]
    rw [setArgument_append_cons, translateLoop_nil]
    simp [kindOfChar]

theorem move_loop_other_order_kept_witness :
    1 ≤ 1 ∧ translateProgram [] = .ok [] ∧
    translateProgram ([] ++ cOpen :: (List.replicate 1 cRight ++
        cPlus :: (List.replicate 1 cLeft ++ cMinus :: [cClose]))) =
      .ok ([] ++ [⟨.JUMP_IF_DATA_ZERO, ((([] : List Op).length : Nat) : Int) + 5⟩,
        ⟨.INC_PTR, ((1 : Nat) : Int)⟩,
        ⟨.INC_DATA, 1⟩, ⟨.DEC_PTR, ((1 : Nat) : Int)⟩, ⟨.DEC_DATA, 1⟩,
        ⟨.JUMP_IF_DATA_NOT_ZERO, ((([] : List Op).length : Nat) : Int)⟩]) ∧
    translateProgram ([] ++ cOpen :: (List.replicate 1 cLeft ++
        cPlus :: (List.replicate 1 cRight ++ cMinus :: [cClose]))) =
      .ok ([] ++ [⟨.JUMP_IF_DATA_ZERO, ((([] : List Op).length : Nat) : Int) + 5⟩,
        ⟨.DEC_PTR, ((1 : Nat) : Int)⟩,
        ⟨.INC_DATA, 1⟩, ⟨.INC_PTR, ((1 : Nat) : Int)⟩, ⟨.DEC_DATA, 1⟩,
        ⟨.JUMP_IF_DATA_NOT_ZERO, ((([] : List Op).length : Nat) : Int)⟩]) :=
  have h : translateProgram [] = .ok [] := by
    simp [translateProgram, translateLoop]
  ⟨by decide, h, move_loop_other_order_kept 1 (by decide) [] [] h⟩

/-- C12 as stated fails on `[>+<-]`: `translateProgram` returns the jump pair
around the four ops, not the single op `LOOP_MOVE_DATA 1`. -/
theorem move_loop_other_order_not_replaced :
    translateProgram [cOpen, cRight, cPlus, cLeft, cMinus, cClose] =
      .ok [⟨.JUMP_IF_DATA_ZERO, 5⟩, ⟨.INC_PTR, 1⟩, ⟨.INC_DATA, 1⟩, ⟨.DEC_PTR, 1⟩,
        ⟨.DEC_DATA, 1⟩, ⟨.JUMP_IF_DATA_NOT_ZERO, 0⟩] ∧
    translateProgram [cOpen, cRight, cPlus, cLeft, cMinus, cClose] ≠
      .ok [⟨.LOOP_MOVE_DATA, 1⟩] := by
  have h : translateProgram [cOpen, cRight, cPlus, cLeft, cMinus, cClose] =
      .ok [⟨.JUMP_IF_DATA_ZERO, 5⟩, ⟨.INC_PTR, 1⟩, ⟨.INC_DATA, 1⟩, ⟨.DEC_PTR, 1⟩,
        ⟨.DEC_DATA, 1⟩, ⟨.JUMP_IF_DATA_NOT_ZERO, 0⟩] := by
    simp [translateProgram, translateLoop, optimizedLoop, kindOfChar, setArgument]
  refine ⟨h, ?_⟩
  rw [h]
  simp

/-! ## What the optimizer recognizes -/

theorem getElem?_of_drop {ops L : List Op} {n : Nat} (h : ops.drop n = L) (i : Nat) :
    ops[n + i]? = L[i]? := by
  rw [← h, List.getElem?_drop]

theorem length_of_drop {ops L : List Op} {n : Nat} (h : ops.drop n = L) :
    L.length = ops.length - n := by
  rw [← h, List.length_drop]

/-- The function `optimizedLoop` as a function of the loop body, the ops after
the pending jump at `start`. -/
theorem optimizedLoop_eq_of_body (ops : List Op) (start : Nat) :
    optimizedLoop ops start =
      match ops.drop (start + 1) with
      | [r] =>
        if r.opKind = .INC_DATA ∨ r.opKind = .DEC_DATA then [⟨.LOOP_SET_TO_ZERO, 0⟩]
        else if r.opKind = .INC_PTR then [⟨.LOOP_MOVE_PTR, r.argument⟩]
        else if r.opKind = .DEC_PTR then [⟨.LOOP_MOVE_PTR, -r.argument⟩]
        else []
      | [o1, o2, o3, o4] =>
        if o1.opKind = .DEC_DATA ∧ o3.opKind = .INC_DATA ∧ o1.argument = 1 ∧ o3.argument = 1 then
          if o2.opKind = .INC_PTR ∧ o4.opKind = .DEC_PTR ∧ o2.argument = o4.argument then
            [⟨.LOOP_MOVE_DATA, o2.argument⟩]
          else if o2.opKind = .DEC_PTR ∧ o4.opKind = .INC_PTR ∧ o2.argument = o4.argument then
            [⟨.LOOP_MOVE_DATA, -o2.argument⟩]
          else []
        else []
      | _ => [] := by
  generalize hL : ops.drop (start + 1) = L
  have hlen := length_of_drop hL
  have h0 := getElem?_of_drop hL 0
  have h1 := getElem?_of_drop hL 1
  have h2 := getElem?_of_drop hL 2
  have h3 := getElem?_of_drop hL 3
  simp only [Nat.add_zero, Nat.add_assoc, Nat.reduceAdd] at h0 h1 h2 h3
  unfold optimizedLoop
  match L, hlen, h0, h1, h2, h3 with
  | [], hlen, _, _, _, _ =>
    simp only [List.length_nil] at hlen
    have e2 : ¬ ops.length - start = 2 := by omega
    have e5 : ¬ ops.length - start = 5 := by omega
    simp [e2, e5]
  | [r], hlen, h0, _, _, _ =>
    simp only [List.length_singleton] at hlen
    have e2 : ops.length - start = 2 := by omega
    simp only [e2, if_true, h0, List.getElem?_cons_zero]
    by_cases ha : r.opKind = .INC_DATA ∨ r.opKind = .DEC_DATA
    · simp [ha]
    · by_cases hb : r.opKind = .INC_PTR
      · simp [ha, hb]
      · by_cases hc : r.opKind = .DEC_PTR
        · simp [ha, hb, hc]
        · simp [ha, hb, hc]
  | [_, _], hlen, _, _, _, _ =>
    simp only [List.length_cons, List.length_nil] at hlen
    have e2 : ¬ ops.length - start = 2 := by omega
    have e5 : ¬ ops.length - start = 5 := by omega
    simp [e2, e5]
  | [_, _, _], hlen, _, _, _, _ =>
    simp only [List.length_cons, List.length_nil] at hlen
    have e2 : ¬ ops.length - start = 2 := by omega
    have e5 : ¬ ops.length - start = 5 := by omega
    simp [e2, e5]
  | [o1, o2, o3, o4], hlen, h0, h1, h2, h3 =>
    simp only [List.length_cons, List.length_nil] at hlen
    have e2 : ¬ ops.length - start = 2 := by omega
    have e5 : ops.length - start = 5 := by omega
    simp only [e2, e5, if_true, if_false, h0, h1, h2, h3, List.getElem?_cons_zero,
      List.getElem?_cons_succ]
    simp
  | _ :: _ :: _ :: _ :: _ :: _, hlen, _, _, _, _ =>
    simp only [List.length_cons] at hlen
    have e2 : ¬ ops.length - start = 2 := by omega
    have e5 : ¬ ops.length - start = 5 := by omega
    simp [e2, e5]

/-- C13: `optimizedLoop` returns a replacement exactly when the loop body (the
ops after the pending jump at `start`) is one `INC_DATA`/`DEC_DATA` op, one
`INC_PTR`/`DEC_PTR` op, or `DEC_DATA 1`, a pointer move by `k`, `INC_DATA 1`,
the opposite pointer move by the same `k`. In every other case it returns
nothing and `translateProgram` closes the loop with a resolved jump pair; so
a body that holds a `LOOP_SET_TO_ZERO`, `LOOP_MOVE_PTR`, `LOOP_MOVE_DATA` or
jump op is never replaced. The loops `[->+<<]`, `[-->+<]`, `[->++<]`,
`[->+>]`, `[.]`, `[]` and the outer loop of `[[-]]` keep their jump pairs. -/
theorem optimizer_fires_on_nothing_else :
    (∀ (ops : List Op) (start : Nat),
      optimizedLoop ops start ≠ [] ↔
        ((∃ o, ops.drop (start + 1) = [o] ∧
            (o.opKind = .INC_DATA ∨ o.opKind = .DEC_DATA ∨
              o.opKind = .INC_PTR ∨ o.opKind = .DEC_PTR)) ∨
          (∃ k : Int,
            ops.drop (start + 1) =
                [⟨.DEC_DATA, 1⟩, ⟨.INC_PTR, k⟩, ⟨.INC_DATA, 1⟩, ⟨.DEC_PTR, k⟩] ∨
            ops.drop (start + 1) =
                [⟨.DEC_DATA, 1⟩, ⟨.DEC_PTR, k⟩, ⟨.INC_DATA, 1⟩, ⟨.INC_PTR, k⟩]))) ∧
    (∀ (ops : List Op) (start : Nat), optimizedLoop ops start = [] →
      ∀ (cs : List Nat) (pc : Nat) (stack : List Nat),
        translateLoop (cClose :: cs) pc ops (start :: stack) =
          translateLoop cs (pc + 1)
            (setArgument ops start ops.length ++ [⟨.JUMP_IF_DATA_NOT_ZERO, start⟩]) stack) ∧
    (∀ (ops : List Op) (start : Nat) (o : Op), o ∈ ops.drop (start + 1) →
      (o.opKind = .LOOP_SET_TO_ZERO ∨ o.opKind = .LOOP_MOVE_PTR ∨ o.opKind = .LOOP_MOVE_DATA ∨
        o.opKind = .JUMP_IF_DATA_ZERO ∨ o.opKind = .JUMP_IF_DATA_NOT_ZERO) →
      optimizedLoop ops start = []) ∧
    translateProgram [cOpen, cMinus, cRight, cPlus, cLeft, cLeft, cClose] =
      .ok [⟨.JUMP_IF_DATA_ZERO, 5⟩, ⟨.DEC_DATA, 1⟩, ⟨.INC_PTR, 1⟩, ⟨.INC_DATA, 1⟩,
        ⟨.DEC_PTR, 2⟩, ⟨.JUMP_IF_DATA_NOT_ZERO, 0⟩] ∧
    translateProgram [cOpen, cMinus, cMinus, cRight, cPlus, cLeft, cClose] =
      .ok [⟨.JUMP_IF_DATA_ZERO, 5⟩, ⟨.DEC_DATA, 2⟩, ⟨.INC_PTR, 1⟩, ⟨.INC_DATA, 1⟩,
        ⟨.DEC_PTR, 1⟩, ⟨.JUMP_IF_DATA_NOT_ZERO, 0⟩] ∧
    translateProgram [cOpen, cMinus, cRight, cPlus, cPlus, cLeft, cClose] =
      .ok [⟨.JUMP_IF_DATA_ZERO, 5⟩, ⟨.DEC_DATA, 1⟩, ⟨.INC_PTR, 1⟩, ⟨.INC_DATA, 2⟩,
        ⟨.DEC_PTR, 1⟩, ⟨.JUMP_IF_DATA_NOT_ZERO, 0⟩] ∧
    translateProgram [cOpen, cMinus, cRight, cPlus, cRight, cClose] =
      .ok [⟨.JUMP_IF_DATA_ZERO, 5⟩, ⟨.DEC_DATA, 1⟩, ⟨.INC_PTR, 1⟩, ⟨.INC_DATA, 1⟩,
        ⟨.INC_PTR, 1⟩, ⟨.JUMP_IF_DATA_NOT_ZERO, 0⟩] ∧
    translateProgram [cOpen, cDot, cClose] =
      .ok [⟨.JUMP_IF_DATA_ZERO, 2⟩, ⟨.WRITE_STDOUT, 1⟩, ⟨.JUMP_IF_DATA_NOT_ZERO, 0⟩] ∧
    translateProgram [cOpen, cClose] =
      .ok [⟨.JUMP_IF_DATA_ZERO, 1⟩, ⟨.JUMP_IF_DATA_NOT_ZERO, 0⟩] ∧
    translateProgram [cOpen, cOpen, cMinus, cClose, cClose] =
      .ok [⟨.JUMP_IF_DATA_ZERO, 2⟩, ⟨.LOOP_SET_TO_ZERO, 0⟩, ⟨.JUMP_IF_DATA_NOT_ZERO, 0⟩] := by
  have hiff : ∀ (ops : List Op) (start : Nat),
      optimizedLoop ops start ≠ [] ↔
        ((∃ o, ops.drop (start + 1) = [o] ∧
            (o.opKind = .INC_DATA ∨ o.opKind = .DEC_DATA ∨
              o.opKind = .INC_PTR ∨ o.opKind = .DEC_PTR)) ∨
          (∃ k : Int,
            ops.drop (start + 1) =
                [⟨.DEC_DATA, 1⟩, ⟨.INC_PTR, k⟩, ⟨.INC_DATA, 1⟩, ⟨.DEC_PTR, k⟩] ∨
            ops.drop (start + 1) =
                [⟨.DEC_DATA, 1⟩, ⟨.DEC_PTR, k⟩, ⟨.INC_DATA, 1⟩, ⟨.INC_PTR, k⟩])) := by
    intro ops start
    rw [optimizedLoop_eq_of_body]
    generalize ops.drop (start + 1) = L
    match L with
    | [] => simp
    | [r] =>
      obtain ⟨kind, arg⟩ := r
      cases kind <;> simp
    | [_, _] => simp
    | [_, _, _] => simp
    | [o1, o2, o3, o4] =>
      obtain ⟨k1, a1⟩ := o1
      obtain ⟨k2, a2⟩ := o2
      obtain ⟨k3, a3⟩ := o3
      obtain ⟨k4, a4⟩ := o4
      simp only [List.cons.injEq, Op.mk.injEq, and_true, List.cons_ne_nil, and_false,
        exists_false, false_or, reduceCtorEq, false_and]
      constructor
      · intro h
        split at h
        · rename_i hc
          obtain ⟨rfl, rfl, rfl, rfl⟩ := hc
          split at h
          · rename_i hd
            obtain ⟨rfl, rfl, rfl⟩ := hd
            exact ⟨a2, Or.inl ⟨⟨rfl, rfl⟩, ⟨rfl, rfl⟩, ⟨rfl, rfl⟩, rfl, rfl⟩⟩
          · split at h
            · rename_i hd
              obtain ⟨rfl, rfl, rfl⟩ := hd
              exact ⟨a2, Or.inr ⟨⟨rfl, rfl⟩, ⟨rfl, rfl⟩, ⟨rfl, rfl⟩, rfl, rfl⟩⟩
            · exact absurd rfl h
        · exact absurd rfl h
      · rintro ⟨k, h | h⟩
        · obtain ⟨⟨rfl, rfl⟩, ⟨rfl, rfl⟩, ⟨rfl, rfl⟩, rfl, rfl⟩ := h
          simp
        · obtain ⟨⟨rfl, rfl⟩, ⟨rfl, rfl⟩, ⟨rfl, rfl⟩, rfl, rfl⟩ := h
          simp
    | _ :: _ :: _ :: _ :: _ :: _ => simp
  refine ⟨hiff, ?_, ?_, ?_, ?_, ?_, ?_, ?_, ?_, ?_⟩
  · intro ops start h cs pc stack
    rw [translateLoop_close_cons, h]
    simp
  · intro ops start o ho hk
    by_contra hne
    rcases (hiff ops start).mp hne with ⟨r, hr, hkind⟩ | ⟨k, hr | hr⟩
    · rw [hr] at ho
      simp at ho
      subst ho
      rcases hk with h | h | h | h | h <;> rcases hkind with h' | h' | h' | h' <;>
        simp [h] at h'
    · rw [hr] at ho
      simp at ho
      rcases ho with rfl | rfl | rfl | rfl <;> simp at hk
    · rw [hr] at ho
      simp at ho
      rcases ho with rfl | rfl | rfl | rfl <;> simp at hk
  all_goals simp [translateProgram, translateLoop, optimizedLoop, kindOfChar, setArgument]

/-! ## The back-patched jump target -/

/-- C19, as amended: when `translateProgram` closes a loop that the optimizer
does not replace, the pending `JUMP_IF_DATA_ZERO` at `start` gets as argument
the index of the `JUMP_IF_DATA_NOT_ZERO` that is appended (the length of the
instructions before the append), the appended op has argument `start`, and
the other ops are unchanged. At run time a taken `JUMP_IF_DATA_ZERO` goes on
at that index plus one, just past the closing jump, and a taken
`JUMP_IF_DATA_NOT_ZERO` goes on at `start` plus one. -/
theorem backpatch_target (ops : List Op) (start : Nat) (a : Int) (cs : List Nat) (pc : Nat)
    (stack : List Nat) (hnone : optimizedLoop ops start = [])
    (hjz : ops[start]? = some ⟨.JUMP_IF_DATA_ZERO, a⟩) :
    ∃ ops',
      translateLoop (cClose :: cs) pc ops (start :: stack) =
        translateLoop cs (pc + 1) ops' stack ∧
      ops'.length = ops.length + 1 ∧
      ops'[ops.length]? = some ⟨.JUMP_IF_DATA_NOT_ZERO, (start : Int)⟩ ∧
      ops'[start]? = some ⟨.JUMP_IF_DATA_ZERO, (ops.length : Int)⟩ ∧
      (∀ i, i ≠ start → i < ops.length → ops'[i]? = ops[i]?) ∧
      (∀ s : VM, inBounds s.dataPtr → s.memory s.dataPtr = 0 →
        execOp ⟨.JUMP_IF_DATA_ZERO, (ops.length : Int)⟩ s =
          .next { s with pc := (ops.length : Int) + 1 }) ∧
      (∀ s : VM, inBounds s.dataPtr → s.memory s.dataPtr ≠ 0 →
        execOp ⟨.JUMP_IF_DATA_NOT_ZERO, (start : Int)⟩ s =
          .next { s with pc := (start : Int) + 1 }) := by
  have hstart : start < ops.length := lt_length_of_getElem? hjz
  have hset : setArgument ops start ops.length =
      ops.set start ⟨.JUMP_IF_DATA_ZERO, (ops.length : Int)⟩ := by
    simp [setArgument, hjz]
  refine ⟨setArgument ops start ops.length ++ [⟨.JUMP_IF_DATA_NOT_ZERO, start⟩],
    ?_, ?_, ?_, ?_, ?_, ?_, ?_⟩
  · rw [translateLoop_close_cons, hnone]
    simp
  · rw [hset]
    simp
  · rw [hset, getElem?_snoc]
    exact Or.inr ⟨by simp, rfl⟩
  · rw [hset, getElem?_snoc]
    left
    rw [List.getElem?_set]
    simp [hstart]
  · intro i hne hlt
    rw [hset, List.getElem?_append_left (by simpa using hlt), List.getElem?_set]
    simp [Ne.symm hne]
  · intro s hb hz
    simp [execOp, hb, hz]
  · intro s hb hz
    simp [execOp, hb, hz]

theorem backpatch_target_witness :
    optimizedLoop [⟨.JUMP_IF_DATA_ZERO, 0⟩, ⟨.WRITE_STDOUT, 1⟩] 0 = [] ∧
    ∃ ops',
      translateLoop (cClose :: []) 2 [⟨.JUMP_IF_DATA_ZERO, 0⟩, ⟨.WRITE_STDOUT, 1⟩] (0 :: []) =
        translateLoop [] (2 + 1) ops' [] ∧
      ops'.length = ([⟨.JUMP_IF_DATA_ZERO, 0⟩, ⟨.WRITE_STDOUT, 1⟩] : List Op).length + 1 ∧
      ops'[([⟨.JUMP_IF_DATA_ZERO, 0⟩, ⟨.WRITE_STDOUT, 1⟩] : List Op).length]? =
        some ⟨.JUMP_IF_DATA_NOT_ZERO, ((0 : Nat) : Int)⟩ ∧
      ops'[0]? = some ⟨.JUMP_IF_DATA_ZERO,
        ((([⟨.JUMP_IF_DATA_ZERO, 0⟩, ⟨.WRITE_STDOUT, 1⟩] : List Op).length : Nat) : Int)⟩ ∧
      (∀ i, i ≠ 0 → i < ([⟨.JUMP_IF_DATA_ZERO, 0⟩, ⟨.WRITE_STDOUT, 1⟩] : List Op).length →
        ops'[i]? = ([⟨.JUMP_IF_DATA_ZERO, 0⟩, ⟨.WRITE_STDOUT, 1⟩] : List Op)[i]?) ∧
      (∀ s : VM, inBounds s.dataPtr → s.memory s.dataPtr = 0 →
        execOp ⟨.JUMP_IF_DATA_ZERO,
            ((([⟨.JUMP_IF_DATA_ZERO, 0⟩, ⟨.WRITE_STDOUT, 1⟩] : List Op).length : Nat) : Int)⟩ s =
          .next { s with pc :=
            ((([⟨.JUMP_IF_DATA_ZERO, 0⟩, ⟨.WRITE_STDOUT, 1⟩] : List Op).length : Nat) : Int)
              + 1 }) ∧
      (∀ s : VM, inBounds s.dataPtr → s.memory s.dataPtr ≠ 0 →
        execOp ⟨.JUMP_IF_DATA_NOT_ZERO, ((0 : Nat) : Int)⟩ s =
          .next { s with pc := ((0 : Nat) : Int) + 1 }) :=
  have h : optimizedLoop [⟨.JUMP_IF_DATA_ZERO, 0⟩, ⟨.WRITE_STDOUT, 1⟩] 0 = [] := by
    simp [optimizedLoop]
  ⟨h, backpatch_target [⟨.JUMP_IF_DATA_ZERO, 0⟩, ⟨.WRITE_STDOUT, 1⟩] 0 0 [] 2 [] h rfl⟩

/-- C19 as stated fails on `[.]`: the closing jump is appended at index 2 and
the opening jump gets the argument 2, the index of the closing jump, not
that index plus one. -/
theorem backpatch_target_is_closing_index :
    ∃ ops, translateProgram [cOpen, cDot, cClose] = .ok ops ∧
      ops[2]? = some ⟨.JUMP_IF_DATA_NOT_ZERO, 0⟩ ∧
      ops[0]? = some ⟨.JUMP_IF_DATA_ZERO, 2⟩ ∧
      ops[0]? ≠ some ⟨.JUMP_IF_DATA_ZERO, 2 + 1⟩ := by
  refine ⟨[⟨.JUMP_IF_DATA_ZERO, 2⟩, ⟨.WRITE_STDOUT, 1⟩, ⟨.JUMP_IF_DATA_NOT_ZERO, 0⟩], ?_,
    rfl, rfl, by decide⟩
  simp [translateProgram, translateLoop, optimizedLoop, kindOfChar, setArgument]

/-! ## The parser is a filter -/

theorem parseLoop_bytes (bytes : List Nat) (acc : List Nat) :
    parseLoop (bytesReader bytes) acc =
      .ok (acc ++ bytes.filter (fun b => decide (isInstruction b))) := by
  induction bytes generalizing acc with
  | nil => simp [bytesReader, parseLoop]
  | cons b bs ih =>
    simp only [bytesReader, List.map_cons, parseLoop]
    by_cases hb : isInstruction b
    · have := ih (acc ++ [b])
      simp only [bytesReader] at this
      simp [hb, this, List.filter_cons]
    · have := ih acc
      simp only [bytesReader] at this
      simp [hb, this, List.filter_cons]

theorem runOptInterpreter_nil (fuel : Nat) (input : List Nat) :
    runOptInterpreter (fuel + 1) [] input = some (.ok, VM.init input) := by
  simp [runOptInterpreter, translateProgram, translateLoop, runOps, VM.init]

/-- C14: for every byte stream whose reads do not fail, `parseFromReader`
returns without error the bytes of the stream that are among the eight
symbols `> < + - . , [ ]`, in their order, and drops every other byte. A
stream with no instruction byte gives the empty program, which translates to
the empty bytecode and runs to a normal end in the initial state (nothing
printed, nothing read); and parsing a parsed program gives it back. -/
theorem parser_is_filter :
    (∀ bytes : List Nat,
      parseFromReader (bytesReader bytes) =
        .ok (bytes.filter (fun b => decide (isInstruction b)))) ∧
    (∀ bytes : List Nat, (∀ b ∈ bytes, ¬ isInstruction b) →
      parseFromReader (bytesReader bytes) = .ok []) ∧
    translateProgram [] = .ok [] ∧
    (∀ (fuel : Nat) (input : List Nat), ∃ s,
      runOptInterpreter (fuel + 1) [] input = some (.ok, s) ∧
      s.output = [] ∧ s.input = input) ∧
    (∀ (bytes p : List Nat), parseFromReader (bytesReader bytes) = .ok p →
      parseFromReader (bytesReader p) = .ok p) := by
  have hfilter : ∀ bytes : List Nat,
      parseFromReader (bytesReader bytes) =
        .ok (bytes.filter (fun b => decide (isInstruction b))) := by
    intro bytes
    simpa [parseFromReader] using parseLoop_bytes bytes []
  refine ⟨hfilter, ?_, ?_, ?_, ?_⟩
  · intro bytes h
    rw [hfilter]
    congr 1
    rw [List.filter_eq_nil_iff]
    intro b hb
    simpa using h b hb
  · simp [translateProgram, translateLoop]
  · intro fuel input
    exact ⟨VM.init input, runOptInterpreter_nil fuel input, rfl, rfl⟩
  · intro bytes p h
    rw [hfilter] at h
    have hp : p = bytes.filter (fun b => decide (isInstruction b)) :=
      (Except.ok.inj h).symm
    rw [hfilter, hp, List.filter_filter]
    simp

/-! ## No `INVALID_OP` in translated programs -/

theorem parseLoop_instructions (reader : List ReadResult) (acc p : List Nat)
    (hacc : ∀ b ∈ acc, isInstruction b) (h : parseLoop reader acc = .ok p) :
    ∀ b ∈ p, isInstruction b := by
  induction reader generalizing acc with
  | nil =>
    simp [parseLoop] at h
    subst h
    exact hacc
  | cons r rs ih =>
    cases r with
    | failure => simp [parseLoop] at h
    | byte b =>
      simp only [parseLoop] at h
      split at h
      · rename_i hb
        refine ih (acc ++ [b]) ?_ h
        intro x hx
        rcases List.mem_append.mp hx with hx | hx
        · exact hacc x hx
        · simp at hx
          subst hx
          exact hb
      · exact ih acc hacc h

theorem kindOfChar_valid (c : Nat) (hc : isInstruction c) (hno : c ≠ cOpen)
    (hnc : c ≠ cClose) : kindOfChar c ≠ .INVALID_OP := by
  rcases hc with h | h | h | h | h | h | h | h <;> subst h <;> first | decide | contradiction

theorem mem_setArgument_kind (ops : List Op) (i : Nat) (a : Int) (o : Op)
    (h : o ∈ setArgument ops i a) : ∃ o' ∈ ops, o.opKind = o'.opKind := by
  unfold setArgument at h
  cases hi : ops[i]? with
  | none =>
    rw [hi] at h
    exact ⟨o, h, rfl⟩
  | some x =>
    rw [hi] at h
    simp only at h
    obtain ⟨j, hj⟩ := List.mem_iff_getElem?.mp h
    rw [List.getElem?_set] at hj
    split at hj
    · split at hj
      · have e := Option.some.inj hj
        refine ⟨x, List.mem_iff_getElem?.mpr ⟨i, hi⟩, ?_⟩
        rw [← e]
      · simp at hj
    · exact ⟨o, List.mem_iff_getElem?.mpr ⟨j, hj⟩, rfl⟩

/-- The translator loop emits no `INVALID_OP` on a text of instruction
symbols. -/
theorem translateLoop_valid (rest : List Nat) (pc : Nat) (ops : List Op) (stack : List Nat) :
    (∀ c ∈ rest, isInstruction c) → (∀ o ∈ ops, o.opKind ≠ .INVALID_OP) →
    ∀ r, translateLoop rest pc ops stack = .ok r → ∀ o ∈ r.1, o.opKind ≠ .INVALID_OP := by
  induction rest, pc, ops, stack using translateLoop.induct with
  | case1 pc ops stack =>
    intro _ hops r hr
    simp [translateLoop_nil] at hr
    subst hr
    exact hops
  | case2 pc ops stack cs ih =>
    intro hrest hops r hr
    rw [translateLoop_open] at hr
    refine ih (fun c hc => hrest c (List.mem_cons_of_mem _ hc)) ?_ r hr
    intro o ho
    rcases List.mem_append.mp ho with ho | ho
    · exact hops o ho
    · simp at ho
      subst ho
      decide
  | case3 pc ops cs hne =>
    intro _ _ r hr
    simp [translateLoop_close_nil] at hr
  | case4 pc ops cs start stack' optimizedOps hlen hne ih =>
    intro hrest hops r hr
    have hlen' : (optimizedLoop ops start).length = 0 := hlen
    rw [translateLoop_close_cons, if_pos hlen'] at hr
    refine ih (fun c hc => hrest c (List.mem_cons_of_mem _ hc)) ?_ r hr
    intro o ho
    rcases List.mem_append.mp ho with ho | ho
    · obtain ⟨o', ho', e⟩ := mem_setArgument_kind ops start _ o ho
      rw [e]
      exact hops o' ho'
    · simp at ho
      subst ho
      simp
  | case5 pc ops cs start stack' optimizedOps hlen hne ih =>
    intro hrest hops r hr
    have hlen' : ¬ (optimizedLoop ops start).length = 0 := hlen
    rw [translateLoop_close_cons, if_neg hlen'] at hr
    refine ih (fun c hc => hrest c (List.mem_cons_of_mem _ hc)) ?_ r hr
    intro o ho
    rcases List.mem_append.mp ho with ho | ho
    · exact hops o (List.mem_of_mem_take ho)
    · rcases optimizedLoop_cases ops start with e | ⟨x, e, hk⟩
      · simp [e] at hlen'
      · simp only [optimizedOps, e, List.mem_singleton] at ho
        subst ho
        rcases hk with hk | hk | hk <;> simp [hk]
  | case6 pc ops stack c cs hno hnc repeatNum ih =>
    intro hrest hops r hr
    rw [translateLoop_run c cs pc ops stack hno hnc] at hr
    refine ih ?_ ?_ r hr
    · intro x hx
      exact hrest x (List.mem_cons_of_mem _ ((List.dropWhile_sublist _).subset hx))
    · intro o ho
      rcases List.mem_append.mp ho with ho | ho
      · exact hops o ho
      · simp at ho
        subst ho
        exact kindOfChar_valid c (hrest c (List.mem_cons_self _ _)) hno hnc

/-- The only error of the translator loop is the unmatched `]`. -/
theorem translateLoop_error (rest : List Nat) (pc : Nat) (ops : List Op) (stack : List Nat) :
    ∀ e, translateLoop rest pc ops stack = .error e → ∃ i, e = .unmatchedClosing i := by
  induction rest, pc, ops, stack using translateLoop.induct with
  | case1 pc ops stack =>
    intro e h
    simp [translateLoop_nil] at h
  | case2 pc ops stack cs ih =>
    intro e h
    rw [translateLoop_open] at h
    exact ih e h
  | case3 pc ops cs hne =>
    intro e h
    rw [translateLoop_close_nil] at h
    exact ⟨pc, (Except.error.inj h).symm⟩
  | case4 pc ops cs start stack' optimizedOps hlen hne ih =>
    intro e h
    have hlen' : (optimizedLoop ops start).length = 0 := hlen
    rw [translateLoop_close_cons, if_pos hlen'] at h
    exact ih e h
  | case5 pc ops cs start stack' optimizedOps hlen hne ih =>
    intro e h
    have hlen' : ¬ (optimizedLoop ops start).length = 0 := hlen
    rw [translateLoop_close_cons, if_neg hlen'] at h
    exact ih e h
  | case6 pc ops stack c cs hno hnc repeatNum ih =>
    intro e h
    rw [translateLoop_run c cs pc ops stack hno hnc] at h
    exact ih e h

theorem writeLoop_halt (n : Nat) (s s' : VM) (out : Outcome)
    (h : writeLoop n s = .halt out s') : out = .panic := by
  induction n generalizing s with
  | zero => simp [writeLoop] at h
  | succ k ih =>
    simp only [writeLoop] at h
    split at h
    · exact ih _ h
    · simp at h
      exact h.1.symm

theorem readLoop_halt (n : Nat) (s s' : VM) (out : Outcome)
    (h : readLoop n s = .halt out s') : out = .panic ∨ out = .error .readEOF := by
  induction n generalizing s with
  | zero => simp [readLoop] at h
  | succ k ih =>
    simp only [readLoop] at h
    split at h
    · simp at h
      exact Or.inr h.1.symm
    · split at h
      · exact ih _ h
      · simp at h
        exact Or.inl h.1.symm

/-- Only an `INVALID_OP` makes the dispatch return the `INVALID_OP` error. -/
theorem execOp_halt_invalid (o : Op) (s s' : VM) (pc : Int)
    (h : execOp o s = .halt (.error (.invalidOp pc)) s') : o.opKind = .INVALID_OP := by
  obtain ⟨kind, arg⟩ := o
  cases kind <;> simp only [execOp] at h
  case INVALID_OP => rfl
  case INC_PTR => simp at h
  case DEC_PTR => simp at h
  case INC_DATA => split at h <;> simp at h
  case DEC_DATA => split at h <;> simp at h
  case READ_STDIN =>
    split at h
    · simp at h
    · rename_i out s'' hr
      simp only [Step.halt.injEq] at h
      have := readLoop_halt _ _ _ _ hr
      rw [h.1] at this
      simp at this
  case WRITE_STDOUT =>
    split at h
    · simp at h
    · rename_i out s'' hr
      simp only [Step.halt.injEq] at h
      have := writeLoop_halt _ _ _ _ hr
      rw [h.1] at this
      simp at this
  case JUMP_IF_DATA_ZERO => split at h <;> [split at h <;> simp at h; simp at h]
  case JUMP_IF_DATA_NOT_ZERO => split at h <;> [split at h <;> simp at h; simp at h]
  case LOOP_SET_TO_ZERO => split at h <;> simp at h
  case LOOP_MOVE_PTR => split at h <;> [split at h <;> simp at h; simp at h]
  case LOOP_MOVE_DATA =>
    split at h
    · split at h
      · split at h <;> simp at h
      · simp at h
    · simp at h

theorem runOps_no_invalid (prog : List Op) (hprog : ∀ o ∈ prog, o.opKind ≠ .INVALID_OP)
    (fuel : Nat) (s s' : VM) (pc : Int) :
    runOps prog fuel s ≠ some (.error (.invalidOp pc), s') := by
  induction fuel generalizing s with
  | zero => simp [runOps]
  | succ k ih =>
    unfold runOps
    split
    · split
      · simp
      · cases ho : prog[s.pc.toNat]? with
        | none => simp
        | some o =>
          simp only
          cases hs : execOp o s with
          | next t => exact ih t
          | halt out t =>
            simp only
            intro h
            have e := Option.some.inj h
            have e1 : out = .error (.invalidOp pc) := congrArg Prod.fst e
            subst e1
            exact hprog o (List.mem_iff_getElem?.mpr ⟨_, ho⟩) (execOp_halt_invalid o s t pc hs)
    · simp

/-- C18: for every reader, the bytecode that `translateProgram` produces from
the program returned by `parseFromReader` holds no op of kind `INVALID_OP`,
and `runOptInterpreter` on that program never returns the
`INVALID_OP encountered` error: the default branch of its dispatch is never
taken. -/
theorem invalid_op_unreachable (reader : List ReadResult) (p : List Nat)
    (hparse : parseFromReader reader = .ok p) :
    (∀ ops, translateProgram p = .ok ops → ∀ o ∈ ops, o.opKind ≠ .INVALID_OP) ∧
    (∀ (fuel : Nat) (input : List Nat) (pc : Int) (s : VM),
      runOptInterpreter fuel p input ≠ some (.error (.invalidOp pc), s)) := by
  have hinstr : ∀ b ∈ p, isInstruction b :=
    parseLoop_instructions reader [] p (by simp) hparse
  have hvalid : ∀ ops, translateProgram p = .ok ops → ∀ o ∈ ops, o.opKind ≠ .INVALID_OP := by
    intro ops hops
    obtain ⟨stack, hst⟩ := (translateProgram_eq_ok p ops).mp hops
    exact translateLoop_valid p 0 [] [] hinstr (by simp) _ hst
  refine ⟨hvalid, ?_⟩
  intro fuel input pc s
  unfold runOptInterpreter
  cases ht : translateProgram p with
  | error e =>
    simp only
    intro h
    have e1 := congrArg Prod.fst (Option.some.inj h)
    simp only [Outcome.error.injEq] at e1
    subst e1
    unfold translateProgram at ht
    cases hl : translateLoop p 0 [] [] with
    | ok r => simp [hl] at ht
    | error e' =>
      simp only [hl, Except.error.injEq] at ht
      subst ht
      obtain ⟨i, hi⟩ := translateLoop_error p 0 [] [] _ hl
      simp at hi
  | ok ops =>
    simp only
    exact runOps_no_invalid ops (hvalid ops ht) fuel _ s pc

theorem invalid_op_unreachable_witness :
    parseFromReader (bytesReader [97, cPlus, cOpen, cMinus, cClose, 10, cDot]) =
      .ok [cPlus, cOpen, cMinus, cClose, cDot] ∧
    (∀ ops, translateProgram [cPlus, cOpen, cMinus, cClose, cDot] = .ok ops →
      ∀ o ∈ ops, o.opKind ≠ .INVALID_OP) ∧
    (∀ (fuel : Nat) (input : List Nat) (pc : Int) (s : VM),
      runOptInterpreter fuel [cPlus, cOpen, cMinus, cClose, cDot] input ≠
        some (.error (.invalidOp pc), s)) :=
  have h : parseFromReader (bytesReader [97, cPlus, cOpen, cMinus, cClose, 10, cDot]) =
      .ok [cPlus, cOpen, cMinus, cClose, cDot] := by
    simp [parseFromReader, bytesReader, parseLoop, isInstruction]
  ⟨h, invalid_op_unreachable _ _ h⟩

/-! ## Whole programs through the pipeline -/

/-- A run of `n ≥ 0` copies of a non-bracket symbol in front of another
symbol. -/
theorem translateLoop_run_any (c n : Nat) (hno : c ≠ cOpen) (hnc : c ≠ cClose) (q : Nat)
    (hq : q ≠ c) (rest : List Nat) (pc : Nat) (ops : List Op) (stack : List Nat) :
    translateLoop (List.replicate n c ++ q :: rest) pc ops stack =
      translateLoop (q :: rest) (pc + n) (ops ++ foldedRun c n) stack := by
  rcases Nat.eq_zero_or_pos n with rfl | hn
  · simp [foldedRun]
  · rw [translateLoop_replicate_next c n hn hno hnc q hq]
    simp [foldedRun, Nat.pos_iff_ne_zero.mp hn]

/-- One copy of a non-bracket symbol in front of another symbol. -/
theorem translateLoop_single (c : Nat) (hno : c ≠ cOpen) (hnc : c ≠ cClose) (q : Nat)
    (hq : q ≠ c) (rest : List Nat) (pc : Nat) (ops : List Op) (stack : List Nat) :
    translateLoop (c :: q :: rest) pc ops stack =
      translateLoop (q :: rest) (pc + 1) (ops ++ [⟨kindOfChar c, 1⟩]) stack := by
  have := translateLoop_replicate_next c 1 (le_refl 1) hno hnc q hq rest pc ops stack
  simpa using this

/-- One copy of a non-bracket symbol at the end of the text. -/
theorem translateLoop_last (c : Nat) (hno : c ≠ cOpen) (hnc : c ≠ cClose) (pc : Nat)
    (ops : List Op) (stack : List Nat) :
    translateLoop [c] pc ops stack = .ok (ops ++ [⟨kindOfChar c, 1⟩], stack) := by
  have := translateLoop_replicate_end c 1 (le_refl 1) hno hnc pc ops stack
  simpa using this

/-- The loop `[-]` in the middle of a text becomes `LOOP_SET_TO_ZERO`. -/
theorem translateLoop_clear_loop (rest : List Nat) (pc : Nat) (ops : List Op)
    (stack : List Nat) :
    translateLoop (cOpen :: cMinus :: cClose :: rest) pc ops stack =
      translateLoop rest (pc + 1 + 1 + 1) (ops ++ [⟨.LOOP_SET_TO_ZERO, 0⟩]) stack := by
  have e := translateLoop_replicate_close cMinus 1 (le_refl 1) (by decide) (by decide) rest
    (pc + 1) (ops ++ [⟨.JUMP_IF_DATA_ZERO, 0⟩]) (ops.length :: stack)
  simp only [List.replicate_one, List.singleton_append] at e
  rw [translateLoop_open, e, translateLoop_close_cons]
  have hopt : optimizedLoop (ops ++ [⟨.JUMP_IF_DATA_ZERO, 0⟩] ++
      [⟨kindOfChar cMinus, ((1 : Nat) : Int)⟩]) ops.length = [⟨.LOOP_SET_TO_ZERO, 0⟩] := by
    rw [List.append_assoc]
    unfold optimizedLoop
    rw [getElem?_append_length_add]
    simp [kindOfChar]
  rw [hopt]
  simp

/-- The loop `[->+<]` in the middle of a text becomes `LOOP_MOVE_DATA 1`. -/
theorem translateLoop_move_loop (rest : List Nat) (pc : Nat) (ops : List Op)
    (stack : List Nat) :
    translateLoop (cOpen :: cMinus :: cRight :: cPlus :: cLeft :: cClose :: rest) pc ops stack =
      translateLoop rest (pc + 1 + 1 + 1 + 1 + 1 + 1) (ops ++ [⟨.LOOP_MOVE_DATA, 1⟩]) stack := by
  have e := translateLoop_four_op_body cMinus cRight cPlus cLeft 1 (le_refl 1) (by decide)
    (by decide) (by decide) (by decide) (by decide) (by decide) (by decide) rest (pc + 1)
    (ops ++ [⟨.JUMP_IF_DATA_ZERO, 0⟩]) (ops.length :: stack)
  simp only [List.replicate_one, List.singleton_append] at e
  rw [translateLoop_open, e, translateLoop_close_cons]
  have hopt : optimizedLoop (ops ++ [⟨.JUMP_IF_DATA_ZERO, 0⟩] ++ [⟨kindOfChar cMinus, 1⟩] ++
      [⟨kindOfChar cRight, ((1 : Nat) : Int)⟩] ++ [⟨kindOfChar cPlus, 1⟩] ++
      [⟨kindOfChar cLeft, ((1 : Nat) : Int)⟩]) ops.length = [⟨.LOOP_MOVE_DATA, 1⟩] := by
    simp only [List.append_assoc]
    unfold optimizedLoop
    simp only [getElem?_append_length_add]
    simp [kindOfChar]
  rw [hopt]
  simp

/-- The bytecode of `+^n .`. -/
theorem translateProgram_plus_dot (n : Nat) :
    translateProgram (List.replicate n cPlus ++ [cDot]) =
      .ok (foldedRun cPlus n ++ [⟨.WRITE_STDOUT, 1⟩]) := by
  rw [translateProgram_eq_ok]
  refine ⟨[], ?_⟩
  rw [translateLoop_run_any cPlus n (by decide) (by decide) cDot (by decide),
    translateLoop_last cDot (by decide) (by decide)]
  simp [kindOfChar]

/-- The run of `+^n .`: a normal end after printing the character `n % 256`,
no input read. -/
theorem runOptInterpreter_plus_dot (n : Nat) (input : List Nat) :
    ∃ s, runOptInterpreter 3 (List.replicate n cPlus ++ [cDot]) input = some (.ok, s) ∧
      s.output = [n % 256] ∧ s.input = input := by
  unfold runOptInterpreter
  rw [translateProgram_plus_dot]
  rcases Nat.eq_zero_or_pos n with rfl | hn
  · simp [foldedRun, runOps, execOp, writeLoop, VM.init, inBounds, MEMORY_SIZE]
  · simp [foldedRun, Nat.pos_iff_ne_zero.mp hn, kindOfChar, runOps, execOp, writeLoop, VM.init,
      inBounds, MEMORY_SIZE, byteOf_natCast]

/-- C15, as amended: for every `n ≥ 0` the program `+^n .` runs through the
optimized pipeline to a normal end and prints exactly one character, the
code point `n mod 256`; standard output receives the single byte `n mod 256`
when `n mod 256 < 128`, and the two bytes of the UTF-8 encoding of that code
point otherwise. -/
theorem wraparound_output (n : Nat) (input : List Nat) :
    ∃ s, runOptInterpreter 3 (List.replicate n cPlus ++ [cDot]) input = some (.ok, s) ∧
      s.output = [n % 256] ∧ s.input = input ∧
      (n % 256 < 128 → stdoutBytes s.output = [n % 256]) ∧
      (128 ≤ n % 256 →
        stdoutBytes s.output = [192 + n % 256 / 64, 128 + n % 256 % 64]) := by
  obtain ⟨s, hs, hout, hin⟩ := runOptInterpreter_plus_dot n input
  refine ⟨s, hs, hout, hin, ?_, ?_⟩
  · intro h
    simp [hout, stdoutBytes, utf8OfByte, h]
  · intro h
    have h' : ¬ n % 256 < 128 := by omega
    simp [hout, stdoutBytes, utf8OfByte, h']

/-- C15 as stated fails for `n = 128`: the run of `+^128 .` writes the two
bytes 194, 128 to standard output, not the single byte 128. -/
theorem wraparound_output_two_bytes :
    ∃ s, runOptInterpreter 3 (List.replicate 128 cPlus ++ [cDot]) [] = some (.ok, s) ∧
      stdoutBytes s.output = [194, 128] ∧ stdoutBytes s.output ≠ [128] := by
  obtain ⟨s, hs, hout, _⟩ := runOptInterpreter_plus_dot 128 []
  refine ⟨s, hs, ?_, ?_⟩
  · simp [hout, stdoutBytes, utf8OfByte]
  · simp [hout, stdoutBytes, utf8OfByte]

/-- The bytecode of `+^n [-] .`. -/
theorem translateProgram_plus_clear_dot (n : Nat) :
    translateProgram (List.replicate n cPlus ++ [cOpen, cMinus, cClose, cDot]) =
      .ok (foldedRun cPlus n ++ [⟨.LOOP_SET_TO_ZERO, 0⟩, ⟨.WRITE_STDOUT, 1⟩]) := by
  rw [translateProgram_eq_ok]
  refine ⟨[], ?_⟩
  rw [translateLoop_run_any cPlus n (by decide) (by decide) cOpen (by decide),
    translateLoop_clear_loop, translateLoop_last cDot (by decide) (by decide)]
  simp [kindOfChar]

/-- C17: for every `n ≥ 0` the program `+^n [-] .` runs through the optimized
pipeline to a normal end and emits exactly one byte, the zero byte, reading
no input; `+++[-].` is the case `n = 3`. -/
theorem clear_then_output (n : Nat) (input : List Nat) :
    ∃ s, runOptInterpreter 4 (List.replicate n cPlus ++ [cOpen, cMinus, cClose, cDot]) input =
        some (.ok, s) ∧
      s.output = [0] ∧ stdoutBytes s.output = [0] ∧ s.input = input := by
  unfold runOptInterpreter
  rw [translateProgram_plus_clear_dot]
  rcases Nat.eq_zero_or_pos n with rfl | hn
  · simp [foldedRun, runOps, execOp, writeLoop, VM.init, inBounds, MEMORY_SIZE, stdoutBytes,
      utf8OfByte]
  · simp [foldedRun, Nat.pos_iff_ne_zero.mp hn, kindOfChar, runOps, execOp, writeLoop, VM.init,
      inBounds, MEMORY_SIZE, stdoutBytes, utf8OfByte]

/-- The case `+++[-].`, computed from the source text. -/
theorem clear_then_output_three :
    ∃ s, runOptInterpreter 4 [cPlus, cPlus, cPlus, cOpen, cMinus, cClose, cDot] [] =
        some (.ok, s) ∧ stdoutBytes s.output = [0] := by
  simp [runOptInterpreter, translateProgram, translateLoop, optimizedLoop, kindOfChar, runOps,
    execOp, writeLoop, VM.init, inBounds, MEMORY_SIZE, byteOf, stdoutBytes, utf8OfByte]
/-- The bytecode of `+^a > +^b < [->+<]`. -/
theorem translateProgram_move_program (a b : Nat) :
    translateProgram (List.replicate a cPlus ++ cRight :: (List.replicate b cPlus ++
        cLeft :: [cOpen, cMinus, cRight, cPlus, cLeft, cClose])) =
      .ok (foldedRun cPlus a ++ [⟨.INC_PTR, 1⟩] ++ foldedRun cPlus b ++
        [⟨.DEC_PTR, 1⟩, ⟨.LOOP_MOVE_DATA, 1⟩]) := by
  rw [translateProgram_eq_ok]
  refine ⟨[], ?_⟩
  rw [translateLoop_run_any cPlus a (by decide) (by decide) cRight (by decide)]
  have e1 : translateLoop (cRight :: (List.replicate b cPlus ++
        cLeft :: [cOpen, cMinus, cRight, cPlus, cLeft, cClose])) (0 + a) ([] ++ foldedRun cPlus a) [] =
      translateLoop (List.replicate b cPlus ++
        cLeft :: [cOpen, cMinus, cRight, cPlus, cLeft, cClose]) (0 + a + 1)
        ([] ++ foldedRun cPlus a ++ [⟨kindOfChar cRight, 1⟩]) [] := by
    rcases Nat.eq_zero_or_pos b with rfl | hb
    · exact translateLoop_single cRight (by decide) (by decide) cLeft (by decide) _ _ _ _
    · obtain ⟨m, rfl⟩ : ∃ m, b = m + 1 := ⟨b - 1, by omega⟩
      rw [List.replicate_succ, List.cons_append]
      exact translateLoop_single cRight (by decide) (by decide) cPlus (by decide) _ _ _ _
  rw [e1, translateLoop_run_any cPlus b (by decide) (by decide) cLeft (by decide),
    translateLoop_single cLeft (by decide) (by decide) cOpen (by decide),
    translateLoop_move_loop, translateLoop_nil]
  simp [kindOfChar]

/-- C16: for all `a` and `b` (in particular all byte values) the program
`+^a > +^b < [->+<]` runs through the optimized pipeline to a normal end with
cell 0 at 0, cell 1 at `(a + b) mod 256`, the pointer at cell 0, every other
cell 0, nothing printed and no input read; for `a = 5`, `b = 0` it leaves
cell 0 = 0 and cell 1 = 5. -/
theorem move_loop_effect (a b : Nat) (input : List Nat) :
    (∃ s, runOptInterpreter 6 (List.replicate a cPlus ++ cRight :: (List.replicate b cPlus ++
        cLeft :: [cOpen, cMinus, cRight, cPlus, cLeft, cClose])) input = some (.ok, s) ∧
      s.dataPtr = 0 ∧ s.memory 0 = 0 ∧ s.memory 1 = (a + b) % 256 ∧
      (∀ i : Int, i ≠ 0 → i ≠ 1 → s.memory i = 0) ∧
      s.output = [] ∧ s.input = input) ∧
    (∃ s, runOptInterpreter 6 (List.replicate 5 cPlus ++ cRight :: (List.replicate 0 cPlus ++
        cLeft :: [cOpen, cMinus, cRight, cPlus, cLeft, cClose])) input = some (.ok, s) ∧
      s.memory 0 = 0 ∧ s.memory 1 = 5) := by
  have main : ∀ a b : Nat,
      ∃ s, runOptInterpreter 6 (List.replicate a cPlus ++ cRight :: (List.replicate b cPlus ++
        cLeft :: [cOpen, cMinus, cRight, cPlus, cLeft, cClose])) input = some (.ok, s) ∧
      s.dataPtr = 0 ∧ s.memory 0 = 0 ∧ s.memory 1 = (a + b) % 256 ∧
      (∀ i : Int, i ≠ 0 → i ≠ 1 → s.memory i = 0) ∧
      s.output = [] ∧ s.input = input := by
    intro a b
    unfold runOptInterpreter
    rw [translateProgram_move_program]
    have h01 : (0 : Int) ≠ 1 := by decide
    have h10 : (1 : Int) ≠ 0 := by decide
    rcases Nat.eq_zero_or_pos a with rfl | ha <;> rcases Nat.eq_zero_or_pos b with rfl | hb
    · simp [foldedRun, runOps, execOp, VM.init, inBounds, MEMORY_SIZE]
    · simp [foldedRun, Nat.pos_iff_ne_zero.mp hb, kindOfChar, runOps, execOp, VM.init, inBounds,
        MEMORY_SIZE, byteOf_natCast]
      intro i h0 h1
      simp [Function.update_apply, h1]
    · by_cases hz : a % 256 = 0
      · simp [foldedRun, Nat.pos_iff_ne_zero.mp ha, kindOfChar, runOps, execOp, VM.init,
          inBounds, MEMORY_SIZE, byteOf_natCast, hz]
      · have hpos : 0 < a % 256 := Nat.pos_of_ne_zero hz
        simp [foldedRun, Nat.pos_iff_ne_zero.mp ha, kindOfChar, runOps, execOp, VM.init,
          inBounds, MEMORY_SIZE, byteOf_natCast, hpos, Function.update_apply]
        intro i h0 h1
        simp [h0, h1]
    · by_cases hz : a % 256 = 0
      · simp [foldedRun, Nat.pos_iff_ne_zero.mp ha, Nat.pos_iff_ne_zero.mp hb, kindOfChar,
          runOps, execOp, VM.init, inBounds, MEMORY_SIZE, byteOf_natCast, hz,
          Function.update_apply]
        refine ⟨by omega, ?_⟩
        intro i h0 h1
        simp [h0, h1]
      · have hpos : 0 < a % 256 := Nat.pos_of_ne_zero hz
        simp [foldedRun, Nat.pos_iff_ne_zero.mp ha, Nat.pos_iff_ne_zero.mp hb, kindOfChar,
          runOps, execOp, VM.init, inBounds, MEMORY_SIZE, byteOf_natCast, hpos,
          Function.update_apply]
        refine ⟨by omega, ?_⟩
        intro i h0 h1
        simp [h0, h1]
  refine ⟨main a b, ?_⟩
  obtain ⟨s, hs, _, h0, h1, _⟩ := main 5 0
  exact ⟨s, hs, h0, by simpa using h1⟩

/-! ## Folded ops against symbol-by-symbol execution -/

theorem execChar_right (p : List Nat) (s : VM) :
    execChar p cRight s = .next { s with dataPtr := s.dataPtr + 1, pc := s.pc + 1 } := by
  simp [execChar]

theorem execChar_left (p : List Nat) (s : VM) :
    execChar p cLeft s = .next { s with dataPtr := s.dataPtr - 1, pc := s.pc + 1 } := by
  simp [execChar]

theorem execChar_plus (p : List Nat) (s : VM) :
    execChar p cPlus s =
      if inBounds s.dataPtr then
        .next { s with
          memory := Function.update s.memory s.dataPtr ((s.memory s.dataPtr + 1) % 256),
          pc := s.pc + 1 }
      else .halt .panic s := by
  simp [execChar]

theorem execChar_minus (p : List Nat) (s : VM) :
    execChar p cMinus s =
      if inBounds s.dataPtr then
        .next { s with
          memory := Function.update s.memory s.dataPtr ((s.memory s.dataPtr + 255) % 256),
          pc := s.pc + 1 }
      else .halt .panic s := by
  simp [execChar]

theorem execChar_dot (p : List Nat) (s : VM) :
    execChar p cDot s =
      if inBounds s.dataPtr then
        .next { s with output := s.output ++ [s.memory s.dataPtr], pc := s.pc + 1 }
      else .halt .panic s := by
  simp [execChar]

theorem execChar_comma (p : List Nat) (s : VM) :
    execChar p cComma s =
      match s.input with
      | [] => .halt (.error .readEOF) s
      | b :: bs =>
        if inBounds s.dataPtr then
          .next { s with
            input := bs, memory := Function.update s.memory s.dataPtr b, pc := s.pc + 1 }
        else .halt .panic { s with input := bs } := by
  cases hinp : s.input <;> simp [execChar, hinp]

theorem execChar_foldable_pc (p : List Nat) (c : Nat) (hc : isFoldable c) (s s' : VM)
    (h : execChar p c s = .next s') : s'.pc = s.pc + 1 := by
  rcases hc with rfl | rfl | rfl | rfl | rfl | rfl
  · rw [execChar_right] at h
    rw [← Step.next.inj h]
  · rw [execChar_left] at h
    rw [← Step.next.inj h]
  · rw [execChar_plus] at h
    split at h
    · rw [← Step.next.inj h]
    · simp at h
  · rw [execChar_minus] at h
    split at h
    · rw [← Step.next.inj h]
    · simp at h
  · rw [execChar_comma] at h
    split at h
    · simp at h
    · split at h
      · rw [← Step.next.inj h]
      · simp at h
  · rw [execChar_dot] at h
    split at h
    · rw [← Step.next.inj h]
    · simp at h

theorem stepChars_pc (p : List Nat) (c : Nat) (hc : isFoldable c) (n : Nat) (s s' : VM)
    (h : stepChars p c n s = .next s') : s'.pc = s.pc + n := by
  induction n generalizing s with
  | zero =>
    simp [stepChars] at h
    rw [← h]
    simp
  | succ k ih =>
    simp only [stepChars] at h
    cases he : execChar p c s with
    | next t =>
      rw [he] at h
      have h1 := execChar_foldable_pc p c hc s t he
      have h2 := ih t h
      rw [h2, h1]
      push_cast
      ring
    | halt out t =>
      rw [he] at h
      simp at h

/-- The loop of `runSimpleInterpreter` over a run of `n` copies of a symbol. -/
theorem runChars_run (p : List Nat) (c : Nat) (hc : isFoldable c) (n fuel : Nat) (s : VM)
    (h0 : 0 ≤ s.pc) (hp : ∀ i, i < n → p[s.pc.toNat + i]? = some c) :
    runChars p (fuel + n) s =
      match stepChars p c n s with
      | .next s' => runChars p fuel s'
      | .halt out s' => some (out, s') := by
  induction n generalizing s with
  | zero => simp [stepChars]
  | succ k ih =>
    have hfetch : p[s.pc.toNat]? = some c := by simpa using hp 0 (by omega)
    have hlt : s.pc < p.length := by
      have := (List.getElem?_eq_some.mp hfetch).1
      omega
    rw [show fuel + (k + 1) = (fuel + k) + 1 by omega]
    simp only [runChars, hlt, if_true, not_lt.mpr h0, if_false, hfetch, stepChars]
    cases he : execChar p c s with
    | next t =>
      simp only
      have hpc := execChar_foldable_pc p c hc s t he
      apply ih t (by omega)
      intro i hi
      have := hp (i + 1) (by omega)
      have e : t.pc.toNat + i = s.pc.toNat + (i + 1) := by omega
      rw [e]
      exact this
    | halt out t => rfl
theorem stepChars_right (p : List Nat) (n : Nat) (s : VM) :
    stepChars p cRight n s =
      .next { s with dataPtr := s.dataPtr + n, pc := s.pc + n } := by
  induction n generalizing s with
  | zero => simp [stepChars]
  | succ k ih =>
    simp only [stepChars, execChar_right]
    rw [ih]
    congr 1
    ext <;> simp <;> ring

theorem stepChars_left (p : List Nat) (n : Nat) (s : VM) :
    stepChars p cLeft n s =
      .next { s with dataPtr := s.dataPtr - n, pc := s.pc + n } := by
  induction n generalizing s with
  | zero => simp [stepChars]
  | succ k ih =>
    simp only [stepChars, execChar_left]
    rw [ih]
    congr 1
    ext <;> simp <;> ring

theorem stepChars_plus (p : List Nat) (n : Nat) (s : VM) :
    stepChars p cPlus (n + 1) s =
      if inBounds s.dataPtr then
        .next { s with
          memory := Function.update s.memory s.dataPtr ((s.memory s.dataPtr + (n + 1)) % 256),
          pc := s.pc + (n + 1 : Nat) }
      else .halt .panic s := by
  induction n generalizing s with
  | zero =>
    by_cases hb : inBounds s.dataPtr <;> simp [stepChars, execChar_plus, hb]
  | succ k ih =>
    rw [stepChars, execChar_plus]
    by_cases hb : inBounds s.dataPtr
    · simp only [hb, if_true]
      rw [ih]
      simp only [hb, if_true, Function.update_same, Function.update_idem]
      congr 1
      ext
      · simp
        ring
      · rfl
      · simp only
        congr 1
        omega
      · rfl
      · rfl
    · simp [hb]

theorem stepChars_minus (p : List Nat) (n : Nat) (s : VM) :
    stepChars p cMinus (n + 1) s =
      if inBounds s.dataPtr then
        .next { s with
          memory := Function.update s.memory s.dataPtr
            ((s.memory s.dataPtr + 255 * (n + 1)) % 256),
          pc := s.pc + (n + 1 : Nat) }
      else .halt .panic s := by
  induction n generalizing s with
  | zero =>
    by_cases hb : inBounds s.dataPtr <;> simp [stepChars, execChar_minus, hb]
  | succ k ih =>
    rw [stepChars, execChar_minus]
    by_cases hb : inBounds s.dataPtr
    · simp only [hb, if_true]
      rw [ih]
      simp only [hb, if_true, Function.update_same, Function.update_idem]
      congr 1
      ext
      · simp
        ring
      · rfl
      · simp only
        have e : ((s.memory s.dataPtr + 255) % 256 + 255 * (k + 1)) % 256 =
            (s.memory s.dataPtr + 255 * (k + 1 + 1)) % 256 := by omega
        rw [e]
      · rfl
      · rfl
    · simp [hb]

theorem stepChars_dot (p : List Nat) (n : Nat) (s : VM) :
    stepChars p cDot (n + 1) s =
      if inBounds s.dataPtr then
        .next { s with
          output := s.output ++ List.replicate (n + 1) (s.memory s.dataPtr),
          pc := s.pc + (n + 1 : Nat) }
      else .halt .panic s := by
  induction n generalizing s with
  | zero =>
    by_cases hb : inBounds s.dataPtr <;> simp [stepChars, execChar_dot, hb]
  | succ k ih =>
    rw [stepChars, execChar_dot]
    by_cases hb : inBounds s.dataPtr
    · simp only [hb, if_true]
      rw [ih]
      simp only [hb, if_true]
      congr 1
      ext
      · simp
        ring
      · rfl
      · rfl
      · rfl
      · simp [List.replicate_succ]
    · simp [hb]

/-- The loop of `case WRITE_STDOUT` prints the cell `n` times. -/
theorem writeLoop_succ (n : Nat) (s : VM) :
    writeLoop (n + 1) s =
      if inBounds s.dataPtr then
        .next { s with output := s.output ++ List.replicate (n + 1) (s.memory s.dataPtr) }
      else .halt .panic s := by
  induction n generalizing s with
  | zero =>
    by_cases hb : inBounds s.dataPtr <;> simp [writeLoop, hb]
  | succ k ih =>
    rw [writeLoop]
    by_cases hb : inBounds s.dataPtr
    · simp only [hb, if_true]
      rw [ih]
      simp only [hb, if_true]
      congr 1
      ext
      · rfl
      · rfl
      · rfl
      · rfl
      · simp [List.replicate_succ]
    · simp [hb]

theorem SameData.refl (s : VM) : SameData s s := ⟨rfl, rfl, rfl, rfl⟩

/-- The loop of `case READ_STDIN` and `n` passes on `,` read alike. -/
theorem readLoop_stepChars (p : List Nat) (n : Nat) (s1 s2 : VM) (h : SameData s1 s2) :
    StepAgree (readLoop n s1) (stepChars p cComma n s2) := by
  induction n generalizing s1 s2 with
  | zero => simpa [readLoop, stepChars, StepAgree] using h
  | succ k ih =>
    obtain ⟨hptr, hmem, hin, hout⟩ := h
    rw [readLoop, stepChars, execChar_comma]
    cases hi : s2.input with
    | nil =>
      rw [hi] at hin
      simp only [hin]
      exact ⟨rfl, hptr, hmem, by rw [hin, hi], hout⟩
    | cons b bs =>
      rw [hi] at hin
      simp only [hin]
      by_cases hb : inBounds s2.dataPtr
      · have hb1 : inBounds s1.dataPtr := by rw [hptr]; exact hb
        simp only [hb, hb1, if_true]
        apply ih
        exact ⟨hptr, by simp only; rw [hmem, hptr], rfl, hout⟩
      · have hb1 : ¬ inBounds s1.dataPtr := by rw [hptr]; exact hb
        simp only [hb, hb1, if_false]
        exact ⟨rfl, hptr, hmem, rfl, hout⟩
theorem kindOfChar_foldable_cases (c : Nat) (hc : isFoldable c) :
    kindOfChar c = .INC_PTR ∨ kindOfChar c = .DEC_PTR ∨ kindOfChar c = .INC_DATA ∨
      kindOfChar c = .DEC_DATA ∨ kindOfChar c = .READ_STDIN ∨ kindOfChar c = .WRITE_STDOUT := by
  rcases hc with rfl | rfl | rfl | rfl | rfl | rfl <;> decide

theorem readLoop_pc (n : Nat) (s t : VM) (h : readLoop n s = .next t) : t.pc = s.pc := by
  induction n generalizing s with
  | zero =>
    simp [readLoop] at h
    rw [h]
  | succ k ih =>
    simp only [readLoop] at h
    split at h
    · simp at h
    · split at h
      · have := ih _ h
        simpa using this
      · simp at h

theorem writeLoop_pc (n : Nat) (s t : VM) (h : writeLoop n s = .next t) : t.pc = s.pc := by
  induction n generalizing s with
  | zero =>
    simp [writeLoop] at h
    rw [h]
  | succ k ih =>
    simp only [writeLoop] at h
    split at h
    · have := ih _ h
      simpa using this
    · simp at h

/-- After a folded op the program counter is at the next op. -/
theorem execOp_foldable_pc (c : Nat) (hc : isFoldable c) (a : Int) (s s' : VM)
    (h : execOp ⟨kindOfChar c, a⟩ s = .next s') : s'.pc = s.pc + 1 := by
  rcases kindOfChar_foldable_cases c hc with hk | hk | hk | hk | hk | hk <;>
    rw [hk] at h <;> simp only [execOp] at h
  · rw [← Step.next.inj h]
  · rw [← Step.next.inj h]
  · split at h
    · rw [← Step.next.inj h]
    · simp at h
  · split at h
    · rw [← Step.next.inj h]
    · simp at h
  · split at h
    · rename_i t ht
      rw [← Step.next.inj h]
      simp only [add_left_inj]
      exact readLoop_pc _ _ _ ht
    · simp at h
  · split at h
    · rename_i t ht
      rw [← Step.next.inj h]
      simp only [add_left_inj]
      exact writeLoop_pc _ _ _ ht
    · simp at h

/-- The folded op of a run of `n + 1` copies of a symbol and `n + 1` passes of
the rescanning interpreter on that symbol end alike. -/
theorem execOp_stepChars_agree (p : List Nat) (c : Nat) (hc : isFoldable c) (n : Nat)
    (s1 s2 : VM) (h : SameData s1 s2) :
    StepAgree (execOp ⟨kindOfChar c, ((n + 1 : Nat) : Int)⟩ s1) (stepChars p c (n + 1) s2) := by
  obtain ⟨pc1, ptr1, mem1, inp1, out1⟩ := s1
  obtain ⟨pc2, ptr2, mem2, inp2, out2⟩ := s2
  obtain ⟨hptr, hmem, hin, hout⟩ := h
  simp only at hptr hmem hin hout
  subst hptr hmem hin hout
  rcases hc with rfl | rfl | rfl | rfl | rfl | rfl
  · rw [stepChars_right]
    simp [kindOfChar, execOp, StepAgree, SameData]
  · rw [stepChars_left]
    simp [kindOfChar, execOp, StepAgree, SameData]
  · rw [stepChars_plus]
    by_cases hb : inBounds ptr1
    · have e' : byteOf ((n : Int) + 1) = (n + 1) % 256 := by
        have := byteOf_natCast (n + 1)
        push_cast at this
        exact this
      have e : (mem1 ptr1 + byteOf ((n : Int) + 1)) % 256 = (mem1 ptr1 + (n + 1)) % 256 := by
        rw [e']
        omega
      simp [kindOfChar, execOp, StepAgree, SameData, hb, e]
    · simp [kindOfChar, execOp, StepAgree, SameData, hb]
  · rw [stepChars_minus]
    by_cases hb : inBounds ptr1
    · have e' : byteOf ((n : Int) + 1) = (n + 1) % 256 := by
        have := byteOf_natCast (n + 1)
        push_cast at this
        exact this
      have e : (mem1 ptr1 + 256 - byteOf ((n : Int) + 1)) % 256 =
          (mem1 ptr1 + 255 * (n + 1)) % 256 := by
        rw [e']
        omega
      simp [kindOfChar, execOp, StepAgree, SameData, hb, e]
    · simp [kindOfChar, execOp, StepAgree, SameData, hb]
  · have hr := readLoop_stepChars p (n + 1) ⟨pc1, ptr1, mem1, inp1, out1⟩
      ⟨pc2, ptr1, mem1, inp1, out1⟩ ⟨rfl, rfl, rfl, rfl⟩
    have hk : kindOfChar cComma = .READ_STDIN := by decide
    simp only [hk, execOp, Int.toNat_ofNat]
    cases h1 : readLoop (n + 1) ⟨pc1, ptr1, mem1, inp1, out1⟩ with
    | next t1 =>
      rw [h1] at hr
      cases h2 : stepChars p cComma (n + 1) ⟨pc2, ptr1, mem1, inp1, out1⟩ with
      | next t2 =>
        rw [h2] at hr
        exact hr
      | halt o2 t2 =>
        rw [h2] at hr
        exact hr.elim
    | halt o1 t1 =>
      rw [h1] at hr
      cases h2 : stepChars p cComma (n + 1) ⟨pc2, ptr1, mem1, inp1, out1⟩ with
      | next t2 =>
        rw [h2] at hr
        exact hr.elim
      | halt o2 t2 =>
        rw [h2] at hr
        exact hr
  · rw [stepChars_dot]
    have hk : kindOfChar cDot = .WRITE_STDOUT := by decide
    simp only [hk, execOp, Int.toNat_ofNat, writeLoop_succ]
    by_cases hb : inBounds ptr1
    · simp [StepAgree, SameData, hb]
    · simp [StepAgree, SameData, hb]
theorem getElem?_run (c : Nat) (cs : List Nat) (j : Nat)
    (hj : j < (cs.takeWhile (fun x => decide (x = c))).length) : cs[j]? = some c := by
  have e := List.takeWhile_append_dropWhile (fun x => decide (x = c)) cs
  have h1 : cs[j]? = (cs.takeWhile (fun x => decide (x = c)))[j]? := by
    conv_lhs => rw [← e]
    exact List.getElem?_append_left hj
  rw [h1, takeWhile_eq_replicate c cs, List.getElem?_replicate]
  simp [hj]

/-- On a text without brackets, from states with the same data, the folded
bytecode and the rescanning interpreter end the same way with the same
data. -/
theorem folded_run_agrees (rest : List Nat) (pc : Nat) (ops : List Op) (stack : List Nat) :
    (∀ c ∈ rest, isFoldable c) → ∀ r, translateLoop rest pc ops stack = .ok r →
    ∀ (pre : List Nat) (s1 s2 : VM), s1.pc = ops.length → s2.pc = pre.length →
      SameData s1 s2 →
      ∃ (out : Outcome) (t1 t2 : VM) (f1 f2 : Nat),
        runOps r.1 f1 s1 = some (out, t1) ∧
        runChars (pre ++ rest) f2 s2 = some (out, t2) ∧ SameData t1 t2 := by
  induction rest, pc, ops, stack using translateLoop.induct with
  | case1 pc ops stack =>
    intro _ r hr pre s1 s2 h1 h2 hsame
    simp [translateLoop_nil] at hr
    subst hr
    refine ⟨.ok, s1, s2, 1, 1, ?_, ?_, hsame⟩
    · exact runOps_done _ 0 _ (by simp [h1])
    · simp [runChars, h2]
  | case2 pc ops stack cs ih =>
    intro h
    exact absurd (h cOpen (by simp)) (by decide)
  | case3 pc ops cs hne =>
    intro h
    exact absurd (h cClose (by simp)) (by decide)
  | case4 pc ops cs start stack' optimizedOps hlen hne ih =>
    intro h
    exact absurd (h cClose (by simp)) (by decide)
  | case5 pc ops cs start stack' optimizedOps hlen hne ih =>
    intro h
    exact absurd (h cClose (by simp)) (by decide)
  | case6 pc ops stack c cs hno hnc repeatNum ih =>
    intro hrest r hr pre s1 s2 h1 h2 hsame
    have hc : isFoldable c := hrest c (by simp)
    have hrest' : ∀ x ∈ cs.dropWhile (fun x => decide (x = c)), isFoldable x := by
      intro x hx
      exact hrest x (List.mem_cons_of_mem _ ((List.dropWhile_sublist _).subset hx))
    rw [translateLoop_run c cs pc ops stack hno hnc] at hr
    obtain ⟨ops', hf, _⟩ := translateLoop_folds (cs.dropWhile (fun x => decide (x = c)))
      (pc + repeatNum) (ops ++ [⟨kindOfChar c, (repeatNum : Nat)⟩]) stack hrest'
    have hr' := hr
    rw [hf] at hr'
    have hr1 : r.1 = ops ++ [⟨kindOfChar c, (repeatNum : Nat)⟩] ++ ops' := by
      rw [← Except.ok.inj hr']
    have h1nn : 0 ≤ s1.pc := by omega
    have h2nn : 0 ≤ s2.pc := by omega
    have hfetch : r.1[s1.pc.toNat]? = some ⟨kindOfChar c, (repeatNum : Nat)⟩ := by
      rw [hr1, h1, Int.toNat_ofNat, List.append_assoc]
      have := getElem?_append_length_add ops ([⟨kindOfChar c, (repeatNum : Nat)⟩] ++ ops') 0
      simpa using this
    have hp : ∀ i, i < repeatNum → (pre ++ c :: cs)[s2.pc.toNat + i]? = some c := by
      intro i hi
      rw [h2, Int.toNat_ofNat, List.getElem?_append_right (by omega)]
      simp only [Nat.add_sub_cancel_left]
      rcases Nat.eq_zero_or_pos i with rfl | hpos
      · simp
      · obtain ⟨j, rfl⟩ : ∃ j, i = j + 1 := ⟨i - 1, by omega⟩
        rw [List.getElem?_cons_succ]
        exact getElem?_run c cs j (by simp only [repeatNum] at hi; omega)
    have hagree := execOp_stepChars_agree (pre ++ c :: cs) c hc
      (cs.takeWhile (fun x => decide (x = c))).length s1 s2 hsame
    have hpre : pre ++ c :: cs.takeWhile (fun x => decide (x = c)) ++
        cs.dropWhile (fun x => decide (x = c)) = pre ++ c :: cs := by
      rw [List.append_assoc, List.cons_append, List.takeWhile_append_dropWhile]
    cases he : execOp ⟨kindOfChar c, (repeatNum : Nat)⟩ s1 with
    | next s1' =>
      cases hs : stepChars (pre ++ c :: cs) c repeatNum s2 with
      | next s2' =>
        simp only [repeatNum] at he hs
        rw [he, hs] at hagree
        have hpc1 := execOp_foldable_pc c hc _ s1 s1' he
        have hpc2 := stepChars_pc (pre ++ c :: cs) c hc _ s2 s2' hs
        obtain ⟨out, t1, t2, f1, f2, hrun1, hrun2, hst⟩ :=
          ih hrest' r hr (pre ++ c :: cs.takeWhile (fun x => decide (x = c))) s1' s2'
            (by rw [hpc1, h1]; simp)
            (by rw [hpc2, h2]; simp)
            hagree
        rw [hpre] at hrun2
        refine ⟨out, t1, t2, f1 + 1, f2 + repeatNum, ?_, ?_, hst⟩
        · rw [runOps_next r.1 f1 s1 s1' _ h1nn hfetch he]
          exact hrun1
        · rw [runChars_run (pre ++ c :: cs) c hc repeatNum f2 s2 h2nn hp]
          simp only [repeatNum, hs]
          exact hrun2
      | halt o2 s2' =>
        simp only [repeatNum] at he hs
        rw [he, hs] at hagree
        exact hagree.elim
    | halt o1 s1' =>
      cases hs : stepChars (pre ++ c :: cs) c repeatNum s2 with
      | next s2' =>
        simp only [repeatNum] at he hs
        rw [he, hs] at hagree
        exact hagree.elim
      | halt o2 s2' =>
        simp only [repeatNum] at he hs
        rw [he, hs] at hagree
        obtain ⟨ho, hst⟩ := hagree
        subst ho
        refine ⟨o1, s1', s2', 1, 0 + repeatNum, ?_, ?_, hst⟩
        · exact runOps_halt r.1 0 s1 s1' _ o1 h1nn hfetch he
        · rw [runChars_run (pre ++ c :: cs) c hc repeatNum 0 s2 h2nn hp]
          simp only [repeatNum, hs]
/-- With enough input and the pointer inside the tape, the loop of
`case READ_STDIN` consumes one byte per pass and leaves the last one in the
cell. -/
theorem readLoop_enough (bs : List Nat) (b : Nat) (rest : List Nat) (s : VM)
    (hb : inBounds s.dataPtr) (hin : s.input = bs ++ b :: rest) :
    readLoop (bs.length + 1) s =
      .next { s with input := rest, memory := Function.update s.memory s.dataPtr b } := by
  induction bs generalizing s with
  | nil =>
    simp only [List.nil_append] at hin
    simp [readLoop, hin, hb]
  | cons x xs ih =>
    simp only [List.cons_append] at hin
    rw [List.length_cons, readLoop]
    simp only [hin, hb, if_true]
    rw [ih ⟨s.pc, s.dataPtr, Function.update s.memory s.dataPtr x, xs ++ b :: rest, s.output⟩
      hb rfl]
    simp

/-- With too little input and the pointer inside the tape, the loop of
`case READ_STDIN` returns the read error once the input is used up. -/
theorem readLoop_short (n : Nat) (s : VM) (hb : inBounds s.dataPtr)
    (hlen : s.input.length < n) :
    ∃ s', readLoop n s = .halt (.error .readEOF) s' ∧ s'.input = [] := by
  induction n generalizing s with
  | zero => omega
  | succ k ih =>
    rw [readLoop]
    cases hi : s.input with
    | nil => exact ⟨s, rfl, hi⟩
    | cons x xs =>
      simp only [hb, if_true]
      apply ih
      · exact hb
      · rw [hi] at hlen
        simp only [List.length_cons] at hlen ⊢
        omega

/-- C20: for every source program without brackets and every state at the
start (any tape, pointer, input and output so far), the folded bytecode of
`translateProgram` run by the dispatch of `runOptInterpreter` and the source
run one symbol at a time by the loop of `runSimpleInterpreter` both end, with
the same outcome (normal end, read error or panic), tape, pointer, input left
and characters printed. In particular, with the pointer inside the tape,
`WRITE_STDOUT n` prints the cell `n` times, `READ_STDIN n` consumes `n` input
bytes and leaves the last one in the cell, and returns the read error when
fewer than `n` are left; `INC_PTR n` and `DEC_PTR n` move the pointer by `n`;
`INC_DATA n` and `DEC_DATA n` change the cell by `n` modulo 256. -/
theorem folding_preserves_execution (p : List Nat) (hp : ∀ c ∈ p, isFoldable c) (s : VM)
    (hpc : s.pc = 0) :
    (∃ ops, translateProgram p = .ok ops ∧
      ∃ (out : Outcome) (t1 t2 : VM) (f1 f2 : Nat),
        runOps ops f1 s = some (out, t1) ∧ runChars p f2 s = some (out, t2) ∧
        t1.memory = t2.memory ∧ t1.dataPtr = t2.dataPtr ∧
        t1.output = t2.output ∧ t1.input = t2.input) ∧
    (∀ (n : Nat) (t : VM), inBounds t.dataPtr →
      execOp ⟨.WRITE_STDOUT, (n : Int)⟩ t =
        .next { t with
          output := t.output ++ List.replicate n (t.memory t.dataPtr), pc := t.pc + 1 }) ∧
    (∀ (n : Nat) (t : VM) (bs : List Nat) (b : Nat) (rest : List Nat), inBounds t.dataPtr →
      t.input = bs ++ b :: rest → n = bs.length + 1 →
      execOp ⟨.READ_STDIN, (n : Int)⟩ t =
        .next { t with
          input := rest, memory := Function.update t.memory t.dataPtr b, pc := t.pc + 1 }) ∧
    (∀ (n : Nat) (t : VM), inBounds t.dataPtr → t.input.length < n →
      ∃ t', execOp ⟨.READ_STDIN, (n : Int)⟩ t = .halt (.error .readEOF) t' ∧ t'.input = []) ∧
    (∀ (n : Nat) (t : VM),
      execOp ⟨.INC_PTR, (n : Int)⟩ t = .next { t with dataPtr := t.dataPtr + n, pc := t.pc + 1 } ∧
      execOp ⟨.DEC_PTR, (n : Int)⟩ t =
        .next { t with dataPtr := t.dataPtr - n, pc := t.pc + 1 }) ∧
    (∀ (n : Nat) (t : VM), inBounds t.dataPtr →
      execOp ⟨.INC_DATA, (n : Int)⟩ t =
        .next { t with
          memory := Function.update t.memory t.dataPtr ((t.memory t.dataPtr + n) % 256),
          pc := t.pc + 1 } ∧
      execOp ⟨.DEC_DATA, (n : Int)⟩ t =
        .next { t with
          memory := Function.update t.memory t.dataPtr
            ((((t.memory t.dataPtr : Nat) : Int) - (n : Int)) % 256).toNat,
          pc := t.pc + 1 }) := by
  refine ⟨?_, ?_, ?_, ?_, ?_, ?_⟩
  · obtain ⟨ops, hops, _⟩ := translateLoop_folds p 0 [] [] hp
    simp only [List.nil_append] at hops
    obtain ⟨out, t1, t2, f1, f2, h1, h2, hptr, hmem, hin, hout⟩ :=
      folded_run_agrees p 0 [] [] hp _ hops [] s s (by simp [hpc]) (by simp [hpc])
        (SameData.refl s)
    refine ⟨ops, (translateProgram_eq_ok p ops).mpr ⟨[], hops⟩, out, t1, t2, f1, f2, h1, ?_,
      hmem, hptr, hout, hin⟩
    simpa using h2
  · intro n t hb
    rcases Nat.eq_zero_or_pos n with rfl | hn
    · simp [execOp, writeLoop]
    · obtain ⟨m, rfl⟩ : ∃ m, n = m + 1 := ⟨n - 1, by omega⟩
      simp only [execOp, Int.toNat_ofNat, writeLoop_succ, hb, if_true]
  · intro n t bs b rest hb hin hn
    subst hn
    simp only [execOp, Int.toNat_ofNat, readLoop_enough bs b rest t hb hin]
  · intro n t hb hlen
    obtain ⟨t', ht, hempty⟩ := readLoop_short n t hb hlen
    exact ⟨t', by simp only [execOp, Int.toNat_ofNat, ht], hempty⟩
  · intro n t
    exact ⟨rfl, rfl⟩
  · intro n t hb
    constructor
    · have e : (t.memory t.dataPtr + byteOf (n : Int)) % 256 = (t.memory t.dataPtr + n) % 256 := by
        rw [byteOf_natCast]
        omega
      simp only [execOp, hb, if_true, e]
    · have e : (t.memory t.dataPtr + 256 - byteOf (n : Int)) % 256 =
          ((((t.memory t.dataPtr : Nat) : Int) - (n : Int)) % 256).toNat := by
        rw [byteOf_natCast]
        omega
      simp only [execOp, hb, if_true, e]

theorem folding_preserves_execution_witness :
    (∀ c ∈ [cComma, cComma, cPlus, cDot, cDot, cLeft], isFoldable c) ∧
    (VM.init [65]).pc = 0 ∧
    ∃ ops, translateProgram [cComma, cComma, cPlus, cDot, cDot, cLeft] = .ok ops ∧
      ∃ (out : Outcome) (t1 t2 : VM) (f1 f2 : Nat),
        runOps ops f1 (VM.init [65]) = some (out, t1) ∧
        runChars [cComma, cComma, cPlus, cDot, cDot, cLeft] f2 (VM.init [65]) = some (out, t2) ∧
        t1.memory = t2.memory ∧ t1.dataPtr = t2.dataPtr ∧
        t1.output = t2.output ∧ t1.input = t2.input :=
  ⟨by decide, rfl,
    (folding_preserves_execution [cComma, cComma, cPlus, cDot, cDot, cLeft] (by decide)
      (VM.init [65]) rfl).1⟩

/-- The run of `,,+..<` on the one input byte 65, computed: both interpreters
return the read error at the second `,`, with the byte 65 in cell 0. -/
theorem folding_read_error_example :
    (∃ t1, runOps [⟨.READ_STDIN, 2⟩, ⟨.INC_DATA, 1⟩, ⟨.WRITE_STDOUT, 2⟩, ⟨.DEC_PTR, 1⟩] 1
        (VM.init [65]) = some (.error .readEOF, t1) ∧ t1.memory 0 = 65 ∧ t1.input = []) ∧
    (∃ t2, runChars [cComma, cComma, cPlus, cDot, cDot, cLeft] 2 (VM.init [65]) =
        some (.error .readEOF, t2) ∧ t2.memory 0 = 65 ∧ t2.input = []) := by
  constructor
  · simp [runOps, execOp, readLoop, VM.init, inBounds, MEMORY_SIZE]
  · simp [runChars, execChar, VM.init, inBounds, MEMORY_SIZE]

end Brainfxxk
